import Mathlib

/-!
# AVR terminal bootloader: record decoder, page committer and frame reader

A shallow embedding of `src/main.c` and `src/config.h`.

* Machine integers are natural numbers; every place where the C code
  truncates to `uint8_t` or `uint16_t` carries an explicit `% 256` or
  `% 65536`.
* The global arrays `buffer` and `data_buffer` are maps from an index to
  the byte stored there.  The embedding stands for the program as long as
  every index used lies inside the array, for `buffer` below
  `RX_BUFFER_LEN`: what a C program does past the end of an array depends
  on what the linker placed there, and the embedding says nothing about
  it.  `uart_poll` keeps its stores inside the array; `parse_buffer`
  reads `buffer` at indices 1 to `10 + 2 * byte_count`, which lie inside
  exactly when `2 * byte_count + 11 ≤ RX_BUFFER_LEN`, that is for byte
  counts up to 58.  The theorems about what `parse_buffer` does with the
  bytes of a record carry this bound; only facts that do not depend on
  the bytes read, such as whether a loop ends, are stated beyond it.
* `SPM_PAGESIZE` comes from `<avr/io.h>` and is a parameter `P`.
* The UART and the self-programming instructions are external: their
  use is recorded as a trace of `Event`s, in program order.  Busy waits
  and the watchdog reset leave no event.
* Loops that the C code may fail to leave are bounded by a fuel argument
  and give `none` when it runs out.
-/

namespace Bootloader

set_option maxRecDepth 1000000

/-! ## Constants of `config.h` -/

def RX_BUFFER_LEN : Nat := 128

def XON : Nat := 0x11

def XOFF : Nat := 0x13

/-- The character `.` -/
def RSP_DATA_RECORD : Nat := 46

/-- The character `F` -/
def RSP_CRC_ERROR : Nat := 70

/-- The character `X` -/
def RSP_BUFER_OVERFLOW : Nat := 88

/-- The character `O` -/
def RSP_EOF_REACHED : Nat := 79

/-- The character `K` -/
def RSP_WRITE_COMPLETE : Nat := 75

/-! ## Data model -/

/-- A byte array seen as a map from index to byte. -/
abbrev Mem := Nat → Nat

/-- The values of `enum rsp_type`. -/
inductive rsp_type where
  | WRITE_FAIL
  | WRITE_OK
  | WRITE_COMPLETE
  deriving DecidableEq, Repr

/-- Externally visible actions, in program order: a byte sent with
`UART_putchar`, and the three self-programming operations. -/
inductive Event where
  | putchar (c : Nat)
  | page_fill (addr : Nat) (word : Nat)
  | page_erase (addr : Nat)
  | page_write (addr : Nat)
  deriving DecidableEq, Repr

/-- The global variables of `main.c`; `head` is kept as an index into
`buffer`. -/
structure State where
  buffer : Mem
  head : Nat
  data_buffer : Mem
  data_count : Nat
  page : Nat
  page_offset : Nat

/-- How a call ends: it returns a value, or it enters `reboot()`, which
never returns. -/
inductive Outcome where
  | returned (r : rsp_type)
  | reboot
  deriving DecidableEq, Repr

/-- What a call of `parse_buffer` leaves behind. -/
structure Result where
  state : State
  trace : List Event
  outcome : Outcome

/-- Store one byte in an array. -/
def Mem.store (m : Mem) (i v : Nat) : Mem := fun j => if j = i then v else m j

/-! ## Hex decoding -/

/-- Function `hex2dec`: the three branches split at `A` (65) and `a` (97)
and subtract `0` (48), `7` (55) and `W` (87); the result is truncated to
`uint8_t`. -/
def hex2dec (x : Nat) : Nat :=
  if x < 65 then (x + 256 - 48) % 256
  else if x < 97 then (x - 55) % 256
  else (x - 87) % 256

/-- Function `hex2byte`: `(hex2dec(a) << 4) + hex2dec(b)` as `uint8_t`. -/
def hex2byte (a b : Nat) : Nat := (hex2dec a * 16 + hex2dec b) % 256

/-! ## Page committer -/

/-- Function `write_flash_page`: erase, then write, the page at `page`. -/
def write_flash_page (s : State) : List Event :=
  [Event.page_erase s.page, Event.page_write s.page]

/-- One pass through the body of the loop of `page_buffer_push`, with
loop index `i`, without the increment of `i`. -/
def page_buffer_push_body (P : Nat) (i : Nat) (s : State) : State × List Event :=
  let c : State × List Event :=
    if s.page_offset ≥ P then
      ({ s with page := (s.page + P) % 65536, page_offset := 0 }, write_flash_page s)
    else (s, [])
  let s1 := c.1
  let word := s1.data_buffer i + 256 * s1.data_buffer (i + 1)
  ({ s1 with page_offset := (s1.page_offset + 2) % 256 },
    c.2 ++ [Event.page_fill ((s1.page + s1.page_offset) % 65536) word])

/-- The loop `for (uint8_t i = 0; i < data_count; i += 2)` of
`page_buffer_push`, entered with index `i`. -/
def page_buffer_push_loop (P : Nat) : Nat → Nat → State → Option (State × List Event)
  | 0, _, _ => none
  | fuel + 1, i, s =>
    if i < s.data_count then
      match page_buffer_push_loop P fuel ((i + 2) % 256) (page_buffer_push_body P i s).1 with
      | none => none
      | some (s', tr) => some (s', (page_buffer_push_body P i s).2 ++ tr)
    else some (s, [])

/-- Function `page_buffer_push`. -/
def page_buffer_push (P : Nat) (fuel : Nat) (s : State) : Option (State × List Event) :=
  match page_buffer_push_loop P fuel 0 s with
  | none => none
  | some (s', tr) => some ({ s' with data_count := 0 }, tr)

/-! ## Record decoder -/

/-- The loop `for (i = ofs; i < len * 2 + ofs; i += 2)` of `parse_buffer`,
entered with index `i` and running checksum `crc`; it returns the final
index and checksum. The bytes it reads are those of the C array as long
as `i + 1 < RX_BUFFER_LEN`. -/
def parse_buffer_loop (len : Nat) : Nat → Nat → Nat → State → Option (Nat × Nat × State)
  | 0, _, _, _ => none
  | fuel + 1, i, crc, s =>
    if i < len * 2 + 9 then
      let wrd := hex2byte (s.buffer i) (s.buffer (i + 1))
      parse_buffer_loop len fuel ((i + 2) % 256) ((crc + wrd) % 256)
        { s with data_buffer := s.data_buffer.store s.data_count wrd,
                 data_count := (s.data_count + 1) % 256 }
    else some (i, crc, s)

/-- Function `parse_buffer`. -/
def parse_buffer (P : Nat) (fuel : Nat) (s : State) : Option Result :=
  let len := hex2byte (s.buffer 1) (s.buffer 2)
  let addrH := hex2byte (s.buffer 3) (s.buffer 4)
  let addrL := hex2byte (s.buffer 5) (s.buffer 6)
  let rec_ := hex2byte (s.buffer 7) (s.buffer 8)
  let crc0 := (len + addrH + addrL + rec_) % 256
  match parse_buffer_loop len fuel 9 crc0 s with
  | none => none
  | some (i, crc1, s1) =>
    let rec_crc := hex2byte (s1.buffer i) (s1.buffer (i + 1))
    let crc := ((255 - crc1) + 1) % 256
    if rec_crc ≠ crc then
      some ⟨s1, [Event.putchar RSP_CRC_ERROR], Outcome.reboot⟩
    else if rec_ = 0 then
      match page_buffer_push P fuel s1 with
      | none => none
      | some (s2, tr) =>
        some ⟨{ s2 with data_count := 0 }, Event.putchar RSP_DATA_RECORD :: tr,
          Outcome.returned rsp_type.WRITE_OK⟩
    else if rec_ = 1 then
      some ⟨s1,
        Event.putchar RSP_EOF_REACHED :: (if s1.page_offset ≠ 0 then write_flash_page s1 else []),
        Outcome.returned rsp_type.WRITE_COMPLETE⟩
    else
      some ⟨{ s1 with data_count := 0 }, [], Outcome.returned rsp_type.WRITE_OK⟩

/-! ## Frame reader -/

/-- How a call of `uart_poll` ends: it returns with the rest of the input
still unread, it reports an overflow and enters `reboot()`, or the input
ends and it stays blocked in `UART_getchar`. -/
inductive Poll where
  | returned (s : State) (rest : List Nat)
  | overflow (s : State) (rest : List Nat)
  | blocked (s : State)

/-- What a call of `uart_poll` sends: `RSP_BUFER_OVERFLOW` on overflow,
nothing otherwise. -/
def Poll.trace : Poll → List Event
  | Poll.overflow _ _ => [Event.putchar RSP_BUFER_OVERFLOW]
  | _ => []

/-- Function `uart_poll`, one loop pass per received character: `:` is 58,
carriage return 13, line feed 10. -/
def uart_poll : State → List Nat → Poll
  | s, [] => Poll.blocked s
  | s, c :: cs =>
    if c = 58 then
      let s1 := { s with head := 0 }
      if s1.head = RX_BUFFER_LEN then Poll.overflow s1 cs
      else uart_poll { s1 with buffer := s1.buffer.store s1.head c, head := s1.head + 1 } cs
    else if c = 13 ∨ c = 0 then uart_poll s cs
    else if s.head = RX_BUFFER_LEN then Poll.overflow s cs
    else
      let s2 := { s with buffer := s.buffer.store s.head c, head := s.head + 1 }
      if c = 10 then Poll.returned { s2 with head := 0 } cs
      else uart_poll s2 cs

/-! ## Session loop -/

/-- How the update session ends: the image is complete and control goes
to address 0, the program waits for the watchdog in `reboot()`, or it
stays blocked waiting for input. -/
inductive Exit where
  | complete
  | reboot
  | blocked
  deriving DecidableEq, Repr

/-- The loop `while (ok != WRITE_COMPLETE)` of `main`; `n` bounds the
number of passes. -/
def main_loop (P : Nat) (fuel : Nat) : Nat → State → List Nat → Option (State × List Event × Exit)
  | 0, _, _ => none
  | n + 1, s, input =>
    match uart_poll s input with
    | Poll.blocked s1 => some (s1, [], Exit.blocked)
    | Poll.overflow s1 rest => some (s1, (Poll.overflow s1 rest).trace, Exit.reboot)
    | Poll.returned s1 rest =>
      match parse_buffer P fuel s1 with
      | none => none
      | some r =>
        match r.outcome with
        | Outcome.reboot => some (r.state, Event.putchar XOFF :: r.trace, Exit.reboot)
        | Outcome.returned ok =>
          if ok = rsp_type.WRITE_COMPLETE then
            some (r.state, Event.putchar XOFF :: r.trace ++ [Event.putchar XON], Exit.complete)
          else
            match main_loop P fuel n r.state rest with
            | none => none
            | some (s2, tr, e) =>
              some (s2, Event.putchar XOFF :: r.trace ++ [Event.putchar XON] ++ tr, e)

/-- Function `print_version`: the banner `BOOTLDRv1.0` and a line feed. -/
def print_version : List Event :=
  [66, 79, 79, 84, 76, 68, 82, 118, 49, 46, 48, 10].map Event.putchar

/-- The global variables as the C runtime sets them up: zeroed arrays,
`data_count = 0`, `page = 0`, `page_offset = 0`. -/
def initial : State := ⟨fun _ => 0, 0, fun _ => 0, 0, 0, 0⟩

/-- Function `main` in update mode (the jumper pin reads low): `head` is
set to the start of the buffer, the banner and `XON` are sent, the loop
runs, and when it ends with `WRITE_COMPLETE` the byte
`RSP_WRITE_COMPLETE` is sent before control goes to address 0. -/
def main (P : Nat) (fuel : Nat) (n : Nat) (input : List Nat) : Option (State × List Event × Exit) :=
  match main_loop P fuel n { initial with head := 0 } input with
  | none => none
  | some (s, tr, e) =>
    some (s, print_version ++ Event.putchar XON :: tr ++
      (if e = Exit.complete then [Event.putchar RSP_WRITE_COMPLETE] else []), e)

/-! ## Array accesses -/

/-- The indices at which a call of `uart_poll` stores a character, in
order: the value of `head` at each `*(head++) = c`. -/
def uart_poll_stores : State → List Nat → List Nat
  | _, [] => []
  | s, c :: cs =>
    if c = 58 then
      let s1 := { s with head := 0 }
      if s1.head = RX_BUFFER_LEN then []
      else s1.head ::
        uart_poll_stores { s1 with buffer := s1.buffer.store s1.head c, head := s1.head + 1 } cs
    else if c = 13 ∨ c = 0 then uart_poll_stores s cs
    else if s.head = RX_BUFFER_LEN then []
    else
      let s2 := { s with buffer := s.buffer.store s.head c, head := s.head + 1 }
      if c = 10 then [s.head]
      else s.head :: uart_poll_stores s2 cs

/-- The indices at which the calls of `uart_poll` made by the session
loop store a character, call after call. -/
def main_loop_stores (P : Nat) (fuel : Nat) : Nat → State → List Nat → List Nat
  | 0, _, _ => []
  | n + 1, s, input =>
    uart_poll_stores s input ++
      match uart_poll s input with
      | Poll.blocked _ => []
      | Poll.overflow _ _ => []
      | Poll.returned s1 rest =>
        match parse_buffer P fuel s1 with
        | none => []
        | some r =>
          match r.outcome with
          | Outcome.reboot => []
          | Outcome.returned ok =>
            if ok = rsp_type.WRITE_COMPLETE then [] else main_loop_stores P fuel n r.state rest

/-- The decoding loop of `parse_buffer` with a record of its array
accesses: next to the result of the loop, the indices of `buffer` it
reads and the indices of `data_buffer` it writes, in order. -/
def parse_buffer_loop_log (len : Nat) :
    Nat → Nat → Nat → State → Option ((Nat × Nat × State) × List Nat × List Nat)
  | 0, _, _, _ => none
  | fuel + 1, i, crc, s =>
    if i < len * 2 + 9 then
      let wrd := hex2byte (s.buffer i) (s.buffer (i + 1))
      match parse_buffer_loop_log len fuel ((i + 2) % 256) ((crc + wrd) % 256)
        { s with data_buffer := s.data_buffer.store s.data_count wrd,
                 data_count := (s.data_count + 1) % 256 } with
      | none => none
      | some (r, rd, wr) => some (r, i :: (i + 1) :: rd, s.data_count :: wr)
    else some ((i, crc, s), [], [])

/-- The array accesses of `parse_buffer` up to its checksum test: the
indices of `buffer` read for the header, the payload and the checksum,
and the indices of `data_buffer` written. -/
def parse_buffer_accesses (fuel : Nat) (s : State) : Option (List Nat × List Nat) :=
  let len := hex2byte (s.buffer 1) (s.buffer 2)
  let addrH := hex2byte (s.buffer 3) (s.buffer 4)
  let addrL := hex2byte (s.buffer 5) (s.buffer 6)
  let rec_ := hex2byte (s.buffer 7) (s.buffer 8)
  let crc0 := (len + addrH + addrL + rec_) % 256
  match parse_buffer_loop_log len fuel 9 crc0 s with
  | none => none
  | some ((i, _, _), rd, wr) => some ([1, 2, 3, 4, 5, 6, 7, 8] ++ rd ++ [i, i + 1], wr)

/-! ## Fields of a record, as laid out in the record buffer -/

/-- The byte count: the hex pair at indices 1 and 2. -/
def rec_len (b : Mem) : Nat := hex2byte (b 1) (b 2)

/-- The high address byte: the hex pair at indices 3 and 4. -/
def rec_addrH (b : Mem) : Nat := hex2byte (b 3) (b 4)

/-- The low address byte: the hex pair at indices 5 and 6. -/
def rec_addrL (b : Mem) : Nat := hex2byte (b 5) (b 6)

/-- The record type: the hex pair at indices 7 and 8. -/
def rec_type (b : Mem) : Nat := hex2byte (b 7) (b 8)

/-- The payload byte number `k`: the hex pair at indices `9 + 2k` and
`10 + 2k`. -/
def payload_byte (b : Mem) (k : Nat) : Nat := hex2byte (b (9 + 2 * k)) (b (9 + 2 * k + 1))

/-- The first `n` payload bytes, in order. -/
def payload (b : Mem) (n : Nat) : List Nat := (List.range n).map (payload_byte b)

/-- The transmitted checksum: the hex pair right after the payload. -/
def rec_crc (b : Mem) : Nat :=
  hex2byte (b (9 + 2 * rec_len b)) (b (9 + 2 * rec_len b + 1))

/-- The sum of the four header bytes and the payload bytes. -/
def rec_sum (b : Mem) : Nat :=
  rec_len b + rec_addrH b + rec_addrL b + rec_type b + (payload b (rec_len b)).sum

/-- The checksum a record must carry: the two's-complement negation,
mod 256, of `rec_sum`. -/
def checksum (b : Mem) : Nat := (256 - rec_sum b % 256) % 256

/-- The payload buffer and its fill count after `n` passes of the decoding
loop that start with payload byte `k`. -/
def decode_store (b : Mem) : Nat → Nat → Mem → Nat → Mem × Nat
  | 0, _, db, dc => (db, dc)
  | n + 1, k, db, dc => decode_store b n (k + 1) (db.store dc (payload_byte b k)) ((dc + 1) % 256)

/-- The state `parse_buffer` is in when its decoding loop has ended. -/
def decoded (s : State) : State :=
  { s with
    data_buffer := (decode_store s.buffer (rec_len s.buffer) 0 s.data_buffer s.data_count).1,
    data_count := (decode_store s.buffer (rec_len s.buffer) 0 s.data_buffer s.data_count).2 }

/-! ## The page committer, as the specification describes it -/

/-- Pair up bytes into 16-bit words, the first byte of a pair being the
low byte; a last unpaired byte is dropped. -/
def words : List Nat → List Nat
  | lo :: hi :: rest => (lo + 256 * hi) :: words rest
  | _ => []

/-- Stage a list of words from target address `page` and cursor `off`:
when the cursor has reached the page size the page is committed first,
the target address advances by the page size (as a 16-bit address) and the
cursor restarts at 0; then the word goes to address `page + off` and the
cursor advances by 2.  The result is the final `(page, off)` and the
operations issued. -/
def stage (P : Nat) : Nat → Nat → List Nat → (Nat × Nat) × List Event
  | page, off, [] => ((page, off), [])
  | page, off, w :: ws =>
    if off = P then
      ((stage P ((page + P) % 65536) 2 ws).1,
        Event.page_erase page :: Event.page_write page ::
          Event.page_fill ((page + P) % 65536) w :: (stage P ((page + P) % 65536) 2 ws).2)
    else
      ((stage P page (off + 2) ws).1,
        Event.page_fill ((page + off) % 65536) w :: (stage P page (off + 2) ws).2)

/-- The `m` words that `page_buffer_push` reads from the payload buffer
from word number `k` on. -/
def buffer_words (db : Mem) (k m : Nat) : List Nat :=
  (List.range m).map (fun j => db (2 * (k + j)) + 256 * db (2 * (k + j) + 1))

/-- The addresses of the pages erased in a trace, in order. -/
def erased : List Event → List Nat
  | [] => []
  | Event.page_erase a :: tr => a :: erased tr
  | _ :: tr => erased tr

/-- The addresses of the pages written in a trace, in order. -/
def written : List Event → List Nat
  | [] => []
  | Event.page_write a :: tr => a :: written tr
  | _ :: tr => written tr

/-- The words staged in a trace with their addresses, in order. -/
def filled : List Event → List (Nat × Nat)
  | [] => []
  | Event.page_fill a w :: tr => (a, w) :: filled tr
  | _ :: tr => filled tr

/-- The bytes sent in a trace, in order. -/
def sent : List Event → List Nat
  | [] => []
  | Event.putchar c :: tr => c :: sent tr
  | _ :: tr => sent tr

/-- What `parse_buffer` does once its decoding loop has ended: the
checksum test and the dispatch on the record type. -/
def dispatch (P : Nat) (fuel : Nat) (b : Mem) (s1 : State) : Option Result :=
  if rec_crc b ≠ checksum b then
    some ⟨s1, [Event.putchar RSP_CRC_ERROR], Outcome.reboot⟩
  else if rec_type b = 0 then
    match page_buffer_push P fuel s1 with
    | none => none
    | some (s2, tr) =>
      some ⟨{ s2 with data_count := 0 }, Event.putchar RSP_DATA_RECORD :: tr,
        Outcome.returned rsp_type.WRITE_OK⟩
  else if rec_type b = 1 then
    some ⟨s1,
      Event.putchar RSP_EOF_REACHED :: (if s1.page_offset ≠ 0 then write_flash_page s1 else []),
      Outcome.returned rsp_type.WRITE_COMPLETE⟩
  else
    some ⟨{ s1 with data_count := 0 }, [], Outcome.returned rsp_type.WRITE_OK⟩

/-- The record has been refused: `parse_buffer` has sent
`RSP_CRC_ERROR` and entered `reboot()`. -/
def crc_halt (o : Option Result) : Prop :=
  ∃ r, o = some r ∧ r.trace = [Event.putchar RSP_CRC_ERROR] ∧ r.outcome = Outcome.reboot

/-! ## Observing the frame reader -/

/-- The state a call of `uart_poll` ends in. -/
def Poll.state : Poll → State
  | Poll.returned s _ => s
  | Poll.overflow s _ => s
  | Poll.blocked s => s

/-- The input a call of `uart_poll` leaves unread when it returns. -/
def Poll.rest : Poll → Option (List Nat)
  | Poll.returned _ r => some r
  | _ => none

/-- Whether a call of `uart_poll` ended with the overflow report. -/
def Poll.overflowed : Poll → Bool
  | Poll.overflow _ _ => true
  | _ => false

/-- The characters of a stretch of input that are kept: carriage returns
(13) and NULs (0) are dropped. -/
def stored (cs : List Nat) : List Nat := cs.filter (fun c => c != 13 && c != 0)

/-! ## Reachable states -/

/-- The states the page committer can be in: a state with `page = 0` and
`page_offset = 0`; a state reached by receiving any record buffer
contents; a state reached when `uart_poll` or `parse_buffer` returns; and
the states in between, after each pass of the loop of
`page_buffer_push`. -/
inductive Reachable (P : Nat) : State → Prop where
  | init (s : State) : s.page = 0 → s.page_offset = 0 → Reachable P s
  | frame (s : State) (b : Mem) (h : Nat) : Reachable P s →
      Reachable P { s with buffer := b, head := h }
  | poll (s : State) (input : List Nat) : Reachable P s →
      Reachable P (uart_poll s input).state
  | parse (s : State) (fuel : Nat) (r : Result) : Reachable P s →
      parse_buffer P fuel s = some r → Reachable P r.state
  | word (s : State) (i : Nat) : Reachable P s →
      Reachable P (page_buffer_push_body P i s).1

/-- The invariant of the page committer: the cursor is even and within
the page, the target address is a multiple of the page size and a 16-bit
value. -/
def PageInv (P : Nat) (s : State) : Prop :=
  s.page_offset % 2 = 0 ∧ s.page_offset ≤ P ∧ s.page % P = 0 ∧ s.page < 65536

/-! ## Sessions over a sequence of records -/

/-- The loop `while (ok != WRITE_COMPLETE)` of `main` with `uart_poll`
replaced by its effect on the record buffer: each pass finds the next of
the given contents in `buffer`, and the loop stops when a pass returns
`WRITE_COMPLETE` or enters `reboot()`. -/
def parse_records (P : Nat) (fuel : Nat) : State → List Mem → Option (State × List Event × Outcome)
  | s, [] => some (s, [], Outcome.returned rsp_type.WRITE_OK)
  | s, b :: bs =>
    match parse_buffer P fuel { s with buffer := b } with
    | none => none
    | some r =>
      match r.outcome with
      | Outcome.reboot => some (r.state, Event.putchar XOFF :: r.trace, Outcome.reboot)
      | Outcome.returned ok =>
        if ok = rsp_type.WRITE_COMPLETE then
          some (r.state, Event.putchar XOFF :: r.trace ++ [Event.putchar XON],
            Outcome.returned ok)
        else
          match parse_records P fuel r.state bs with
          | none => none
          | some (s2, tr, o) =>
            some (s2, Event.putchar XOFF :: r.trace ++ [Event.putchar XON] ++ tr, o)

/-- A valid data record: type 0, correct checksum, even byte count, and
the record, checksum included, fits the frame buffer. -/
def valid_data (b : Mem) : Prop :=
  rec_type b = 0 ∧ rec_crc b = checksum b ∧ rec_len b % 2 = 0 ∧
    2 * rec_len b + 11 ≤ RX_BUFFER_LEN

/-- A valid end-of-file record: type 1, correct checksum, and the record,
checksum included, fits the frame buffer. -/
def valid_eof (b : Mem) : Prop :=
  rec_type b = 1 ∧ rec_crc b = checksum b ∧ 2 * rec_len b + 11 ≤ RX_BUFFER_LEN

instance (b : Mem) : Decidable (valid_data b) := by
  unfold valid_data; infer_instance

instance (b : Mem) : Decidable (valid_eof b) := by
  unfold valid_eof; infer_instance

/-- The payloads of a sequence of records, concatenated in arrival
order. -/
def all_payload (bs : List Mem) : List Nat := bs.flatMap (fun b => payload b (rec_len b))

/-- The self-programming operations of a trace, in order. -/
def flash : List Event → List Event
  | [] => []
  | Event.putchar _ :: tr => flash tr
  | e :: tr => e :: flash tr

/-- Stage a list of bytes, two at a time and low byte first, at
consecutive addresses from `base` on. -/
def page_fills : Nat → List Nat → List Event
  | base, lo :: hi :: rest => Event.page_fill base (lo + 256 * hi) :: page_fills (base + 2) rest
  | _, _ => []

/-- What the image asks for page number `j` counted from page `k`: bytes
`j * P` up to `(j + 1) * P` of the image (fewer on the last page) staged
at address `(k + j) * P` plus their offset in the page, then the commit
of the page at `(k + j) * P`. -/
def page_events (P : Nat) (bytes : List Nat) (k j : Nat) : List Event :=
  page_fills ((k + j) * P) ((bytes.drop (j * P)).take P) ++
    [Event.page_erase ((k + j) * P), Event.page_write ((k + j) * P)]

/-- The operations that put an image of `T` bytes into flash from address
0 on: pages `0` to `ceil (T / P) - 1`, each staged and then committed. -/
def image_events (P : Nat) (bytes : List Nat) : List Event :=
  (List.range ((bytes.length + P - 1) / P)).flatMap (page_events P bytes 0)

/-! ## Record texts -/

/-- An ASCII hex digit: `0` to `9` (48 to 57), `A` to `F` (65 to 70) or
`a` to `f` (97 to 102). -/
def is_hex_digit (c : Nat) : Prop :=
  (48 ≤ c ∧ c ≤ 57) ∨ (65 ≤ c ∧ c ≤ 70) ∨ (97 ≤ c ∧ c ≤ 102)

instance (c : Nat) : Decidable (is_hex_digit c) := by
  unfold is_hex_digit; infer_instance

/-- The value an ASCII hex digit stands for. -/
def hex_value (c : Nat) : Nat :=
  if c ≤ 57 then c - 48 else if c ≤ 70 then c - 55 else c - 87

/-- The bytes a text of hex digits spells, two digits per byte, high
nibble first. -/
def hex_bytes : List Nat → List Nat
  | a :: b :: t => (16 * hex_value a + hex_value b) :: hex_bytes t
  | _ => []

/-- The upper-case hex digit of a nibble. -/
def hex_char (v : Nat) : Nat := if v < 10 then 48 + v else 55 + v

/-- The upper-case hex text of a list of bytes. -/
def hex_encode : List Nat → List Nat
  | [] => []
  | x :: xs => hex_char (x / 16) :: hex_char (x % 16) :: hex_encode xs

/-- The record buffer holds the text `t` from index 1 on, right after the
start marker. -/
def holds (b : Mem) (t : List Nat) : Prop := ∀ i, i < t.length → b (1 + i) = t.getD i 0

/-- A record as it is sent: the characters `text` that follow the start
marker, and the fields they spell: the address bytes, the record type,
the payload and the checksum byte; the byte count is the length of the
payload. -/
structure RecordText where
  text : List Nat
  addrH : Nat
  addrL : Nat
  kind : Nat
  data : List Nat
  crc : Nat

/-- The text is made of hex digits, in either case, that spell byte count,
address, type, payload and checksum in this order; the checksum is the
two's-complement negation mod 256 of the sum of the other bytes; and the
payload has at most 58 bytes. -/
def RecordText.ok (r : RecordText) : Prop :=
  (∀ ch ∈ r.text, is_hex_digit ch) ∧
  r.text.length = 2 * (r.data.length + 5) ∧
  hex_bytes r.text = r.data.length :: r.addrH :: r.addrL :: r.kind :: (r.data ++ [r.crc]) ∧
  r.crc = (256 - (r.data.length + r.addrH + r.addrL + r.kind + r.data.sum) % 256) % 256 ∧
  r.data.length ≤ 58

instance (r : RecordText) : Decidable r.ok := by
  unfold RecordText.ok; infer_instance

/-- The record with the given fields, spelled in upper case. -/
def RecordText.encode (addrH addrL kind : Nat) (data : List Nat) : RecordText :=
  let crc := (256 - (data.length + addrH + addrL + kind + data.sum) % 256) % 256
  { text := hex_encode (data.length :: addrH :: addrL :: kind :: (data ++ [crc])),
    addrH := addrH, addrL := addrL, kind := kind, data := data, crc := crc }

/-- The characters of a record on the line: the start marker, the text
and the line feed. -/
def RecordText.line (r : RecordText) : List Nat := 58 :: (r.text ++ [10])

/-- The input stream made of the lines of the given records, in order. -/
def lines : List RecordText → List Nat
  | [] => []
  | r :: rs => r.line ++ lines rs

/-- The bytes `XOFF`, `.`, `XON`, repeated `n` times. -/
def acks : Nat → List Nat
  | 0 => []
  | n + 1 => XOFF :: RSP_DATA_RECORD :: XON :: acks n

/-! ## Concrete inputs -/

/-- An array holding the given bytes, and 0 after them. -/
def Mem.ofList (l : List Nat) : Mem := fun i => l.getD i 0

/-- An array holding the character codes of a text, and 0 after them. -/
def Mem.ofString (str : String) : Mem := Mem.ofList (str.toList.map Char.toNat)

/-- The state at the start of a session, with the given record buffer
contents: empty payload buffer, `page = 0` and `page_offset = 0`. -/
def fresh (b : Mem) : State := ⟨b, 0, fun _ => 0, 0, 0, 0⟩

/-- Scenario B: the end-of-file record `:00000001FF` at the start of a
session. -/
def scenario_B : State := fresh (Mem.ofString ":00000001FF")

/-- Scenario C: the end-of-file record with its checksum off by one. -/
def scenario_C : State := fresh (Mem.ofString ":00000001FE")

/-- Scenario: the data record `:0400000001020304F2` (payload 01 02 03 04)
at the start of a session. -/
def data_record : State := fresh (Mem.ofString ":0400000001020304F2")

/-- A data record of 32 zero bytes with its checksum `E0`. -/
def zero_record : Mem :=
  Mem.ofString ":200000000000000000000000000000000000000000000000000000000000000000000000E0"

/-- The data record `:0400000001020304F2`. -/
def small_record : Mem := Mem.ofString ":0400000001020304F2"

/-- The end-of-file record `:00000001FF`. -/
def eof_line : Mem := Mem.ofString ":00000001FF"

/-- The data record `:0400000001020304f2`, with its fields. -/
def sample_text : RecordText :=
  { text := [48, 52, 48, 48, 48, 48, 48, 48, 48, 49, 48, 50, 48, 51, 48, 52, 102, 50],
    addrH := 0, addrL := 0, kind := 0, data := [1, 2, 3, 4], crc := 0xF2 }

/-- The end-of-file record `:00000001FF`, with its fields. -/
def eof_text : RecordText :=
  { text := [48, 48, 48, 48, 48, 48, 48, 49, 70, 70],
    addrH := 0, addrL := 0, kind := 1, data := [], crc := 0xFF }

/-- The character codes of a text. -/
def text_codes (str : String) : List Nat := str.toList.map Char.toNat

/-- The line `:7C000000` and a line feed: a byte count of 124. -/
def long_count_line : List Nat := text_codes ":7C000000\n"

/-- Scenario A as the specification gives it. -/
def scenario_A : List Nat := text_codes ":10000000AABBCCDDEEFF00112233445566770078\n"

/-- Scenario A with the checksum `A1` of its 16 payload bytes appended. -/
def scenario_A_checked : List Nat :=
  text_codes ":10000000AABBCCDDEEFF00112233445566770078A1\n"

/-- A data record of three bytes, 11 22 33, with its checksum `97`. -/
def odd_record : State := fresh (Mem.ofString ":0300000011223397")

/-- A record of type 2 with the payload 10 5E and its checksum `8E`, and
a line feed. -/
def earlier_line : List Nat := text_codes ":02000002105E8E\n"

/-- An end-of-file line cut short: byte count 1, no payload, no checksum. -/
def cut_line : List Nat := text_codes ":01000001\n"

/-! ## Basic facts -/

theorem hex2dec_lt (x : Nat) : hex2dec x < 256 := by
  unfold hex2dec
  split_ifs <;> exact Nat.mod_lt _ (by norm_num)

theorem hex2byte_lt (a b : Nat) : hex2byte a b < 256 := Nat.mod_lt _ (by norm_num)

/-- The decoding loop, entered at payload byte `k` with `n` bytes to go,
ends after `n` passes when the byte count is at most 123. -/
theorem parse_buffer_loop_eq (len : Nat) (hlen : len ≤ 123) :
    ∀ n k crc (s : State) fuel, k + n = len → n < fuel → crc < 256 →
      parse_buffer_loop len fuel (9 + 2 * k) crc s =
        some (9 + 2 * len,
          (crc + ((List.range n).map (fun j => payload_byte s.buffer (k + j))).sum) % 256,
          { s with
            data_buffer := (decode_store s.buffer n k s.data_buffer s.data_count).1,
            data_count := (decode_store s.buffer n k s.data_buffer s.data_count).2 }) := by
  intro n
  induction n with
  | zero =>
    intro k crc s fuel hk hf hc
    obtain ⟨f, rfl⟩ : ∃ f, fuel = f + 1 := ⟨fuel - 1, by omega⟩
    have hk' : k = len := by omega
    subst hk'
    rw [parse_buffer_loop, if_neg (by omega)]
    simp [decode_store, Nat.mod_eq_of_lt hc]
  | succ n ih =>
    intro k crc s fuel hk hf hc
    obtain ⟨f, rfl⟩ : ∃ f, fuel = f + 1 := ⟨fuel - 1, by omega⟩
    have hlt : 9 + 2 * k < len * 2 + 9 := by omega
    have hi : (9 + 2 * k + 2) % 256 = 9 + 2 * (k + 1) := by omega
    rw [parse_buffer_loop, if_pos hlt]
    simp only [hi]
    rw [ih (k + 1) _ _ f (by omega) (by omega) (Nat.mod_lt _ (by norm_num))]
    have hsum : ((List.range (n + 1)).map (fun j => payload_byte s.buffer (k + j))).sum =
        payload_byte s.buffer k +
          ((List.range n).map (fun j => payload_byte s.buffer (k + 1 + j))).sum := by
      rw [List.range_succ_eq_map, List.map_cons, List.sum_cons, List.map_map]
      congr 2
      apply List.map_congr_left
      intro j _
      simp only [Function.comp_apply, Nat.succ_eq_add_one, Nat.add_zero]
      congr 1
      omega
    rw [hsum]
    have hw : hex2byte (s.buffer (9 + 2 * k)) (s.buffer (9 + 2 * k + 1)) =
        payload_byte s.buffer k := rfl
    simp only [decode_store, hw]
    have hmod : ∀ a b c : Nat, ((a + b) % 256 + c) % 256 = (a + (b + c)) % 256 := by
      intro a b c; omega
    rw [hmod]

/-- For a byte count of 124 or more the decoding loop is never left. -/
theorem parse_buffer_loop_diverges (len : Nat) (hlen : 124 ≤ len) :
    ∀ fuel i crc (s : State), i < 256 → parse_buffer_loop len fuel i crc s = none := by
  intro fuel
  induction fuel with
  | zero => intro i crc s _; rfl
  | succ f ih =>
    intro i crc s hi
    rw [parse_buffer_loop, if_pos (by omega)]
    exact ih _ _ _ (Nat.mod_lt _ (by norm_num))

/-- With a byte count of at most 123 and enough fuel, `parse_buffer`
decodes the whole payload and then tests the checksum of the record. -/
theorem parse_buffer_eq (P fuel : Nat) (s : State) (hlen : rec_len s.buffer ≤ 123)
    (hf : rec_len s.buffer < fuel) :
    parse_buffer P fuel s = dispatch P fuel s.buffer (decoded s) := by
  have h := parse_buffer_loop_eq (rec_len s.buffer) hlen (rec_len s.buffer) 0
    ((rec_len s.buffer + rec_addrH s.buffer + rec_addrL s.buffer + rec_type s.buffer) % 256)
    s fuel (by omega) hf (Nat.mod_lt _ (by norm_num))
  simp only [Nat.mul_zero, Nat.add_zero, Nat.zero_add] at h
  have hc : ((255 - ((rec_len s.buffer + rec_addrH s.buffer + rec_addrL s.buffer +
      rec_type s.buffer) % 256 + (payload s.buffer (rec_len s.buffer)).sum) % 256) + 1) % 256 =
      checksum s.buffer := by
    unfold checksum rec_sum
    omega
  unfold parse_buffer
  simp only [rec_len, rec_addrH, rec_addrL, rec_type] at h hc ⊢
  rw [h]
  simp only [payload, rec_len] at hc
  simp only [hc]
  rfl

/-- For a byte count of 124 or more `parse_buffer` never returns. -/
theorem parse_buffer_diverges (P fuel : Nat) (s : State) (hlen : 124 ≤ rec_len s.buffer) :
    parse_buffer P fuel s = none := by
  unfold parse_buffer
  have h := parse_buffer_loop_diverges (rec_len s.buffer) hlen fuel 9
    ((rec_len s.buffer + rec_addrH s.buffer + rec_addrL s.buffer + rec_type s.buffer) % 256)
    s (by norm_num)
  simp only [rec_len, rec_addrH, rec_addrL, rec_type] at h
  simp only [h]

/-! ## The staging loop -/

theorem buffer_words_succ (db : Mem) (k m : Nat) :
    buffer_words db k (m + 1) =
      (db (2 * k) + 256 * db (2 * k + 1)) :: buffer_words db (k + 1) m := by
  unfold buffer_words
  rw [List.range_succ_eq_map, List.map_cons, List.map_map]
  congr 1
  apply List.map_congr_left
  intro j _
  have h : k + Nat.succ j = k + 1 + j := by omega
  simp only [Function.comp_apply, h]

/-- The loop of `page_buffer_push`, entered at word `k` with `m` words to
go, stages these words as `stage` describes, provided the cursor is even
and within the page and the page size is even and at most 254. -/
theorem page_buffer_push_loop_eq (P : Nat) (hP2 : P % 2 = 0) (hP0 : 0 < P) (hP : P ≤ 254) :
    ∀ m k (s : State) fuel, s.data_count ≤ 254 → k + m = (s.data_count + 1) / 2 → m < fuel →
      s.page_offset % 2 = 0 → s.page_offset ≤ P →
      page_buffer_push_loop P fuel (2 * k) s =
        some ({ s with
                page := (stage P s.page s.page_offset (buffer_words s.data_buffer k m)).1.1,
                page_offset := (stage P s.page s.page_offset (buffer_words s.data_buffer k m)).1.2 },
              (stage P s.page s.page_offset (buffer_words s.data_buffer k m)).2) := by
  intro m
  induction m with
  | zero =>
    intro k s fuel hdc hk hf _ _
    obtain ⟨f, rfl⟩ : ∃ f, fuel = f + 1 := ⟨fuel - 1, by omega⟩
    rw [page_buffer_push_loop, if_neg (by omega)]
    rfl
  | succ m ih =>
    intro k s fuel hdc hk hf he ho
    obtain ⟨f, rfl⟩ : ∃ f, fuel = f + 1 := ⟨fuel - 1, by omega⟩
    have hi : (2 * k + 2) % 256 = 2 * (k + 1) := by omega
    rw [page_buffer_push_loop, if_pos (by omega), hi, buffer_words_succ]
    by_cases hfull : s.page_offset = P
    · have hb : page_buffer_push_body P (2 * k) s =
          ({ s with page := (s.page + P) % 65536, page_offset := 2 },
            [Event.page_erase s.page, Event.page_write s.page,
              Event.page_fill ((s.page + P) % 65536)
                (s.data_buffer (2 * k) + 256 * s.data_buffer (2 * k + 1))]) := by
        simp [page_buffer_push_body, hfull, write_flash_page]
      rw [hb]
      simp only []
      rw [ih (k + 1) { s with page := (s.page + P) % 65536, page_offset := 2 } f hdc
        (by show k + 1 + m = (s.data_count + 1) / 2; omega) (by omega) (by show 2 % 2 = 0; rfl)
        (by show 2 ≤ P; omega)]
      simp [stage, hfull]
    · have hlt : ¬ s.page_offset ≥ P := by omega
      have hb : page_buffer_push_body P (2 * k) s =
          ({ s with page_offset := s.page_offset + 2 },
            [Event.page_fill ((s.page + s.page_offset) % 65536)
                (s.data_buffer (2 * k) + 256 * s.data_buffer (2 * k + 1))]) := by
        have h256 : (s.page_offset + 2) % 256 = s.page_offset + 2 := by omega
        simp [page_buffer_push_body, hlt, h256]
      rw [hb]
      simp only []
      rw [ih (k + 1) { s with page_offset := s.page_offset + 2 } f hdc
        (by show k + 1 + m = (s.data_count + 1) / 2; omega) (by omega)
        (by show (s.page_offset + 2) % 2 = 0; omega) (by show s.page_offset + 2 ≤ P; omega)]
      simp [stage, hfull]

/-- With a fill count of at most 254, `page_buffer_push` returns. -/
theorem page_buffer_push_eq (P : Nat) (hP2 : P % 2 = 0) (hP0 : 0 < P) (hP : P ≤ 254)
    (s : State) (fuel : Nat) (hdc : s.data_count ≤ 254) (hf : (s.data_count + 1) / 2 < fuel)
    (he : s.page_offset % 2 = 0) (ho : s.page_offset ≤ P) :
    page_buffer_push P fuel s =
      some ({ s with
              data_count := 0,
              page := (stage P s.page s.page_offset
                (buffer_words s.data_buffer 0 ((s.data_count + 1) / 2))).1.1,
              page_offset := (stage P s.page s.page_offset
                (buffer_words s.data_buffer 0 ((s.data_count + 1) / 2))).1.2 },
            (stage P s.page s.page_offset
              (buffer_words s.data_buffer 0 ((s.data_count + 1) / 2))).2) := by
  have h := page_buffer_push_loop_eq P hP2 hP0 hP ((s.data_count + 1) / 2) 0 s fuel hdc
    (by omega) hf he ho
  simp only [Nat.mul_zero] at h
  unfold page_buffer_push
  rw [h]

/-! ## The decoded payload -/

theorem decode_store_get (b : Mem) :
    ∀ n k db dc, dc + n < 256 →
      (∀ j, j < n → (decode_store b n k db dc).1 (dc + j) = payload_byte b (k + j)) ∧
      (∀ i, i < dc → (decode_store b n k db dc).1 i = db i) ∧
      (decode_store b n k db dc).2 = dc + n := by
  intro n
  induction n with
  | zero =>
    intro k db dc _
    exact ⟨fun j hj => absurd hj (Nat.not_lt_zero _), fun i _ => rfl, rfl⟩
  | succ n ih =>
    intro k db dc h
    have hm : (dc + 1) % 256 = dc + 1 := by omega
    obtain ⟨h1, h2, h3⟩ := ih (k + 1) (db.store dc (payload_byte b k)) (dc + 1) (by omega)
    simp only [decode_store, hm]
    refine ⟨?_, ?_, by omega⟩
    · intro j hj
      rcases j with _ | j
      · show (decode_store b n (k + 1) (db.store dc (payload_byte b k)) (dc + 1)).1 dc =
          payload_byte b k
        rw [h2 dc (by omega)]
        simp [Mem.store]
      · have e1 : dc + (j + 1) = dc + 1 + j := by omega
        have e2 : k + (j + 1) = k + 1 + j := by omega
        rw [e1, e2]
        exact h1 j (by omega)
    · intro i hi
      rw [h2 i (by omega)]
      have : i ≠ dc := by omega
      simp [Mem.store, this]

theorem words_map_range (f : Nat → Nat) :
    ∀ m, words ((List.range (2 * m)).map f) =
      (List.range m).map (fun j => f (2 * j) + 256 * f (2 * j + 1)) := by
  intro m
  induction m generalizing f with
  | zero => rfl
  | succ m ih =>
    have e : 2 * (m + 1) = (2 * m + 1) + 1 := by omega
    rw [e, List.range_succ_eq_map, List.range_succ_eq_map, List.range_succ_eq_map (n := m)]
    simp only [List.map_cons, List.map_map, words]
    have h := ih (fun j => f (j + 2))
    have e1 : (f ∘ Nat.succ ∘ Nat.succ) = fun j => f (j + 2) := rfl
    rw [e1, h]
    rfl

/-- After decoding a record of even byte count into an empty payload
buffer, the words `page_buffer_push` reads are the payload bytes, paired
up in order. -/
theorem buffer_words_decoded (s : State) (hdc : s.data_count = 0)
    (hlen : rec_len s.buffer ≤ 123) :
    buffer_words (decoded s).data_buffer 0 (rec_len s.buffer / 2) =
      words (payload s.buffer (2 * (rec_len s.buffer / 2))) := by
  obtain ⟨h1, _, _⟩ := decode_store_get s.buffer (rec_len s.buffer) 0 s.data_buffer 0
    (by omega)
  unfold payload
  rw [words_map_range]
  unfold buffer_words
  apply List.map_congr_left
  intro j hj
  have hj' : j < rec_len s.buffer / 2 := List.mem_range.mp hj
  have a := h1 (2 * j) (by omega)
  have b := h1 (2 * j + 1) (by omega)
  simp only [Nat.zero_add] at a b
  simp only [decoded, hdc, Nat.zero_add, a, b]

theorem decoded_data_count (s : State) (hdc : s.data_count = 0)
    (hlen : rec_len s.buffer ≤ 123) : (decoded s).data_count = rec_len s.buffer := by
  obtain ⟨_, _, h3⟩ := decode_store_get s.buffer (rec_len s.buffer) 0 s.data_buffer 0
    (by omega)
  simp only [decoded, hdc, h3, Nat.zero_add]

/-! ## Facts about `stage` -/

/-- Staging keeps the cursor even and within the page, sends nothing,
erases exactly the pages it writes, stages the given words in order, and
the cursor, counted across the commits, advances by two per word. -/
theorem stage_facts (P : Nat) (hP2 : P % 2 = 0) (hP0 : 0 < P) :
    ∀ ws page off, off % 2 = 0 → off ≤ P →
      (stage P page off ws).1.2 % 2 = 0 ∧ (stage P page off ws).1.2 ≤ P ∧
      (stage P page off ws).1.2 + P * (erased (stage P page off ws).2).length =
        off + 2 * ws.length ∧
      written (stage P page off ws).2 = erased (stage P page off ws).2 ∧
      (filled (stage P page off ws).2).map Prod.snd = ws ∧
      sent (stage P page off ws).2 = [] := by
  intro ws
  induction ws with
  | nil => intro page off he ho; exact ⟨he, ho, by simp [stage, erased], rfl, rfl, rfl⟩
  | cons w ws ih =>
    intro page off he ho
    by_cases hfull : off = P
    · obtain ⟨h1, h2, h3, h4, h5, h6⟩ := ih ((page + P) % 65536) 2 (by rfl) (by omega)
      simp only [stage, if_pos hfull, erased, written, filled, sent, List.length_cons,
        List.map_cons, h4, h5, h6]
      refine ⟨h1, h2, ?_, trivial, trivial, trivial⟩
      rw [Nat.mul_add, Nat.mul_one]
      omega
    · obtain ⟨h1, h2, h3, h4, h5, h6⟩ := ih page (off + 2) (by omega) (by omega)
      simp only [stage, if_neg hfull, erased, written, filled, sent, List.length_cons,
        List.map_cons, h4, h5, h6]
      refine ⟨h1, h2, ?_, trivial, trivial, trivial⟩
      omega

/-! ## Termination of `page_buffer_push` -/

theorem page_buffer_push_body_data_count (P i : Nat) (s : State) :
    (page_buffer_push_body P i s).1.data_count = s.data_count := by
  unfold page_buffer_push_body
  split_ifs <;> rfl

/-- With a fill count of at most 254 the loop of `page_buffer_push` is
left, whatever the page size and the cursor. -/
theorem page_buffer_push_loop_some (P : Nat) :
    ∀ m k (s : State) fuel, s.data_count ≤ 254 → k + m = (s.data_count + 1) / 2 → m < fuel →
      ∃ r, page_buffer_push_loop P fuel (2 * k) s = some r := by
  intro m
  induction m with
  | zero =>
    intro k s fuel hdc hk hf
    obtain ⟨f, rfl⟩ : ∃ f, fuel = f + 1 := ⟨fuel - 1, by omega⟩
    rw [page_buffer_push_loop, if_neg (by omega)]
    exact ⟨_, rfl⟩
  | succ m ih =>
    intro k s fuel hdc hk hf
    obtain ⟨f, rfl⟩ : ∃ f, fuel = f + 1 := ⟨fuel - 1, by omega⟩
    have hi : (2 * k + 2) % 256 = 2 * (k + 1) := by omega
    rw [page_buffer_push_loop, if_pos (by omega), hi]
    obtain ⟨r, hr⟩ := ih (k + 1) (page_buffer_push_body P (2 * k) s).1 f
      (by rw [page_buffer_push_body_data_count]; exact hdc)
      (by rw [page_buffer_push_body_data_count]; omega) (by omega)
    rw [hr]
    exact ⟨_, rfl⟩

theorem page_buffer_push_some (P fuel : Nat) (s : State) (hdc : s.data_count ≤ 254)
    (hf : (s.data_count + 1) / 2 < fuel) : ∃ r, page_buffer_push P fuel s = some r := by
  obtain ⟨r, hr⟩ := page_buffer_push_loop_some P ((s.data_count + 1) / 2) 0 s fuel hdc
    (by omega) hf
  simp only [Nat.mul_zero] at hr
  unfold page_buffer_push
  rw [hr]
  exact ⟨_, rfl⟩

/-! ## The checksum gate (C1, C2) -/

theorem checksum_iff_sum (b : Mem) :
    rec_crc b = checksum b ↔ (rec_sum b + rec_crc b) % 256 = 0 := by
  have h : rec_crc b < 256 := hex2byte_lt _ _
  unfold checksum
  omega

/-- C1: for every record buffer that holds a record, header, payload
and checksum pair lying inside the array (indices 1 to
`10 + 2 * byte_count`, all below `RX_BUFFER_LEN`), `parse_buffer` (given
fuel for the decoding loop) refuses the record, sending `RSP_CRC_ERROR`
and halting, exactly when the transmitted checksum byte differs from the
two's-complement negation mod 256 of the sum of the header and payload
bytes; it accepts it exactly when they are equal, that is exactly when
the sum of all decoded bytes, checksum included, is 0 mod 256; and an
accepted record, decoded into an empty payload buffer, makes
`parse_buffer` return. -/
theorem checksum_gate (P fuel : Nat) (s : State)
    (hfit : 2 * rec_len s.buffer + 11 ≤ RX_BUFFER_LEN) (hf : rec_len s.buffer < fuel) :
    (crc_halt (parse_buffer P fuel s) ↔ rec_crc s.buffer ≠ checksum s.buffer) ∧
    (¬ crc_halt (parse_buffer P fuel s) ↔ rec_crc s.buffer = checksum s.buffer) ∧
    (¬ crc_halt (parse_buffer P fuel s) ↔
      (rec_sum s.buffer + rec_crc s.buffer) % 256 = 0) ∧
    (rec_crc s.buffer = checksum s.buffer → s.data_count = 0 →
      ∃ r v, parse_buffer P fuel s = some r ∧ r.outcome = Outcome.returned v) := by
  have hlen : rec_len s.buffer ≤ 123 := by unfold RX_BUFFER_LEN at hfit; omega
  have key : crc_halt (parse_buffer P fuel s) ↔ rec_crc s.buffer ≠ checksum s.buffer := by
    rw [parse_buffer_eq P fuel s hlen hf]
    unfold dispatch crc_halt
    constructor
    · rintro ⟨r, hr, ht, ho⟩
      intro heq
      rw [if_neg (not_not.mpr heq)] at hr
      by_cases h0 : rec_type s.buffer = 0
      · rw [if_pos h0] at hr
        cases hp : page_buffer_push P fuel (decoded s) with
        | none => rw [hp] at hr; exact Option.noConfusion hr
        | some q =>
          rw [hp] at hr
          rw [← Option.some.inj hr] at ho
          exact Outcome.noConfusion ho
      · rw [if_neg h0] at hr
        by_cases h1 : rec_type s.buffer = 1
        · rw [if_pos h1] at hr
          rw [← Option.some.inj hr] at ho
          exact Outcome.noConfusion ho
        · rw [if_neg h1] at hr
          rw [← Option.some.inj hr] at ho
          exact Outcome.noConfusion ho
    · intro hne
      rw [if_pos hne]
      exact ⟨_, rfl, rfl, rfl⟩
  refine ⟨key, ?_, ?_, ?_⟩
  · rw [key, not_not]
  · rw [key, not_not, checksum_iff_sum]
  · intro heq hdc
    rw [parse_buffer_eq P fuel s hlen hf]
    unfold dispatch
    rw [if_neg (not_not.mpr heq)]
    have hcount := decoded_data_count s hdc hlen
    obtain ⟨⟨s2, tr⟩, hp⟩ := page_buffer_push_some P fuel (decoded s) (by omega) (by omega)
    by_cases h0 : rec_type s.buffer = 0
    · rw [if_pos h0, hp]
      exact ⟨_, _, rfl, rfl⟩
    · rw [if_neg h0]
      by_cases h1 : rec_type s.buffer = 1
      · rw [if_pos h1]
        exact ⟨_, _, rfl, rfl⟩
      · rw [if_neg h1]
        exact ⟨_, _, rfl, rfl⟩

/-- The end-of-file record `:00000001FF`: its checksum is the one its
bytes call for, and it is accepted. -/
theorem checksum_gate_witness :
    2 * rec_len (fresh (Mem.ofString ":00000001FF")).buffer + 11 ≤ RX_BUFFER_LEN ∧
    rec_len (fresh (Mem.ofString ":00000001FF")).buffer < 200 ∧
    ((crc_halt (parse_buffer 128 200 (fresh (Mem.ofString ":00000001FF"))) ↔
        rec_crc (fresh (Mem.ofString ":00000001FF")).buffer ≠
          checksum (fresh (Mem.ofString ":00000001FF")).buffer) ∧
      (¬ crc_halt (parse_buffer 128 200 (fresh (Mem.ofString ":00000001FF"))) ↔
        rec_crc (fresh (Mem.ofString ":00000001FF")).buffer =
          checksum (fresh (Mem.ofString ":00000001FF")).buffer) ∧
      (¬ crc_halt (parse_buffer 128 200 (fresh (Mem.ofString ":00000001FF"))) ↔
        (rec_sum (fresh (Mem.ofString ":00000001FF")).buffer +
          rec_crc (fresh (Mem.ofString ":00000001FF")).buffer) % 256 = 0) ∧
      (rec_crc (fresh (Mem.ofString ":00000001FF")).buffer =
          checksum (fresh (Mem.ofString ":00000001FF")).buffer →
        (fresh (Mem.ofString ":00000001FF")).data_count = 0 →
        ∃ r v, parse_buffer 128 200 (fresh (Mem.ofString ":00000001FF")) = some r ∧
          r.outcome = Outcome.returned v)) :=
  ⟨by decide, by decide,
    checksum_gate 128 200 (fresh (Mem.ofString ":00000001FF")) (by decide) (by decide)⟩

/-- C2: for every record, lying inside the record buffer up to its
checksum pair (indices 1 to `10 + 2 * byte_count`, all below
`RX_BUFFER_LEN`), whose computed checksum differs from the transmitted
one, whatever its type, `parse_buffer` sends exactly `RSP_CRC_ERROR` and
enters `reboot()`; no word is staged, no page is erased or written,
`page` and `page_offset` keep their values, and the session loop ends
there: what follows in the input is not processed. -/
theorem crc_error_halts (P fuel : Nat) (s : State)
    (hfit : 2 * rec_len s.buffer + 11 ≤ RX_BUFFER_LEN)
    (hf : rec_len s.buffer < fuel) (hbad : rec_crc s.buffer ≠ checksum s.buffer) :
    ∃ r, parse_buffer P fuel s = some r ∧
      r.trace = [Event.putchar RSP_CRC_ERROR] ∧ r.outcome = Outcome.reboot ∧
      filled r.trace = [] ∧ erased r.trace = [] ∧ written r.trace = [] ∧
      r.state.page = s.page ∧ r.state.page_offset = s.page_offset ∧
      ∀ n s0 input rest, uart_poll s0 input = Poll.returned s rest →
        main_loop P fuel (n + 1) s0 input =
          some (r.state, [Event.putchar XOFF, Event.putchar RSP_CRC_ERROR], Exit.reboot) := by
  have hlen : rec_len s.buffer ≤ 123 := by unfold RX_BUFFER_LEN at hfit; omega
  have h : parse_buffer P fuel s =
      some ⟨decoded s, [Event.putchar RSP_CRC_ERROR], Outcome.reboot⟩ := by
    rw [parse_buffer_eq P fuel s hlen hf]
    unfold dispatch
    rw [if_pos hbad]
  refine ⟨_, h, rfl, rfl, rfl, rfl, rfl, rfl, rfl, ?_⟩
  intro n s0 input rest hpoll
  simp only [main_loop, hpoll, h]

/-- Scenario C in a fresh session: the record is refused. -/
theorem crc_error_halts_witness :
    2 * rec_len scenario_C.buffer + 11 ≤ RX_BUFFER_LEN ∧ rec_len scenario_C.buffer < 200 ∧
    rec_crc scenario_C.buffer ≠ checksum scenario_C.buffer ∧
    ∃ r, parse_buffer 128 200 scenario_C = some r ∧
      r.trace = [Event.putchar RSP_CRC_ERROR] ∧ r.outcome = Outcome.reboot ∧
      filled r.trace = [] ∧ erased r.trace = [] ∧ written r.trace = [] ∧
      r.state.page = scenario_C.page ∧ r.state.page_offset = scenario_C.page_offset ∧
      ∀ n s0 input rest, uart_poll s0 input = Poll.returned scenario_C rest →
        main_loop 128 200 (n + 1) s0 input =
          some (r.state, [Event.putchar XOFF, Event.putchar RSP_CRC_ERROR], Exit.reboot) :=
  ⟨by decide, by decide, by decide,
    crc_error_halts 128 200 scenario_C (by decide) (by decide) (by decide)⟩

/-! ## End-of-file and unsupported records (C5, C8) -/

/-- An end-of-file record with a correct checksum and a byte count of at
most 123: the acknowledgment, then the commit of a page that holds staged
words. -/
theorem parse_buffer_eof (P fuel : Nat) (s : State) (hlen : rec_len s.buffer ≤ 123)
    (hf : rec_len s.buffer < fuel) (htype : rec_type s.buffer = 1)
    (hcrc : rec_crc s.buffer = checksum s.buffer) :
    parse_buffer P fuel s =
      some ⟨decoded s,
        Event.putchar RSP_EOF_REACHED ::
          (if s.page_offset ≠ 0 then [Event.page_erase s.page, Event.page_write s.page]
            else []),
        Outcome.returned rsp_type.WRITE_COMPLETE⟩ := by
  have h1 : ¬ rec_type s.buffer = 0 := by omega
  rw [parse_buffer_eq P fuel s hlen hf]
  unfold dispatch
  rw [if_neg (not_not.mpr hcrc), if_neg h1, if_pos htype]
  rfl

/-- C5: for every end-of-file record (type 1) with a correct checksum,
lying inside the record buffer up to its checksum pair (indices 1 to
`10 + 2 * byte_count`, all below `RX_BUFFER_LEN`), `parse_buffer` sends
exactly `RSP_EOF_REACHED`, returns `WRITE_COMPLETE`, stages nothing, and
commits exactly one page, at the current target address `page`, when
`page_offset` is not 0 and none when it is 0; `page` and `page_offset`
keep their values. -/
theorem eof_record (P fuel : Nat) (s : State)
    (hfit : 2 * rec_len s.buffer + 11 ≤ RX_BUFFER_LEN)
    (hf : rec_len s.buffer < fuel) (htype : rec_type s.buffer = 1)
    (hcrc : rec_crc s.buffer = checksum s.buffer) :
    ∃ r, parse_buffer P fuel s = some r ∧
      sent r.trace = [RSP_EOF_REACHED] ∧
      r.outcome = Outcome.returned rsp_type.WRITE_COMPLETE ∧
      filled r.trace = [] ∧
      (s.page_offset ≠ 0 →
        r.trace = [Event.putchar RSP_EOF_REACHED, Event.page_erase s.page,
          Event.page_write s.page]) ∧
      (s.page_offset = 0 → r.trace = [Event.putchar RSP_EOF_REACHED]) ∧
      r.state.page = s.page ∧ r.state.page_offset = s.page_offset := by
  have hlen : rec_len s.buffer ≤ 123 := by unfold RX_BUFFER_LEN at hfit; omega
  have h := parse_buffer_eof P fuel s hlen hf htype hcrc
  refine ⟨_, h, ?_, rfl, ?_, ?_, ?_, rfl, rfl⟩
  · by_cases h0 : s.page_offset = 0
    · simp [h0, sent]
    · simp [h0, sent]
  · by_cases h0 : s.page_offset = 0
    · simp [h0, filled]
    · simp [h0, filled]
  · intro h0
    simp [h0]
  · intro h0
    simp [h0]

/-- Scenario B: `:00000001FF` with nothing staged gives `O`, no commit
and `WRITE_COMPLETE`. -/
theorem eof_record_witness :
    2 * rec_len scenario_B.buffer + 11 ≤ RX_BUFFER_LEN ∧ rec_len scenario_B.buffer < 200 ∧
    rec_type scenario_B.buffer = 1 ∧
    rec_crc scenario_B.buffer = checksum scenario_B.buffer ∧
    scenario_B.page_offset = 0 ∧
    ∃ r, parse_buffer 128 200 scenario_B = some r ∧
      r.trace = [Event.putchar RSP_EOF_REACHED] ∧
      r.outcome = Outcome.returned rsp_type.WRITE_COMPLETE := by
  obtain ⟨r, h, _, ho, _, _, h0, _, _⟩ :=
    eof_record 128 200 scenario_B (by decide) (by decide) (by decide) (by decide)
  exact ⟨by decide, by decide, by decide, by decide, rfl, r, h, h0 rfl, ho⟩

theorem payload_length (b : Mem) (n : Nat) : (payload b n).length = n := by
  simp [payload]

theorem words_length : ∀ n (l : List Nat), l.length = 2 * n → (words l).length = n := by
  intro n
  induction n with
  | zero =>
    intro l hl
    have : l = [] := List.length_eq_zero.mp (by omega)
    subst this
    rfl
  | succ n ih =>
    intro l hl
    match l, hl with
    | lo :: hi :: rest, hl =>
      simp only [words, List.length_cons]
      rw [ih rest (by simp only [List.length_cons] at hl; omega)]

/-- A data record of even byte count at most 123 with a correct checksum,
decoded into an empty payload buffer: `parse_buffer` acknowledges it and
stages its payload words as `stage` describes. -/
theorem parse_buffer_data (P fuel : Nat) (s : State) (hP2 : P % 2 = 0) (hP0 : 0 < P)
    (hP : P ≤ 254) (hlen : rec_len s.buffer ≤ 123) (hf : rec_len s.buffer < fuel)
    (htype : rec_type s.buffer = 0) (hcrc : rec_crc s.buffer = checksum s.buffer)
    (heven : rec_len s.buffer % 2 = 0) (hdc : s.data_count = 0)
    (he : s.page_offset % 2 = 0) (ho : s.page_offset ≤ P) :
    parse_buffer P fuel s =
      some ⟨{ decoded s with
              data_count := 0,
              page := (stage P s.page s.page_offset
                (words (payload s.buffer (rec_len s.buffer)))).1.1,
              page_offset := (stage P s.page s.page_offset
                (words (payload s.buffer (rec_len s.buffer)))).1.2 },
            Event.putchar RSP_DATA_RECORD ::
              (stage P s.page s.page_offset (words (payload s.buffer (rec_len s.buffer)))).2,
            Outcome.returned rsp_type.WRITE_OK⟩ := by
  have hcount := decoded_data_count s hdc hlen
  have hw := buffer_words_decoded s hdc hlen
  have h2 : 2 * (rec_len s.buffer / 2) = rec_len s.buffer := by omega
  have h3 : ((decoded s).data_count + 1) / 2 = rec_len s.buffer / 2 := by omega
  rw [h2] at hw
  rw [parse_buffer_eq P fuel s hlen hf]
  unfold dispatch
  rw [if_neg (not_not.mpr hcrc), if_pos htype,
    page_buffer_push_eq P hP2 hP0 hP (decoded s) fuel (by omega) (by omega) he ho, h3, hw]
  rfl

/-- C4: a data record (type 0) with a correct checksum and an even byte
count `n` that fits the frame buffer, processed with `data_count = 0`, an
even cursor `o = page_offset` within the page and target address
`a = page` (page size even, at most 254): `parse_buffer` sends exactly
`RSP_DATA_RECORD`, returns `WRITE_OK`, and stages the `n` payload bytes
in order as `n / 2` words, low byte first, from the cursor on as `stage`
describes, committing the page, advancing `page` by the page size and
restarting the cursor exactly when the cursor has reached the page size;
afterwards `(page_offset - o) + P * commits = n` and `data_count = 0`. -/
theorem data_record_staged (P fuel : Nat) (s : State) (hP2 : P % 2 = 0) (hP0 : 0 < P)
    (hP : P ≤ 254) (hfit : 2 * rec_len s.buffer + 11 ≤ RX_BUFFER_LEN)
    (hf : rec_len s.buffer < fuel)
    (htype : rec_type s.buffer = 0) (hcrc : rec_crc s.buffer = checksum s.buffer)
    (heven : rec_len s.buffer % 2 = 0) (hdc : s.data_count = 0)
    (he : s.page_offset % 2 = 0) (ho : s.page_offset ≤ P) :
    ∃ r, parse_buffer P fuel s = some r ∧
      sent r.trace = [RSP_DATA_RECORD] ∧
      r.outcome = Outcome.returned rsp_type.WRITE_OK ∧
      r.trace = Event.putchar RSP_DATA_RECORD ::
        (stage P s.page s.page_offset (words (payload s.buffer (rec_len s.buffer)))).2 ∧
      (r.state.page, r.state.page_offset) =
        (stage P s.page s.page_offset (words (payload s.buffer (rec_len s.buffer)))).1 ∧
      (filled r.trace).map Prod.snd = words (payload s.buffer (rec_len s.buffer)) ∧
      (words (payload s.buffer (rec_len s.buffer))).length = rec_len s.buffer / 2 ∧
      written r.trace = erased r.trace ∧
      ((r.state.page_offset : Int) - (s.page_offset : Int)) +
        (P : Int) * ((erased r.trace).length : Int) = (rec_len s.buffer : Int) ∧
      r.state.data_count = 0 := by
  have hlen : rec_len s.buffer ≤ 123 := by unfold RX_BUFFER_LEN at hfit; omega
  have h := parse_buffer_data P fuel s hP2 hP0 hP hlen hf htype hcrc heven hdc he ho
  obtain ⟨_, _, f3, f4, f5, f6⟩ := stage_facts P hP2 hP0
    (words (payload s.buffer (rec_len s.buffer))) s.page s.page_offset he ho
  have hwl := words_length (rec_len s.buffer / 2) (payload s.buffer (rec_len s.buffer))
    (by rw [payload_length]; omega)
  refine ⟨_, h, ?_, rfl, rfl, rfl, ?_, hwl, ?_, ?_, rfl⟩
  · simp only [sent, f6]
  · simp only [filled, f5]
  · simp only [written, erased, f4]
  · simp only [erased]
    rw [hwl] at f3
    have h3 : ((stage P s.page s.page_offset
        (words (payload s.buffer (rec_len s.buffer)))).1.2 : Int) +
        (P : Int) * ((erased (stage P s.page s.page_offset
          (words (payload s.buffer (rec_len s.buffer)))).2).length : Int) =
        (s.page_offset : Int) + 2 * ((rec_len s.buffer / 2 : Nat) : Int) := by
      exact_mod_cast f3
    have h4 : 2 * ((rec_len s.buffer / 2 : Nat) : Int) = (rec_len s.buffer : Int) := by
      omega
    linarith

/-- The record `:0400000001020304F2` in a fresh session, page size 128. -/
theorem data_record_staged_witness :
    128 % 2 = 0 ∧ 0 < 128 ∧ 128 ≤ 254 ∧
    2 * rec_len data_record.buffer + 11 ≤ RX_BUFFER_LEN ∧
    rec_len data_record.buffer < 200 ∧
    rec_type data_record.buffer = 0 ∧
    rec_crc data_record.buffer = checksum data_record.buffer ∧
    rec_len data_record.buffer % 2 = 0 ∧ data_record.data_count = 0 ∧
    data_record.page_offset % 2 = 0 ∧ data_record.page_offset ≤ 128 ∧
    ∃ r, parse_buffer 128 200 data_record = some r ∧
      r.trace = [Event.putchar RSP_DATA_RECORD, Event.page_fill 0 0x0201,
        Event.page_fill 2 0x0403] ∧
      r.outcome = Outcome.returned rsp_type.WRITE_OK ∧
      r.state.page_offset = 4 ∧ r.state.data_count = 0 := by
  obtain ⟨r, h, _, h2, h3, h4, _, _, _, _, h9⟩ :=
    data_record_staged 128 200 data_record (by decide) (by decide) (by decide) (by decide)
      (by decide) (by decide) (by decide) (by decide) (by decide) (by decide) (by decide)
  refine ⟨by decide, by decide, by decide, by decide, by decide, by decide, by decide,
    by decide, by decide, by decide, by decide, r, h, ?_, h2, ?_, h9⟩
  · rw [h3]; decide
  · have := congrArg Prod.snd h4
    simp only at this
    rw [this]; decide

/-! ## Staging a whole image (C3, C6) -/

theorem words_append : ∀ n (a b : List Nat), a.length = 2 * n →
    words (a ++ b) = words a ++ words b := by
  intro n
  induction n with
  | zero =>
    intro a b ha
    have : a = [] := List.length_eq_zero.mp (by omega)
    subst this
    rfl
  | succ n ih =>
    intro a b ha
    match a, ha with
    | lo :: hi :: rest, ha =>
      show words (lo :: hi :: (rest ++ b)) = words (lo :: hi :: rest) ++ words b
      rw [words, words, ih rest b (by simp only [List.length_cons] at ha; omega)]
      rfl

theorem stage_append (P : Nat) : ∀ ws1 ws2 page off,
    stage P page off (ws1 ++ ws2) =
      ((stage P (stage P page off ws1).1.1 (stage P page off ws1).1.2 ws2).1,
        (stage P page off ws1).2 ++
          (stage P (stage P page off ws1).1.1 (stage P page off ws1).1.2 ws2).2) := by
  intro ws1
  induction ws1 with
  | nil => intro ws2 page off; rfl
  | cons w ws ih =>
    intro ws2 page off
    show stage P page off (w :: (ws ++ ws2)) = _
    by_cases hfull : off = P
    · rw [stage, if_pos hfull, ih]
      simp only [stage, if_pos hfull, List.cons_append]
    · rw [stage, if_neg hfull, ih]
      simp only [stage, if_neg hfull, List.cons_append]

/-- Within a page nothing is committed: the bytes go to consecutive
addresses. -/
theorem stage_within_page (P : Nat) : ∀ n (bytes : List Nat) page off,
    bytes.length = 2 * n → off + bytes.length ≤ P → page + off + bytes.length ≤ 65536 →
    stage P page off (words bytes) =
      ((page, off + bytes.length), page_fills (page + off) bytes) := by
  intro n
  induction n with
  | zero =>
    intro bytes page off hl _ _
    have : bytes = [] := List.length_eq_zero.mp (by omega)
    subst this
    rfl
  | succ n ih =>
    intro bytes page off hl h1 h2
    match bytes, hl, h1, h2 with
    | lo :: hi :: rest, hl, h1, h2 =>
      simp only [List.length_cons] at hl h1 h2
      have hne : ¬ off = P := by omega
      have hm : (page + off) % 65536 = page + off := by omega
      simp only [words, stage, if_neg hne, hm, page_fills, List.length_cons]
      rw [ih rest page (off + 2) (by omega) (by omega) (by omega)]
      have e1 : off + 2 + rest.length = off + (rest.length + 1 + 1) := by omega
      have e2 : page + (off + 2) = page + off + 2 := by omega
      rw [e1, e2]

/-- A full page followed by at least one more word: the page is committed
and staging goes on at the start of the next page. -/
theorem stage_full_page (P : Nat) (hP0 : 0 < P) (page : Nat) (w : Nat) (ws : List Nat)
    (hpage : page + P < 65536) :
    stage P page P (w :: ws) =
      ((stage P (page + P) 0 (w :: ws)).1,
        Event.page_erase page :: Event.page_write page :: (stage P (page + P) 0 (w :: ws)).2) := by
  have hm : (page + P) % 65536 = page + P := Nat.mod_eq_of_lt hpage
  have hne : ¬ 0 = P := by omega
  have hm2 : (page + P + 0) % 65536 = page + P := by rw [Nat.add_zero]; exact hm
  simp only [stage, if_true, if_neg hne, hm, hm2, Nat.zero_add]

theorem words_ne_nil (l : List Nat) (h : 2 ≤ l.length) : ∃ w ws, words l = w :: ws := by
  match l, h with
  | lo :: hi :: rest, _ => exact ⟨_, _, rfl⟩

theorem page_events_succ (P : Nat) (bytes : List Nat) (k j : Nat) :
    page_events P bytes k (j + 1) = page_events P (bytes.drop P) (k + 1) j := by
  have e1 : k + (j + 1) = k + 1 + j := by omega
  have e2 : (j + 1) * P = P + j * P := by rw [Nat.succ_mul]; omega
  unfold page_events
  rw [e1, e2, List.drop_drop]

/-- Staging an image of even, positive length from the start of page `k`
and then committing the last page issues the operations of pages `k`,
`k + 1`, ... one after the other, `c` pages in all. -/
theorem stage_image (P : Nat) (hP2 : P % 2 = 0) (hP0 : 0 < P) :
    ∀ c k (bytes : List Nat), 0 < bytes.length → bytes.length % 2 = 0 →
      c * P < bytes.length + P → bytes.length ≤ c * P → k * P + bytes.length ≤ 65536 →
      (stage P (k * P) 0 (words bytes)).2 ++
          [Event.page_erase (stage P (k * P) 0 (words bytes)).1.1,
            Event.page_write (stage P (k * P) 0 (words bytes)).1.1] =
        (List.range c).flatMap (page_events P bytes k) ∧
      (stage P (k * P) 0 (words bytes)).1 = ((k + c - 1) * P, bytes.length + P - c * P) := by
  intro c
  induction c with
  | zero =>
    intro k bytes h0 _ _ h4 _
    rw [Nat.zero_mul] at h4
    omega
  | succ c ih =>
    intro k bytes h0 he h3 h4 h5
    have hsm : (c + 1) * P = c * P + P := Nat.succ_mul c P
    by_cases hle : bytes.length ≤ P
    · have hc : c = 0 := by
        by_contra hne
        have : P ≤ c * P := Nat.le_mul_of_pos_left P (Nat.pos_of_ne_zero hne)
        omega
      subst hc
      obtain ⟨n, hn⟩ : ∃ n, bytes.length = 2 * n := ⟨bytes.length / 2, by omega⟩
      rw [stage_within_page P n bytes (k * P) 0 hn (by omega) (by omega)]
      refine ⟨?_, ?_⟩
      · rw [show List.range 1 = [0] from rfl, List.flatMap_cons, List.flatMap_nil,
          List.append_nil]
        simp [page_events, List.take_of_length_le hle]
      · simp
    · have hk1 : (k + 1) * P = k * P + P := Nat.succ_mul k P
      have hhd : (bytes.take P).length = P := by rw [List.length_take]; omega
      have htl : (bytes.drop P).length = bytes.length - P := List.length_drop P bytes
      obtain ⟨w, ws, hw⟩ := words_ne_nil (bytes.drop P) (by omega)
      have hwords : words bytes = words (bytes.take P) ++ words (bytes.drop P) := by
        conv_lhs => rw [← List.take_append_drop P bytes]
        exact words_append (P / 2) _ _ (by omega)
      have hfirst := stage_within_page P (P / 2) (bytes.take P) (k * P) 0 (by omega)
        (by omega) (by omega)
      rw [hhd, Nat.zero_add, Nat.add_zero] at hfirst
      have hnext : stage P (k * P) P (words (bytes.drop P)) =
          ((stage P ((k + 1) * P) 0 (words (bytes.drop P))).1,
            Event.page_erase (k * P) :: Event.page_write (k * P) ::
              (stage P ((k + 1) * P) 0 (words (bytes.drop P))).2) := by
        rw [hw, hk1]
        exact stage_full_page P hP0 (k * P) w ws (by omega)
      obtain ⟨ih1, ih2⟩ := ih (k + 1) (bytes.drop P) (by omega) (by omega) (by omega)
        (by omega) (by omega)
      have hrange : (List.range (c + 1)).flatMap (page_events P bytes k) =
          page_events P bytes k 0 ++ (List.range c).flatMap (page_events P (bytes.drop P) (k + 1)) := by
        rw [List.range_succ_eq_map, List.flatMap_cons, List.flatMap_map]
        congr 1
        congr 1
        funext j
        exact page_events_succ P bytes k j
      have hzero : page_events P bytes k 0 =
          page_fills (k * P) (bytes.take P) ++
            [Event.page_erase (k * P), Event.page_write (k * P)] := by
        simp [page_events]
      rw [hwords, stage_append, hfirst]
      simp only [hnext]
      refine ⟨?_, ?_⟩
      · rw [hrange, hzero, ← ih1]
        simp
      · rw [ih2, htl]
        have hc1 : 1 ≤ c := by
          by_contra hne
          have : c = 0 := by omega
          subst this
          omega
        have e1 : k + 1 + c - 1 = k + (c + 1) - 1 := by omega
        rw [e1]
        congr 1
        omega

/-! ## Projections of traces -/

theorem flash_append (a b : List Event) : flash (a ++ b) = flash a ++ flash b := by
  induction a with
  | nil => rfl
  | cons e a ih => cases e <;> simp [flash, ih]

theorem erased_append (a b : List Event) : erased (a ++ b) = erased a ++ erased b := by
  induction a with
  | nil => rfl
  | cons e a ih => cases e <;> simp [erased, ih]

theorem written_append (a b : List Event) : written (a ++ b) = written a ++ written b := by
  induction a with
  | nil => rfl
  | cons e a ih => cases e <;> simp [written, ih]

theorem erased_flash (a : List Event) : erased (flash a) = erased a := by
  induction a with
  | nil => rfl
  | cons e a ih => cases e <;> simp [erased, flash, ih]

theorem written_flash (a : List Event) : written (flash a) = written a := by
  induction a with
  | nil => rfl
  | cons e a ih => cases e <;> simp [written, flash, ih]

theorem flash_stage (P : Nat) : ∀ ws page off,
    flash (stage P page off ws).2 = (stage P page off ws).2 := by
  intro ws
  induction ws with
  | nil => intro page off; rfl
  | cons w ws ih =>
    intro page off
    by_cases hfull : off = P
    · simp only [stage, if_pos hfull, flash, ih]
    · simp only [stage, if_neg hfull, flash, ih]

theorem page_fills_no_commit : ∀ n (bytes : List Nat) base, bytes.length ≤ n →
    erased (page_fills base bytes) = [] ∧ written (page_fills base bytes) = [] := by
  intro n
  induction n with
  | zero =>
    intro bytes base h
    have : bytes = [] := List.length_eq_zero.mp (by omega)
    subst this
    exact ⟨rfl, rfl⟩
  | succ n ih =>
    intro bytes base h
    match bytes, h with
    | [], _ => exact ⟨rfl, rfl⟩
    | [_], _ => exact ⟨rfl, rfl⟩
    | lo :: hi :: rest, h =>
      simp only [List.length_cons] at h
      obtain ⟨h1, h2⟩ := ih rest (base + 2) (by omega)
      exact ⟨by simp only [page_fills, erased, h1], by simp only [page_fills, written, h2]⟩

theorem image_commits (P : Nat) (bytes : List Nat) (k : Nat) : ∀ l : List Nat,
    erased (l.flatMap (page_events P bytes k)) = l.map (fun j => (k + j) * P) ∧
    written (l.flatMap (page_events P bytes k)) = l.map (fun j => (k + j) * P) := by
  intro l
  induction l with
  | nil => exact ⟨rfl, rfl⟩
  | cons j l ih =>
    obtain ⟨h1, h2⟩ := page_fills_no_commit _ ((bytes.drop (j * P)).take P) ((k + j) * P)
      (Nat.le_refl _)
    refine ⟨?_, ?_⟩
    · rw [List.flatMap_cons, erased_append, ih.1]
      simp only [page_events, erased_append, h1, erased, List.nil_append, List.map_cons,
        List.singleton_append]
    · rw [List.flatMap_cons, written_append, ih.2]
      simp only [page_events, written_append, h2, written, List.nil_append, List.map_cons,
        List.singleton_append]

/-! ## Sessions of data records -/

theorem all_payload_even : ∀ bs : List Mem, (∀ b ∈ bs, valid_data b) →
    (all_payload bs).length % 2 = 0 := by
  intro bs
  induction bs with
  | nil => intro _; rfl
  | cons b bs ih =>
    intro h
    have hb := (h b (List.mem_cons_self b bs)).2.2.1
    have := ih (fun x hx => h x (List.mem_cons_of_mem b hx))
    simp only [all_payload, List.flatMap_cons, List.length_append, payload_length] at this ⊢
    omega

/-- A run of valid data records stages the concatenation of their
payloads: the session goes on with the records that follow, in a state
whose target address and cursor are those `stage` gives. -/
theorem parse_records_data (P fuel : Nat) (hP2 : P % 2 = 0) (hP0 : 0 < P) (hP : P ≤ 254)
    (hfuel : 58 < fuel) :
    ∀ (bs : List Mem) (s : State) (rest : List Mem), (∀ b ∈ bs, valid_data b) →
      s.data_count = 0 → s.page_offset % 2 = 0 → s.page_offset ≤ P →
      ∃ s1 tr1,
        flash tr1 = (stage P s.page s.page_offset (words (all_payload bs))).2 ∧
        (s1.page, s1.page_offset) =
          (stage P s.page s.page_offset (words (all_payload bs))).1 ∧
        s1.data_count = 0 ∧
        parse_records P fuel s (bs ++ rest) =
          (match parse_records P fuel s1 rest with
            | none => none
            | some (s2, tr, o) => some (s2, tr1 ++ tr, o)) := by
  intro bs
  induction bs with
  | nil =>
    intro s rest _ hdc _ _
    refine ⟨s, [], rfl, rfl, hdc, ?_⟩
    rw [List.nil_append]
    cases parse_records P fuel s rest with
    | none => rfl
    | some x => rfl
  | cons b bs ih =>
    intro s rest hv hdc he ho
    obtain ⟨hb0, hb1, hb2, hb3⟩ := hv b (List.mem_cons_self b bs)
    have hlen : rec_len b ≤ 58 := by unfold RX_BUFFER_LEN at hb3; omega
    have hpb := parse_buffer_data P fuel { s with buffer := b } hP2 hP0 hP (by show rec_len b ≤ 123; omega)
      (by show rec_len b < fuel; omega) hb0 hb1 hb2 hdc he ho
    obtain ⟨f1, f2, _, _, _, _⟩ := stage_facts P hP2 hP0 (words (payload b (rec_len b)))
      s.page s.page_offset he ho
    obtain ⟨s1, tr1, g1, g2, g3, g4⟩ := ih
      { decoded { s with buffer := b } with
        data_count := 0,
        page := (stage P s.page s.page_offset (words (payload b (rec_len b)))).1.1,
        page_offset := (stage P s.page s.page_offset (words (payload b (rec_len b)))).1.2 }
      rest (fun x hx => hv x (List.mem_cons_of_mem b hx)) rfl f1 f2
    have hwords : words (all_payload (b :: bs)) =
        words (payload b (rec_len b)) ++ words (all_payload bs) := by
      simp only [all_payload, List.flatMap_cons]
      exact words_append (rec_len b / 2) _ _ (by rw [payload_length]; omega)
    refine ⟨s1, Event.putchar XOFF :: (Event.putchar RSP_DATA_RECORD ::
      (stage P s.page s.page_offset (words (payload b (rec_len b)))).2) ++
      [Event.putchar XON] ++ tr1, ?_, ?_, g3, ?_⟩
    · have g1' : flash tr1 =
          (stage P (stage P s.page s.page_offset (words (payload b (rec_len b)))).1.1
            (stage P s.page s.page_offset (words (payload b (rec_len b)))).1.2
            (words (all_payload bs))).2 := g1
      have ht : ∀ T1 : List Event,
          flash (Event.putchar XOFF :: (Event.putchar RSP_DATA_RECORD :: T1) ++
            [Event.putchar XON] ++ tr1) = flash T1 ++ flash tr1 := by
        intro T1
        rw [flash_append, flash_append]
        simp only [flash, List.append_nil]
      rw [hwords, stage_append, ht, flash_stage, g1']
    · have g2' : (s1.page, s1.page_offset) =
          (stage P (stage P s.page s.page_offset (words (payload b (rec_len b)))).1.1
            (stage P s.page s.page_offset (words (payload b (rec_len b)))).1.2
            (words (all_payload bs))).1 := g2
      rw [hwords, stage_append, g2']
    · rw [List.cons_append, parse_records]
      simp only [hpb]
      rw [g4]
      cases parse_records P fuel s1 rest with
      | none => rfl
      | some x => simp

theorem ceil_bounds (T P : Nat) (hP0 : 0 < P) :
    (T + P - 1) / P * P < T + P ∧ T ≤ (T + P - 1) / P * P := by
  have h1 := Nat.div_mul_le_self (T + P - 1) P
  have h2 := Nat.div_add_mod (T + P - 1) P
  have h3 := Nat.mod_lt (T + P - 1) hP0
  rw [Nat.mul_comm] at h2
  constructor <;> omega

theorem ceil_multiple (k P : Nat) (hP0 : 0 < P) : (k * P + P - 1) / P = k := by
  apply Nat.div_eq_of_lt_le
  · omega
  · rw [Nat.succ_mul]; omega

/-- C3: a session that starts with `page = 0`, `page_offset = 0` and an
empty payload buffer, processes valid data records of even byte counts
whose payloads add up to `T > 0` bytes, `T ≤ 65536`, and then a valid
end-of-file record (page size `P` even, at most 254) ends with
`WRITE_COMPLETE`; its self-programming operations are exactly those of
`image_events`: for `k = 0, 1, ..., ceil (T / P) - 1` in turn, bytes
`k * P` to `min ((k + 1) * P) T - 1` of the concatenated payloads staged
at address `k * P` plus their offset in the page, then the commit of the
page at `k * P`; so exactly `ceil (T / P)` pages are committed. -/
theorem whole_image (P fuel : Nat) (hP2 : P % 2 = 0) (hP0 : 0 < P) (hP : P ≤ 254)
    (hfuel : 58 < fuel) (s : State) (recs : List Mem) (eof : Mem)
    (hpage : s.page = 0) (hoff : s.page_offset = 0) (hdc : s.data_count = 0)
    (hrecs : ∀ b ∈ recs, valid_data b) (heof : valid_eof eof)
    (hT : 0 < (all_payload recs).length) (hwrap : (all_payload recs).length ≤ 65536) :
    ∃ s1 tr, parse_records P fuel s (recs ++ [eof]) =
        some (s1, tr, Outcome.returned rsp_type.WRITE_COMPLETE) ∧
      flash tr = image_events P (all_payload recs) ∧
      erased tr = (List.range (((all_payload recs).length + P - 1) / P)).map (fun k => k * P) ∧
      written tr = erased tr ∧
      (erased tr).length = ((all_payload recs).length + P - 1) / P := by
  obtain ⟨s1, tr1, g1, g2, g3, g4⟩ := parse_records_data P fuel hP2 hP0 hP hfuel recs s [eof]
    hrecs hdc (by rw [hoff]) (by omega)
  rw [hpage, hoff] at g1 g2
  obtain ⟨c1, c2⟩ := ceil_bounds (all_payload recs).length P hP0
  obtain ⟨i1, i2⟩ := stage_image P hP2 hP0 _ 0 (all_payload recs) hT
    (all_payload_even recs hrecs) c1 c2 (by omega)
  rw [Nat.zero_mul] at i1 i2
  rw [i2] at g2
  have hs1p : s1.page = (0 + ((all_payload recs).length + P - 1) / P - 1) * P :=
    congrArg Prod.fst g2
  have hs1o : s1.page_offset =
      (all_payload recs).length + P - ((all_payload recs).length + P - 1) / P * P :=
    congrArg Prod.snd g2
  obtain ⟨e0, e1, e2⟩ := heof
  have hpe := parse_buffer_eof P fuel { s1 with buffer := eof }
    (by show rec_len eof ≤ 123; unfold RX_BUFFER_LEN at e2; omega)
    (by show rec_len eof < fuel; unfold RX_BUFFER_LEN at e2; omega) e0 e1
  have hne : s1.page_offset ≠ 0 := by omega
  have hrun : parse_records P fuel s1 [eof] =
      some (decoded { s1 with buffer := eof },
        Event.putchar XOFF :: (Event.putchar RSP_EOF_REACHED ::
          [Event.page_erase s1.page, Event.page_write s1.page]) ++ [Event.putchar XON],
        Outcome.returned rsp_type.WRITE_COMPLETE) := by
    rw [parse_records]
    simp only [hpe]
    simp [hne]
  rw [hrun] at g4
  have hflash : flash (tr1 ++ (Event.putchar XOFF :: (Event.putchar RSP_EOF_REACHED ::
      [Event.page_erase s1.page, Event.page_write s1.page]) ++ [Event.putchar XON])) =
      image_events P (all_payload recs) := by
    rw [flash_append, g1]
    unfold image_events
    rw [← i1, i2, hs1p]
    rfl
  have hcommits := image_commits P (all_payload recs) 0
    (List.range (((all_payload recs).length + P - 1) / P))
  simp only [Nat.zero_add] at hcommits
  refine ⟨_, _, g4, hflash, ?_, ?_, ?_⟩
  · rw [← erased_flash, hflash]
    exact hcommits.1
  · rw [← erased_flash, ← written_flash, hflash]
    exact hcommits.2.trans hcommits.1.symm
  · rw [← erased_flash, hflash]
    unfold image_events
    rw [hcommits.1, List.length_map, List.length_range]

/-- A session of one data record (`01 02 03 04`) and the end-of-file
record, page size 128. -/
theorem whole_image_witness :
    128 % 2 = 0 ∧ 0 < 128 ∧ 128 ≤ 254 ∧ 58 < 200 ∧
    (fresh (fun _ => 0)).page = 0 ∧ (fresh (fun _ => 0)).page_offset = 0 ∧
    (fresh (fun _ => 0)).data_count = 0 ∧
    (∀ b ∈ [small_record], valid_data b) ∧ valid_eof eof_line ∧
    0 < (all_payload [small_record]).length ∧ (all_payload [small_record]).length ≤ 65536 ∧
    ∃ s1 tr, parse_records 128 200 (fresh (fun _ => 0)) ([small_record] ++ [eof_line]) =
        some (s1, tr, Outcome.returned rsp_type.WRITE_COMPLETE) ∧
      flash tr = [Event.page_fill 0 0x0201, Event.page_fill 2 0x0403, Event.page_erase 0,
        Event.page_write 0] ∧
      erased tr = [0] ∧ written tr = erased tr ∧ (erased tr).length = 1 := by
  obtain ⟨s1, tr, h1, h2, h3, h4, h5⟩ :=
    whole_image 128 200 (by decide) (by decide) (by decide) (by decide) (fresh (fun _ => 0))
      [small_record] eof_line rfl rfl rfl (by decide) (by decide) (by decide) (by decide)
  refine ⟨by decide, by decide, by decide, by decide, rfl, rfl, rfl, by decide, by decide,
    by decide, by decide, s1, tr, h1, ?_, ?_, h4, ?_⟩
  · rw [h2]; decide
  · rw [h3]; decide
  · rw [h5]; decide

/-- C6, amended: a session that starts with `page = 0`, `page_offset = 0`
and an empty payload buffer and processes valid data records of even byte
counts whose payloads add up to exactly `k * P` bytes, `k ≥ 1` (page size
`P` even, at most 254, `k * P ≤ 65536`): when the last of these records
has been processed `k - 1` pages have been committed, namely pages
`0, ..., k - 2` each right after its last word and before the first word
of the next page, which is staged at cursor 0; the last page is fully
staged but not committed, so `page_offset = P` and `page = (k - 1) * P`,
and committing it, as the end-of-file record does, completes the
operations of `image_events`. -/
theorem exact_multiple (P fuel : Nat) (hP2 : P % 2 = 0) (hP0 : 0 < P) (hP : P ≤ 254)
    (hfuel : 58 < fuel) (s : State) (recs : List Mem) (k : Nat)
    (hpage : s.page = 0) (hoff : s.page_offset = 0) (hdc : s.data_count = 0)
    (hrecs : ∀ b ∈ recs, valid_data b) (hk : 1 ≤ k)
    (hT : (all_payload recs).length = k * P) (hwrap : k * P ≤ 65536) :
    ∃ s1 tr, parse_records P fuel s recs =
        some (s1, tr, Outcome.returned rsp_type.WRITE_OK) ∧
      (erased tr).length = k - 1 ∧
      erased tr = (List.range (k - 1)).map (fun j => j * P) ∧
      written tr = erased tr ∧
      s1.page_offset = P ∧ s1.page = (k - 1) * P ∧
      flash tr ++ [Event.page_erase ((k - 1) * P), Event.page_write ((k - 1) * P)] =
        image_events P (all_payload recs) := by
  obtain ⟨s1, tr1, g1, g2, g3, g4⟩ := parse_records_data P fuel hP2 hP0 hP hfuel recs s []
    hrecs hdc (by rw [hoff]) (by omega)
  rw [hpage, hoff] at g1 g2
  rw [List.append_nil] at g4
  have hP1 : P ≤ k * P := Nat.le_mul_of_pos_left P hk
  obtain ⟨i1, i2⟩ := stage_image P hP2 hP0 k 0 (all_payload recs) (by omega)
    (all_payload_even recs hrecs) (by omega) (by omega) (by omega)
  rw [Nat.zero_mul] at i1 i2
  rw [i2] at g2
  have hs1p : s1.page = (0 + k - 1) * P := congrArg Prod.fst g2
  have hs1o : s1.page_offset = (all_payload recs).length + P - k * P := congrArg Prod.snd g2
  rw [Nat.zero_add] at hs1p
  have himg : flash tr1 ++ [Event.page_erase ((k - 1) * P), Event.page_write ((k - 1) * P)] =
      image_events P (all_payload recs) := by
    unfold image_events
    rw [hT, ceil_multiple k P hP0, ← i1, i2, g1]
    simp only [Nat.zero_add]
  have hcommits := image_commits P (all_payload recs) 0 (List.range k)
  simp only [Nat.zero_add] at hcommits
  have hk1 : k = (k - 1) + 1 := by omega
  have hrange : (List.range k).map (fun j => j * P) =
      (List.range (k - 1)).map (fun j => j * P) ++ [(k - 1) * P] := by
    conv_lhs => rw [hk1, List.range_succ, List.map_append]
    rfl
  have hE : erased tr1 ++ [(k - 1) * P] =
      (List.range (k - 1)).map (fun j => j * P) ++ [(k - 1) * P] := by
    have h := congrArg erased himg
    unfold image_events at h
    rw [hT, ceil_multiple k P hP0, hcommits.1, erased_append, erased_flash, hrange] at h
    exact h
  have hW : written tr1 ++ [(k - 1) * P] =
      (List.range (k - 1)).map (fun j => j * P) ++ [(k - 1) * P] := by
    have h := congrArg written himg
    unfold image_events at h
    rw [hT, ceil_multiple k P hP0, hcommits.2, written_append, written_flash, hrange] at h
    exact h
  have hE' := List.append_cancel_right hE
  have hW' := List.append_cancel_right hW
  refine ⟨s1, tr1 ++ [], ?_, ?_, ?_, ?_, by omega, hs1p, ?_⟩
  · rw [g4]; rfl
  · rw [List.append_nil, hE', List.length_map, List.length_range]
  · rw [List.append_nil, hE']
  · rw [List.append_nil, hW', hE']
  · rw [List.append_nil]; exact himg

/-- Four data records of 32 bytes fill one page of 128 bytes: no page is
committed yet and the cursor stands at 128. -/
theorem exact_multiple_witness :
    128 % 2 = 0 ∧ 0 < 128 ∧ 128 ≤ 254 ∧ 58 < 200 ∧
    (fresh (fun _ => 0)).page = 0 ∧ (fresh (fun _ => 0)).page_offset = 0 ∧
    (fresh (fun _ => 0)).data_count = 0 ∧
    (∀ b ∈ [zero_record, zero_record, zero_record, zero_record], valid_data b) ∧ 1 ≤ 1 ∧
    (all_payload [zero_record, zero_record, zero_record, zero_record]).length = 1 * 128 ∧
    1 * 128 ≤ 65536 ∧
    ∃ s1 tr, parse_records 128 200 (fresh (fun _ => 0))
        [zero_record, zero_record, zero_record, zero_record] =
        some (s1, tr, Outcome.returned rsp_type.WRITE_OK) ∧
      (erased tr).length = 0 ∧ s1.page_offset = 128 ∧ s1.page = 0 := by
  obtain ⟨s1, tr, h1, h2, _, _, h5, h6, _⟩ :=
    exact_multiple 128 200 (by decide) (by decide) (by decide) (by decide) (fresh (fun _ => 0))
      [zero_record, zero_record, zero_record, zero_record] 1 rfl rfl rfl (by decide)
      (by decide) (by decide) (by decide)
  exact ⟨by decide, by decide, by decide, by decide, rfl, rfl, rfl, by decide, by decide,
    by decide, by decide, s1, tr, h1, h2, h5, h6⟩

/-- C6 as stated fails: four valid data records of 32 bytes each, 128
bytes in all, make `k = 1` for a page size of 128; after the last of them
the session has committed no page, not one, and `page_offset` is 128,
not 0. -/
theorem exact_multiple_not_committed :
    (∀ b ∈ [zero_record, zero_record, zero_record, zero_record], valid_data b) ∧
    (all_payload [zero_record, zero_record, zero_record, zero_record]).length = 1 * 128 ∧
    (parse_records 128 200 (fresh (fun _ => 0))
      [zero_record, zero_record, zero_record, zero_record]).map
        (fun x => ((erased x.2.1).length, (written x.2.1).length, x.1.page_offset, x.2.2)) =
      some (0, 0, 128, Outcome.returned rsp_type.WRITE_OK) :=
  ⟨by decide, by decide, by decide⟩

/-! ## The frame reader (C9, C10) -/

/-- The frame reader touches only the record buffer and `head`. -/
theorem uart_poll_frame : ∀ (input : List Nat) (s : State),
    (uart_poll s input).state.page = s.page ∧
    (uart_poll s input).state.page_offset = s.page_offset ∧
    (uart_poll s input).state.data_count = s.data_count ∧
    (uart_poll s input).state.data_buffer = s.data_buffer := by
  intro input
  induction input with
  | nil => intro s; exact ⟨rfl, rfl, rfl, rfl⟩
  | cons c cs ih =>
    intro s
    unfold uart_poll
    by_cases h58 : c = 58
    · rw [if_pos h58]
      simp only [RX_BUFFER_LEN]
      rw [if_neg (by decide)]
      exact ih _
    · rw [if_neg h58]
      by_cases hf : c = 13 ∨ c = 0
      · rw [if_pos hf]; exact ih s
      · rw [if_neg hf]
        by_cases hfull : s.head = RX_BUFFER_LEN
        · rw [if_pos hfull]; exact ⟨rfl, rfl, rfl, rfl⟩
        · rw [if_neg hfull]
          by_cases h10 : c = 10
          · simp only [if_pos h10]; exact ⟨rfl, rfl, rfl, rfl⟩
          · simp only [if_neg h10]; exact ih _

/-- Input without a line feed either ends in the overflow report or is
consumed, leaving the rest of the input to the same call. -/
theorem uart_poll_prefix (rest : List Nat) : ∀ (pre : List Nat) (s : State), 10 ∉ pre →
    (uart_poll s (pre ++ rest)).overflowed = true ∨
    ∃ s1, uart_poll s (pre ++ rest) = uart_poll s1 rest := by
  intro pre
  induction pre with
  | nil => intro s _; exact Or.inr ⟨s, rfl⟩
  | cons c cs ih =>
    intro s hnl
    have hc : c ≠ 10 := fun h => hnl (h ▸ List.mem_cons_self c cs)
    have hcs : 10 ∉ cs := fun h => hnl (List.mem_cons_of_mem c h)
    rw [List.cons_append, uart_poll]
    by_cases h58 : c = 58
    · rw [if_pos h58]
      simp only [RX_BUFFER_LEN]
      rw [if_neg (by decide)]
      exact ih _ hcs
    · rw [if_neg h58]
      by_cases hf : c = 13 ∨ c = 0
      · rw [if_pos hf]; exact ih s hcs
      · rw [if_neg hf]
        by_cases hfull : s.head = RX_BUFFER_LEN
        · rw [if_pos hfull]; exact Or.inl rfl
        · rw [if_neg hfull]
          simp only [if_neg hc]
          exact ih _ hcs

theorem stored_cons_drop (c : Nat) (cs : List Nat) (h : c = 13 ∨ c = 0) :
    stored (c :: cs) = stored cs := by
  unfold stored
  rw [List.filter_cons_of_neg]
  rcases h with h | h <;> simp [h]

theorem stored_cons_keep (c : Nat) (cs : List Nat) (h : ¬ (c = 13 ∨ c = 0)) :
    stored (c :: cs) = c :: stored cs := by
  unfold stored
  rw [List.filter_cons_of_pos]
  have h1 : c ≠ 13 := fun e => h (Or.inl e)
  have h2 : c ≠ 0 := fun e => h (Or.inr e)
  simp [h1, h2]

/-- Record content that fits: the kept characters are stored from `head`
on, in order, and nothing below `head` changes. -/
theorem uart_poll_body (rest : List Nat) : ∀ (body : List Nat) (s : State),
    58 ∉ body → 10 ∉ body → s.head + (stored body).length ≤ RX_BUFFER_LEN →
    ∃ s1, uart_poll s (body ++ rest) = uart_poll s1 rest ∧
      s1.head = s.head + (stored body).length ∧
      (∀ j, j < (stored body).length → s1.buffer (s.head + j) = (stored body).getD j 0) ∧
      (∀ i, i < s.head → s1.buffer i = s.buffer i) := by
  intro body
  induction body with
  | nil =>
    intro s _ _ _
    exact ⟨s, rfl, rfl, fun j hj => absurd hj (Nat.not_lt_zero _), fun i _ => rfl⟩
  | cons c cs ih =>
    intro s h58 h10 hroom
    have hc58 : c ≠ 58 := fun h => h58 (h ▸ List.mem_cons_self c cs)
    have hc10 : c ≠ 10 := fun h => h10 (h ▸ List.mem_cons_self c cs)
    have hcs58 : 58 ∉ cs := fun h => h58 (List.mem_cons_of_mem c h)
    have hcs10 : 10 ∉ cs := fun h => h10 (List.mem_cons_of_mem c h)
    rw [List.cons_append, uart_poll, if_neg hc58]
    by_cases hf : c = 13 ∨ c = 0
    · rw [if_pos hf, stored_cons_drop c cs hf]
      rw [stored_cons_drop c cs hf] at hroom
      exact ih s hcs58 hcs10 hroom
    · rw [stored_cons_keep c cs hf, List.length_cons] at hroom
      rw [if_neg hf, if_neg (by omega), stored_cons_keep c cs hf]
      simp only [if_neg hc10]
      obtain ⟨s1, e1, e2, e3, e4⟩ := ih
        { s with buffer := s.buffer.store s.head c, head := s.head + 1 } hcs58 hcs10
        (by show s.head + 1 + (stored cs).length ≤ RX_BUFFER_LEN; omega)
      refine ⟨s1, e1, ?_, ?_, ?_⟩
      · rw [e2, List.length_cons]
        show s.head + 1 + (stored cs).length = s.head + ((stored cs).length + 1)
        omega
      · intro j hj
        rcases j with _ | j
        · rw [Nat.add_zero, e4 s.head (by show s.head < s.head + 1; omega)]
          simp [Mem.store]
        · have := e3 j (by simp only [List.length_cons] at hj; omega)
          have e : s.head + (j + 1) = s.head + 1 + j := by omega
          rw [e]
          simpa using this
      · intro i hi
        rw [e4 i (by show i < s.head + 1; omega)]
        have : i ≠ s.head := by omega
        simp [Mem.store, this]

/-- Record content that does not fit ends in the overflow report. -/
theorem uart_poll_overflow (rest : List Nat) : ∀ (body : List Nat) (s : State),
    58 ∉ body → 10 ∉ body → s.head ≤ RX_BUFFER_LEN →
    RX_BUFFER_LEN < s.head + (stored body).length →
    (uart_poll s (body ++ rest)).overflowed = true := by
  intro body
  induction body with
  | nil =>
    intro s _ _ h1 h2
    simp only [stored, List.filter_nil, List.length_nil] at h2
    omega
  | cons c cs ih =>
    intro s h58 h10 h1 h2
    have hc58 : c ≠ 58 := fun h => h58 (h ▸ List.mem_cons_self c cs)
    have hc10 : c ≠ 10 := fun h => h10 (h ▸ List.mem_cons_self c cs)
    have hcs58 : 58 ∉ cs := fun h => h58 (List.mem_cons_of_mem c h)
    have hcs10 : 10 ∉ cs := fun h => h10 (List.mem_cons_of_mem c h)
    rw [List.cons_append, uart_poll, if_neg hc58]
    by_cases hf : c = 13 ∨ c = 0
    · rw [if_pos hf]
      rw [stored_cons_drop c cs hf] at h2
      exact ih s hcs58 hcs10 h1 h2
    · rw [if_neg hf]
      rw [stored_cons_keep c cs hf, List.length_cons] at h2
      by_cases hfull : s.head = RX_BUFFER_LEN
      · rw [if_pos hfull]; rfl
      · rw [if_neg hfull]
        simp only [if_neg hc10]
        exact ih _ hcs58 hcs10 (by show s.head + 1 ≤ RX_BUFFER_LEN; omega)
          (by show RX_BUFFER_LEN < s.head + 1 + (stored cs).length; omega)

theorem uart_poll_marker (s : State) (cs : List Nat) :
    uart_poll s (58 :: cs) =
      uart_poll { s with buffer := s.buffer.store 0 58, head := 1 } cs := by
  rw [uart_poll, if_pos rfl]
  simp only [RX_BUFFER_LEN]
  rw [if_neg (by decide)]

theorem overflowed_cases (p : Poll) (h : p.overflowed = true) :
    ∃ s1 r, p = Poll.overflow s1 r := by
  cases p with
  | returned s r => exact Bool.noConfusion h
  | overflow s r => exact ⟨s, r, rfl⟩
  | blocked s => exact Bool.noConfusion h

/-- C9: when, in a call of `uart_poll`, a start marker `:` is followed by
more than `RX_BUFFER_LEN` characters that are neither carriage return nor
NUL, with no further start marker and no line feed among them, the call
sends `RSP_BUFER_OVERFLOW` once and enters `reboot()`; the session loop
ends there having sent that byte only: the record never reaches
`parse_buffer`, so nothing is acknowledged, staged or committed, and the
page state is as it was. -/
theorem frame_overflow (P fuel n : Nat) (s : State) (pre body rest : List Nat)
    (hpre : 10 ∉ pre) (h58 : 58 ∉ body) (h10 : 10 ∉ body)
    (hlong : RX_BUFFER_LEN < (stored body).length) :
    ∃ s1 r, uart_poll s (pre ++ (58 :: (body ++ rest))) = Poll.overflow s1 r ∧
      (uart_poll s (pre ++ (58 :: (body ++ rest)))).trace = [Event.putchar RSP_BUFER_OVERFLOW] ∧
      s1.page = s.page ∧ s1.page_offset = s.page_offset ∧
      s1.data_count = s.data_count ∧ s1.data_buffer = s.data_buffer ∧
      main_loop P fuel (n + 1) s (pre ++ (58 :: (body ++ rest))) =
        some (s1, [Event.putchar RSP_BUFER_OVERFLOW], Exit.reboot) := by
  have key : (uart_poll s (pre ++ (58 :: (body ++ rest)))).overflowed = true := by
    rcases uart_poll_prefix (58 :: (body ++ rest)) pre s hpre with h | ⟨s1, h⟩
    · exact h
    · rw [h, uart_poll_marker]
      exact uart_poll_overflow rest body _ h58 h10 (by show 1 ≤ RX_BUFFER_LEN; decide)
        (by show RX_BUFFER_LEN < 1 + (stored body).length; omega)
  obtain ⟨s1, r, h⟩ := overflowed_cases _ key
  obtain ⟨f1, f2, f3, f4⟩ := uart_poll_frame (pre ++ (58 :: (body ++ rest))) s
  rw [h] at f1 f2 f3 f4
  refine ⟨s1, r, h, by rw [h]; rfl, f1, f2, f3, f4, ?_⟩
  rw [main_loop]
  simp only [h]
  rfl

/-- A start marker followed by 129 letters `A`. -/
theorem frame_overflow_witness :
    10 ∉ ([] : List Nat) ∧ 58 ∉ List.replicate 129 65 ∧ 10 ∉ List.replicate 129 65 ∧
    RX_BUFFER_LEN < (stored (List.replicate 129 65)).length ∧
    ∃ s1 r, uart_poll (fresh (fun _ => 0)) ([] ++ (58 :: (List.replicate 129 65 ++ []))) =
        Poll.overflow s1 r ∧
      (uart_poll (fresh (fun _ => 0)) ([] ++ (58 :: (List.replicate 129 65 ++ [])))).trace =
        [Event.putchar RSP_BUFER_OVERFLOW] ∧
      s1.page = (fresh (fun _ => 0)).page ∧
      s1.page_offset = (fresh (fun _ => 0)).page_offset ∧
      s1.data_count = (fresh (fun _ => 0)).data_count ∧
      s1.data_buffer = (fresh (fun _ => 0)).data_buffer ∧
      main_loop 128 200 (0 + 1) (fresh (fun _ => 0)) ([] ++ (58 :: (List.replicate 129 65 ++ []))) =
        some (s1, [Event.putchar RSP_BUFER_OVERFLOW], Exit.reboot) :=
  ⟨by decide, by decide, by decide, by decide,
    frame_overflow 128 200 0 (fresh (fun _ => 0)) [] (List.replicate 129 65) []
      (by decide) (by decide) (by decide) (by decide)⟩

/-- C10: when the input of a call of `uart_poll` has a first line that
contains a start marker `:` and the call does not end in the overflow
report, the call returns with the input after the line feed unread, the
record buffer holds `:` at index 0 and, from index 1 on, exactly the
characters that came after the last `:` of the line, carriage returns and
NULs left out, in order, whatever came before that `:` and whatever the
state was; and `head` is back at the start of the buffer. -/
theorem frame_content (s : State) (pre body rest : List Nat)
    (hpre : 10 ∉ pre) (h58 : 58 ∉ body) (h10 : 10 ∉ body)
    (hno : (uart_poll s (pre ++ (58 :: (body ++ (10 :: rest))))).overflowed = false) :
    ∃ s1, uart_poll s (pre ++ (58 :: (body ++ (10 :: rest)))) = Poll.returned s1 rest ∧
      s1.buffer 0 = 58 ∧
      (∀ j, j < (stored body).length → s1.buffer (1 + j) = (stored body).getD j 0) ∧
      s1.head = 0 := by
  rcases uart_poll_prefix (58 :: (body ++ (10 :: rest))) pre s hpre with h | ⟨s0, h⟩
  · rw [h] at hno
    exact Bool.noConfusion hno
  · rw [h, uart_poll_marker] at hno ⊢
    by_cases hroom : 1 + (stored body).length ≤ RX_BUFFER_LEN
    · obtain ⟨s2, e1, e2, e3, e4⟩ := uart_poll_body (10 :: rest) body
        { s0 with buffer := s0.buffer.store 0 58, head := 1 } h58 h10 hroom
      have e2' : s2.head = 1 + (stored body).length := e2
      have e4' : s2.buffer 0 = 58 := by
        rw [e4 0 (by show 0 < 1; decide)]
        simp [Mem.store]
      rw [e1] at hno ⊢
      rw [uart_poll, if_neg (by decide), if_neg (by decide)] at hno ⊢
      by_cases hfull : s2.head = RX_BUFFER_LEN
      · rw [if_pos hfull] at hno
        exact Bool.noConfusion hno
      · rw [if_neg hfull]
        simp only [if_true]
        refine ⟨_, rfl, ?_, ?_, rfl⟩
        · show s2.buffer.store s2.head 10 0 = 58
          have : (0 : Nat) ≠ s2.head := by omega
          simp [Mem.store, this, e4']
        · intro j hj
          show s2.buffer.store s2.head 10 (1 + j) = (stored body).getD j 0
          have : 1 + j ≠ s2.head := by omega
          simp only [Mem.store, if_neg this]
          exact e3 j hj
    · have := uart_poll_overflow (10 :: rest) body
        { s0 with buffer := s0.buffer.store 0 58, head := 1 } h58 h10
        (by show 1 ≤ RX_BUFFER_LEN; decide)
        (by show RX_BUFFER_LEN < 1 + (stored body).length; omega)
      rw [this] at hno
      exact Bool.noConfusion hno

/-- The input `ab:cd:e`, carriage return, `f`, line feed, `g`: the buffer
holds `:ef`. -/
theorem frame_content_witness :
    10 ∉ [97, 98, 58, 99, 100] ∧ 58 ∉ [101, 13, 102] ∧ 10 ∉ [101, 13, 102] ∧
    (uart_poll (fresh (fun _ => 0))
      ([97, 98, 58, 99, 100] ++ (58 :: ([101, 13, 102] ++ (10 :: [103]))))).overflowed = false ∧
    ∃ s1, uart_poll (fresh (fun _ => 0))
        ([97, 98, 58, 99, 100] ++ (58 :: ([101, 13, 102] ++ (10 :: [103])))) =
        Poll.returned s1 [103] ∧
      s1.buffer 0 = 58 ∧
      (∀ j, j < (stored [101, 13, 102]).length →
        s1.buffer (1 + j) = (stored [101, 13, 102]).getD j 0) ∧
      s1.head = 0 :=
  ⟨by decide, by decide, by decide, by decide,
    frame_content (fresh (fun _ => 0)) [97, 98, 58, 99, 100] [101, 13, 102] [103]
      (by decide) (by decide) (by decide) (by decide)⟩

/-! ## The page-buffer invariant (C7) -/

/-- The decoding loop does not touch the target address or the cursor. -/
theorem parse_buffer_loop_frame (len : Nat) : ∀ fuel i crc (s : State) r,
    parse_buffer_loop len fuel i crc s = some r →
    r.2.2.page = s.page ∧ r.2.2.page_offset = s.page_offset := by
  intro fuel
  induction fuel with
  | zero => intro i crc s r h; exact Option.noConfusion h
  | succ f ih =>
    intro i crc s r h
    rw [parse_buffer_loop] at h
    by_cases hi : i < len * 2 + 9
    · rw [if_pos hi] at h
      simp only [] at h
      have hrec := ih _ _ _ r h
      exact hrec
    · rw [if_neg hi] at h
      rw [← Option.some.inj h]
      exact ⟨rfl, rfl⟩

/-- The ways `parse_buffer` can return. -/
theorem parse_buffer_cases (P fuel : Nat) (s : State) (r : Result)
    (h : parse_buffer P fuel s = some r) :
    ∃ s1 : State, s1.page = s.page ∧ s1.page_offset = s.page_offset ∧
      (r = ⟨s1, [Event.putchar RSP_CRC_ERROR], Outcome.reboot⟩ ∨
       (∃ s2 tr, page_buffer_push P fuel s1 = some (s2, tr) ∧
          r = ⟨{ s2 with data_count := 0 }, Event.putchar RSP_DATA_RECORD :: tr,
            Outcome.returned rsp_type.WRITE_OK⟩) ∨
       r = ⟨s1, Event.putchar RSP_EOF_REACHED ::
            (if s1.page_offset ≠ 0 then write_flash_page s1 else []),
          Outcome.returned rsp_type.WRITE_COMPLETE⟩ ∨
       r = ⟨{ s1 with data_count := 0 }, [], Outcome.returned rsp_type.WRITE_OK⟩) := by
  unfold parse_buffer at h
  simp only [] at h
  cases hl : parse_buffer_loop (hex2byte (s.buffer 1) (s.buffer 2)) fuel 9
      ((hex2byte (s.buffer 1) (s.buffer 2) + hex2byte (s.buffer 3) (s.buffer 4) +
        hex2byte (s.buffer 5) (s.buffer 6) + hex2byte (s.buffer 7) (s.buffer 8)) % 256) s with
  | none =>
    rw [hl] at h
    exact Option.noConfusion h
  | some q =>
    obtain ⟨i, crc1, s1⟩ := q
    obtain ⟨f1, f2⟩ := parse_buffer_loop_frame _ _ _ _ _ _ hl
    rw [hl] at h
    simp only [] at h
    refine ⟨s1, f1, f2, ?_⟩
    by_cases h1 : hex2byte (s1.buffer i) (s1.buffer (i + 1)) ≠ (255 - crc1 + 1) % 256
    · rw [if_pos h1] at h
      exact Or.inl (Option.some.inj h).symm
    · rw [if_neg h1] at h
      by_cases h2 : hex2byte (s.buffer 7) (s.buffer 8) = 0
      · rw [if_pos h2] at h
        cases hp : page_buffer_push P fuel s1 with
        | none => rw [hp] at h; exact Option.noConfusion h
        | some q2 =>
          obtain ⟨s2, tr⟩ := q2
          rw [hp] at h
          exact Or.inr (Or.inl ⟨s2, tr, rfl, (Option.some.inj h).symm⟩)
      · rw [if_neg h2] at h
        by_cases h3 : hex2byte (s.buffer 7) (s.buffer 8) = 1
        · rw [if_pos h3] at h
          exact Or.inr (Or.inr (Or.inl (Option.some.inj h).symm))
        · rw [if_neg h3] at h
          exact Or.inr (Or.inr (Or.inr (Option.some.inj h).symm))

/-- One pass of the staging loop under the invariant: a word that fits
goes to `page + page_offset`; a word that would take the cursor past the
page size is preceded by the commit of the page, after which the target
address is one page further and the word goes to its start. -/
theorem page_buffer_push_body_inv (P : Nat) (hP2 : P % 2 = 0) (hP0 : 0 < P) (hP : P ≤ 254)
    (hdiv : 65536 % P = 0) (i : Nat) (s : State) (h : PageInv P s) :
    PageInv P (page_buffer_push_body P i s).1 ∧
    (s.page_offset + 2 ≤ P →
      (page_buffer_push_body P i s).2 =
        [Event.page_fill (s.page + s.page_offset)
          (s.data_buffer i + 256 * s.data_buffer (i + 1))] ∧
      (page_buffer_push_body P i s).1.page = s.page ∧
      (page_buffer_push_body P i s).1.page_offset = s.page_offset + 2) ∧
    (P < s.page_offset + 2 →
      (page_buffer_push_body P i s).2 =
        [Event.page_erase s.page, Event.page_write s.page,
          Event.page_fill ((s.page + P) % 65536)
            (s.data_buffer i + 256 * s.data_buffer (i + 1))] ∧
      (page_buffer_push_body P i s).1.page = (s.page + P) % 65536 ∧
      (page_buffer_push_body P i s).1.page_offset = 2) ∧
    (∀ a, a ∈ erased (page_buffer_push_body P i s).2 ∨
        a ∈ written (page_buffer_push_body P i s).2 → a % P = 0) := by
  obtain ⟨h1, h2, h3, h4⟩ := h
  have hdvd : P ∣ 65536 := Nat.dvd_of_mod_eq_zero hdiv
  by_cases hfull : s.page_offset = P
  · have hb : page_buffer_push_body P i s =
        ({ s with page := (s.page + P) % 65536, page_offset := 2 },
          [Event.page_erase s.page, Event.page_write s.page,
            Event.page_fill ((s.page + P) % 65536)
              (s.data_buffer i + 256 * s.data_buffer (i + 1))]) := by
      simp [page_buffer_push_body, hfull, write_flash_page]
    rw [hb]
    have hpage : (s.page + P) % 65536 % P = 0 := by
      rw [Nat.mod_mod_of_dvd _ hdvd, Nat.add_mod, h3, Nat.mod_self]
      exact Nat.zero_mod P
    refine ⟨⟨by show 2 % 2 = 0; rfl, by show 2 ≤ P; omega, hpage,
      Nat.mod_lt _ (by norm_num)⟩, ?_, ?_, ?_⟩
    · intro hfit; omega
    · intro _; exact ⟨rfl, rfl, rfl⟩
    · intro a ha
      simp only [erased, written, List.mem_singleton, or_self] at ha
      rw [ha]; exact h3
  · have hlt : ¬ s.page_offset ≥ P := by omega
    have hb : page_buffer_push_body P i s =
        ({ s with page_offset := s.page_offset + 2 },
          [Event.page_fill ((s.page + s.page_offset) % 65536)
            (s.data_buffer i + 256 * s.data_buffer (i + 1))]) := by
      have h256 : (s.page_offset + 2) % 256 = s.page_offset + 2 := by omega
      simp [page_buffer_push_body, hlt, h256]
    have hroom : s.page + P ≤ 65536 := by
      obtain ⟨q, hq⟩ := hdvd
      obtain ⟨m, hm⟩ := Nat.dvd_of_mod_eq_zero h3
      rw [hm, hq] at h4
      have hmq : m < q := Nat.lt_of_mul_lt_mul_left h4
      have : P * (m + 1) ≤ P * q := Nat.mul_le_mul_left P hmq
      rw [Nat.mul_add, Nat.mul_one] at this
      omega
    have haddr : (s.page + s.page_offset) % 65536 = s.page + s.page_offset := by omega
    rw [hb, haddr]
    refine ⟨⟨by show (s.page_offset + 2) % 2 = 0; omega, by show s.page_offset + 2 ≤ P; omega,
      h3, h4⟩, ?_, ?_, ?_⟩
    · intro _; exact ⟨rfl, rfl, rfl⟩
    · intro hpast; omega
    · intro a ha
      simp [erased, written] at ha

theorem page_buffer_push_loop_inv (P : Nat) (hP2 : P % 2 = 0) (hP0 : 0 < P) (hP : P ≤ 254)
    (hdiv : 65536 % P = 0) : ∀ fuel i (s : State) r, PageInv P s →
    page_buffer_push_loop P fuel i s = some r →
    PageInv P r.1 ∧ ∀ a, a ∈ erased r.2 ∨ a ∈ written r.2 → a % P = 0 := by
  intro fuel
  induction fuel with
  | zero => intro i s r _ h; exact Option.noConfusion h
  | succ f ih =>
    intro i s r hinv h
    rw [page_buffer_push_loop] at h
    by_cases hi : i < s.data_count
    · rw [if_pos hi] at h
      obtain ⟨b1, _, _, b4⟩ := page_buffer_push_body_inv P hP2 hP0 hP hdiv i s hinv
      cases hl : page_buffer_push_loop P f ((i + 2) % 256) (page_buffer_push_body P i s).1 with
      | none => rw [hl] at h; exact Option.noConfusion h
      | some q =>
        obtain ⟨s2, tr⟩ := q
        obtain ⟨c1, c2⟩ := ih _ _ _ b1 hl
        rw [hl] at h
        rw [← Option.some.inj h]
        refine ⟨c1, ?_⟩
        intro a ha
        simp only [erased_append, written_append, List.mem_append] at ha
        rcases ha with (ha | ha) | (ha | ha)
        · exact b4 a (Or.inl ha)
        · exact c2 a (Or.inl ha)
        · exact b4 a (Or.inr ha)
        · exact c2 a (Or.inr ha)
    · rw [if_neg hi] at h
      rw [← Option.some.inj h]
      exact ⟨hinv, fun a ha => by simp [erased, written] at ha⟩

/-- A call of `parse_buffer` keeps the invariant and commits only at
multiples of the page size. -/
theorem parse_buffer_inv (P : Nat) (hP2 : P % 2 = 0) (hP0 : 0 < P) (hP : P ≤ 254)
    (hdiv : 65536 % P = 0) (fuel : Nat) (s : State) (r : Result) (hinv : PageInv P s)
    (h : parse_buffer P fuel s = some r) :
    PageInv P r.state ∧ ∀ a, a ∈ erased r.trace ∨ a ∈ written r.trace → a % P = 0 := by
  obtain ⟨s1, f1, f2, hc⟩ := parse_buffer_cases P fuel s r h
  have hinv1 : PageInv P s1 := by
    unfold PageInv at hinv ⊢
    rw [f1, f2]; exact hinv
  rcases hc with hc | ⟨s2, tr, hp, hc⟩ | hc | hc
  · rw [hc]
    exact ⟨hinv1, fun a ha => by simp [erased, written] at ha⟩
  · rw [hc]
    unfold page_buffer_push at hp
    cases hl : page_buffer_push_loop P fuel 0 s1 with
    | none => rw [hl] at hp; exact Option.noConfusion hp
    | some q =>
      obtain ⟨s3, tr3⟩ := q
      rw [hl] at hp
      obtain ⟨c1, c2⟩ := page_buffer_push_loop_inv P hP2 hP0 hP hdiv fuel 0 s1 _ hinv1 hl
      have e := Option.some.inj hp
      have e1 : s2 = { s3 with data_count := 0 } := (congrArg Prod.fst e).symm
      have e2 : tr = tr3 := (congrArg Prod.snd e).symm
      subst e1 e2
      exact ⟨c1, fun a ha => c2 a (by simpa [erased, written] using ha)⟩
  · rw [hc]
    refine ⟨hinv1, ?_⟩
    intro a ha
    by_cases h0 : s1.page_offset = 0
    · simp [h0, erased, written] at ha
    · simp [h0, erased, written, write_flash_page] at ha
      rw [ha]; exact hinv1.2.2.1
  · rw [hc]
    exact ⟨hinv1, fun a ha => by simp [erased, written] at ha⟩

theorem reachable_inv (P : Nat) (hP2 : P % 2 = 0) (hP0 : 0 < P) (hP : P ≤ 254)
    (hdiv : 65536 % P = 0) (s : State) (hr : Reachable P s) : PageInv P s := by
  induction hr with
  | init s h1 h2 =>
    unfold PageInv
    rw [h1, h2]
    exact ⟨rfl, Nat.zero_le _, Nat.zero_mod _, by norm_num⟩
  | frame s b h _ ih => exact ih
  | poll s input _ ih =>
    obtain ⟨f1, f2, _, _⟩ := uart_poll_frame input s
    unfold PageInv at ih ⊢
    rw [f1, f2]; exact ih
  | parse s fuel r _ h ih => exact (parse_buffer_inv P hP2 hP0 hP hdiv fuel s r ih h).1
  | word s i _ ih => exact (page_buffer_push_body_inv P hP2 hP0 hP hdiv i s ih).1

/-- C7: with a page size `P` that is even, at most 254 and divides 65536,
in every reachable state, the states inside `page_buffer_push` included,
`page_offset` is even and at most `P` and `page` is a multiple of `P`;
every page erase and page write `parse_buffer` issues from such a state
is at a multiple of `P`; and in a pass of the staging loop a word that
would take the cursor past `P` is preceded by the commit of the current
page, after which `page` has advanced by exactly `P` (as a 16-bit
address) and the cursor has restarted at 0, the word going to offset 0,
while a word that fits is staged at `page + page_offset` with no
commit. -/
theorem page_invariant (P : Nat) (hP2 : P % 2 = 0) (hP0 : 0 < P) (hP : P ≤ 254)
    (hdiv : 65536 % P = 0) (s : State) (hr : Reachable P s) :
    (s.page_offset % 2 = 0 ∧ s.page_offset ≤ P ∧ s.page % P = 0) ∧
    (∀ fuel r, parse_buffer P fuel s = some r →
      ∀ a, a ∈ erased r.trace ∨ a ∈ written r.trace → a % P = 0) ∧
    (∀ i,
      (s.page_offset + 2 ≤ P →
        (page_buffer_push_body P i s).2 =
          [Event.page_fill (s.page + s.page_offset)
            (s.data_buffer i + 256 * s.data_buffer (i + 1))] ∧
        (page_buffer_push_body P i s).1.page = s.page ∧
        (page_buffer_push_body P i s).1.page_offset = s.page_offset + 2) ∧
      (P < s.page_offset + 2 →
        (page_buffer_push_body P i s).2 =
          [Event.page_erase s.page, Event.page_write s.page,
            Event.page_fill ((s.page + P) % 65536)
              (s.data_buffer i + 256 * s.data_buffer (i + 1))] ∧
        (page_buffer_push_body P i s).1.page = (s.page + P) % 65536 ∧
        (page_buffer_push_body P i s).1.page_offset = 2)) := by
  have hinv := reachable_inv P hP2 hP0 hP hdiv s hr
  refine ⟨⟨hinv.1, hinv.2.1, hinv.2.2.1⟩, ?_, ?_⟩
  · intro fuel r h
    exact (parse_buffer_inv P hP2 hP0 hP hdiv fuel s r hinv h).2
  · intro i
    obtain ⟨_, b2, b3, _⟩ := page_buffer_push_body_inv P hP2 hP0 hP hdiv i s hinv
    exact ⟨b2, b3⟩

/-- The state after one word has been staged in a fresh session, page
size 128. -/
theorem page_invariant_witness :
    128 % 2 = 0 ∧ 0 < 128 ∧ 128 ≤ 254 ∧ 65536 % 128 = 0 ∧
    Reachable 128 (page_buffer_push_body 128 0 (fresh (fun _ => 0))).1 ∧
    (page_buffer_push_body 128 0 (fresh (fun _ => 0))).1.page_offset % 2 = 0 ∧
    (page_buffer_push_body 128 0 (fresh (fun _ => 0))).1.page_offset ≤ 128 ∧
    (page_buffer_push_body 128 0 (fresh (fun _ => 0))).1.page % 128 = 0 :=
  ⟨by decide, by decide, by decide, by decide,
    Reachable.word _ 0 (Reachable.init _ rfl rfl),
    (page_invariant 128 (by decide) (by decide) (by decide) (by decide) _
      (Reachable.word _ 0 (Reachable.init _ rfl rfl))).1⟩

/-! ## Hex digits (C16) -/

theorem is_hex_digit_value (c : Nat) (h : is_hex_digit c) :
    hex2dec c = hex_value c ∧ hex_value c < 16 := by
  unfold is_hex_digit at h
  unfold hex2dec hex_value
  rcases h with h | h | h
  · rw [if_pos (by omega), if_pos (by omega)]; omega
  · rw [if_neg (by omega), if_pos (by omega), if_neg (by omega), if_pos (by omega)]; omega
  · rw [if_neg (by omega), if_neg (by omega), if_neg (by omega), if_neg (by omega)]; omega

theorem hex2byte_value (a b : Nat) (ha : is_hex_digit a) (hb : is_hex_digit b) :
    hex2byte a b = 16 * hex_value a + hex_value b := by
  obtain ⟨a1, a2⟩ := is_hex_digit_value a ha
  obtain ⟨b1, b2⟩ := is_hex_digit_value b hb
  unfold hex2byte
  rw [a1, b1]
  omega

/-- C16: for every pair of ASCII hex digit characters `a`, `b`: `hex2dec`
gives `a - 48` on `0`..`9`, `a - 55` (10 to 15) on `A`..`F` and `a - 87`
(10 to 15) on `a`..`f`, so a letter decodes the same in upper and in
lower case; and `hex2byte a b = 16 * hex2dec a + hex2dec b`, a value
below 256 whose high nibble is `hex2dec a`. -/
theorem hex_decoding (a b : Nat) (ha : is_hex_digit a) (hb : is_hex_digit b) :
    (48 ≤ a ∧ a ≤ 57 → hex2dec a = a - 48) ∧
    (65 ≤ a ∧ a ≤ 70 → hex2dec a = a - 55 ∧ hex2dec (a + 32) = hex2dec a) ∧
    (97 ≤ a ∧ a ≤ 102 → hex2dec a = a - 87) ∧
    hex2dec a < 16 ∧
    hex2byte a b = 16 * hex2dec a + hex2dec b ∧
    hex2byte a b < 256 ∧
    hex2byte a b / 16 = hex2dec a ∧ hex2byte a b % 16 = hex2dec b := by
  obtain ⟨a1, a2⟩ := is_hex_digit_value a ha
  obtain ⟨b1, b2⟩ := is_hex_digit_value b hb
  have hv := hex2byte_value a b ha hb
  rw [← a1] at a2 hv
  rw [← b1] at b2 hv
  refine ⟨?_, ?_, ?_, a2, hv, hex2byte_lt a b, by omega, by omega⟩
  · intro h
    unfold hex2dec
    rw [if_pos (by omega)]; omega
  · intro h
    unfold hex2dec
    rw [if_neg (by omega), if_pos (by omega), if_neg (by omega), if_neg (by omega)]
    omega
  · intro h
    unfold hex2dec
    rw [if_neg (by omega), if_neg (by omega)]
    omega

/-- The digits `A` and `7`: the byte `A7`. -/
theorem hex_decoding_witness :
    is_hex_digit 65 ∧ is_hex_digit 55 ∧
    hex2dec 65 = 65 - 55 ∧ hex2dec (65 + 32) = hex2dec 65 ∧
    hex2byte 65 55 = 16 * hex2dec 65 + hex2dec 55 ∧ hex2byte 65 55 = 0xA7 :=
  ⟨by decide, by decide,
    ((hex_decoding 65 55 (by decide) (by decide)).2.1 (by decide)).1,
    ((hex_decoding 65 55 (by decide) (by decide)).2.1 (by decide)).2,
    (hex_decoding 65 55 (by decide) (by decide)).2.2.2.2.1, by decide⟩

/-! ## Decoding a record text (C13) -/

/-- A text of hex digits held in the buffer from index `off` on is
decoded, pair by pair, to the bytes it spells. -/
theorem hex_text_decoded (b : Mem) : ∀ m (t : List Nat) (off : Nat), t.length = 2 * m →
    (∀ ch ∈ t, is_hex_digit ch) → (∀ i, i < t.length → b (off + i) = t.getD i 0) →
    (hex_bytes t).length = m ∧
    ∀ k, k < m → hex2byte (b (off + 2 * k)) (b (off + 2 * k + 1)) = (hex_bytes t).getD k 0 := by
  intro m
  induction m with
  | zero =>
    intro t off hl _ _
    have : t = [] := List.length_eq_zero.mp (by omega)
    subst this
    exact ⟨rfl, fun k hk => absurd hk (Nat.not_lt_zero _)⟩
  | succ m ih =>
    intro t off hl hd hb
    match t, hl, hd, hb with
    | a :: c :: t1, hl, hd, hb =>
      simp only [List.length_cons] at hl
      have ha : is_hex_digit a := hd a (List.mem_cons_self a _)
      have hc : is_hex_digit c := hd c (List.mem_cons_of_mem a (List.mem_cons_self c _))
      have h0 : b off = a := by
        have := hb 0 (by simp)
        simpa using this
      have h1 : b (off + 1) = c := by
        have := hb 1 (by simp)
        simpa using this
      obtain ⟨i1, i2⟩ := ih t1 (off + 2) (by omega)
        (fun ch hch => hd ch (List.mem_cons_of_mem a (List.mem_cons_of_mem c hch)))
        (fun i hi => by
          have := hb (i + 2) (by simp only [List.length_cons]; omega)
          have e : off + (i + 2) = off + 2 + i := by omega
          rw [e] at this
          simpa using this)
      refine ⟨by simp only [hex_bytes, List.length_cons, i1], ?_⟩
      intro k hk
      rcases k with _ | k
      · simp only [Nat.mul_zero, Nat.add_zero, h0, h1, hex_bytes, List.getD_cons_zero]
        exact hex2byte_value a c ha hc
      · have e1 : off + 2 * (k + 1) = off + 2 + 2 * k := by omega
        rw [e1, i2 k (by omega)]
        simp only [hex_bytes, List.getD_cons_succ]

theorem map_range_getD : ∀ l : List Nat, (List.range l.length).map (fun k => l.getD k 0) = l := by
  intro l
  induction l with
  | nil => rfl
  | cons x l ih =>
    rw [List.length_cons, List.range_succ_eq_map, List.map_cons, List.map_map]
    simp only [List.getD_cons_zero]
    exact congrArg (List.cons x) ih

/-- The fields `parse_buffer` reads from a buffer that holds an
acceptable record text are the fields the text spells, and the checksum
it recomputes is the one the text carries. -/
theorem record_fields (r : RecordText) (hok : r.ok) (b : Mem) (hb : holds b r.text) :
    rec_len b = r.data.length ∧ rec_addrH b = r.addrH ∧ rec_addrL b = r.addrL ∧
    rec_type b = r.kind ∧ payload b r.data.length = r.data ∧ rec_crc b = r.crc ∧
    checksum b = r.crc := by
  obtain ⟨h1, h2, h3, h4, h5⟩ := hok
  obtain ⟨_, hk⟩ := hex_text_decoded b (r.data.length + 5) r.text 1 h2 h1 hb
  rw [h3] at hk
  have f0 : rec_len b = r.data.length := by
    have := hk 0 (by omega)
    simpa [rec_len] using this
  have f1 : rec_addrH b = r.addrH := by
    have := hk 1 (by omega)
    simpa [rec_addrH] using this
  have f2 : rec_addrL b = r.addrL := by
    have := hk 2 (by omega)
    simpa [rec_addrL] using this
  have f3 : rec_type b = r.kind := by
    have := hk 3 (by omega)
    simpa [rec_type] using this
  have fp : ∀ k, k < r.data.length → payload_byte b k = r.data.getD k 0 := by
    intro k hk1
    have := hk (k + 4) (by omega)
    have e : 1 + 2 * (k + 4) = 9 + 2 * k := by omega
    rw [e] at this
    unfold payload_byte
    rw [this]
    simp only [List.getD_cons_succ]
    rw [List.getD_append _ _ _ _ hk1]
  have f4 : payload b r.data.length = r.data := by
    unfold payload
    conv_rhs => rw [← map_range_getD r.data]
    apply List.map_congr_left
    intro k hk1
    exact fp k (List.mem_range.mp hk1)
  have f5 : rec_crc b = r.crc := by
    have := hk (r.data.length + 4) (by omega)
    have e : 1 + 2 * (r.data.length + 4) = 9 + 2 * r.data.length := by omega
    rw [e] at this
    unfold rec_crc
    rw [f0, this]
    simp only [List.getD_cons_succ]
    rw [List.getD_append_right _ _ _ _ (Nat.le_refl _)]
    simp
  refine ⟨f0, f1, f2, f3, f4, f5, ?_⟩
  unfold checksum rec_sum
  rw [f0, f1, f2, f3, f4, h4]

theorem hex_char_digit (v : Nat) (h : v < 16) :
    is_hex_digit (hex_char v) ∧ hex_value (hex_char v) = v := by
  unfold hex_char is_hex_digit hex_value
  by_cases h10 : v < 10
  · rw [if_pos h10, if_pos (by omega)]
    exact ⟨Or.inl (by omega), by omega⟩
  · rw [if_neg h10, if_neg (by omega), if_pos (by omega)]
    exact ⟨Or.inr (Or.inl (by omega)), by omega⟩

/-- The upper-case text of a list of bytes is made of hex digits and
spells these bytes. -/
theorem hex_encode_spells : ∀ l : List Nat, (∀ x ∈ l, x < 256) →
    (∀ ch ∈ hex_encode l, is_hex_digit ch) ∧ (hex_encode l).length = 2 * l.length ∧
    hex_bytes (hex_encode l) = l := by
  intro l
  induction l with
  | nil => intro _; exact ⟨fun ch h => absurd h (List.not_mem_nil ch), rfl, rfl⟩
  | cons x l ih =>
    intro h
    have hx : x < 256 := h x (List.mem_cons_self x l)
    obtain ⟨i1, i2, i3⟩ := ih (fun y hy => h y (List.mem_cons_of_mem x hy))
    obtain ⟨a1, a2⟩ := hex_char_digit (x / 16) (by omega)
    obtain ⟨b1, b2⟩ := hex_char_digit (x % 16) (by omega)
    refine ⟨?_, ?_, ?_⟩
    · intro ch hch
      simp only [hex_encode, List.mem_cons] at hch
      rcases hch with e | e | e
      · rw [e]; exact a1
      · rw [e]; exact b1
      · exact i1 ch e
    · simp only [hex_encode, List.length_cons, i2]; omega
    · simp only [hex_encode, hex_bytes, a2, b2, i3]
      congr 1
      omega

/-- Every byte count up to 58, address, record type and payload has a
record text: the upper-case one. -/
theorem encode_ok (addrH addrL kind : Nat) (data : List Nat) (hH : addrH < 256)
    (hL : addrL < 256) (hk : kind < 256) (hd : ∀ x ∈ data, x < 256) (hn : data.length ≤ 58) :
    (RecordText.encode addrH addrL kind data).ok := by
  have hall : ∀ x ∈ data.length :: addrH :: addrL :: kind ::
      (data ++ [(256 - (data.length + addrH + addrL + kind + data.sum) % 256) % 256]),
      x < 256 := by
    intro x hx
    simp only [List.mem_cons, List.mem_append, List.mem_singleton, List.not_mem_nil,
      or_false] at hx
    rcases hx with e | e | e | e | e | e
    · omega
    · omega
    · omega
    · omega
    · exact hd x e
    · omega
  obtain ⟨e1, e2, e3⟩ := hex_encode_spells _ hall
  refine ⟨e1, ?_, e3, rfl, hn⟩
  simp only [RecordText.encode, e2, List.length_cons, List.length_append, List.length_nil]
  try omega

/-! ## Acceptance, whatever the page size -/

theorem page_buffer_push_body_frame (P i : Nat) (s : State) :
    (page_buffer_push_body P i s).1.data_buffer = s.data_buffer ∧
    sent (page_buffer_push_body P i s).2 = [] := by
  unfold page_buffer_push_body
  by_cases h : s.page_offset ≥ P
  · simp [if_pos h, write_flash_page, sent]
  · simp [if_neg h, sent]

theorem sent_append (a b : List Event) : sent (a ++ b) = sent a ++ sent b := by
  induction a with
  | nil => rfl
  | cons e a ih => cases e <;> simp [sent, ih]

/-- The staging loop sends nothing and leaves the payload buffer as it
is. -/
theorem page_buffer_push_loop_frame (P : Nat) : ∀ fuel i (s : State) r,
    page_buffer_push_loop P fuel i s = some r →
    r.1.data_buffer = s.data_buffer ∧ sent r.2 = [] := by
  intro fuel
  induction fuel with
  | zero => intro i s r h; exact Option.noConfusion h
  | succ f ih =>
    intro i s r h
    rw [page_buffer_push_loop] at h
    by_cases hi : i < s.data_count
    · rw [if_pos hi] at h
      obtain ⟨b1, b2⟩ := page_buffer_push_body_frame P i s
      cases hl : page_buffer_push_loop P f ((i + 2) % 256) (page_buffer_push_body P i s).1 with
      | none => rw [hl] at h; exact Option.noConfusion h
      | some q =>
        obtain ⟨s2, tr⟩ := q
        obtain ⟨c1, c2⟩ := ih _ _ _ hl
        rw [hl] at h
        rw [← Option.some.inj h]
        exact ⟨c1.trans b1, by rw [sent_append, b2, c2]; rfl⟩
    · rw [if_neg hi] at h
      rw [← Option.some.inj h]
      exact ⟨rfl, rfl⟩

/-- A data record with a correct checksum and a byte count of at most
123, decoded into an empty payload buffer, is acknowledged and
`parse_buffer` returns `WRITE_OK`, for every page size. -/
theorem parse_buffer_data_any (P fuel : Nat) (s : State) (hlen : rec_len s.buffer ≤ 123)
    (hf : rec_len s.buffer < fuel) (htype : rec_type s.buffer = 0)
    (hcrc : rec_crc s.buffer = checksum s.buffer) (hdc : s.data_count = 0) :
    ∃ r tr, parse_buffer P fuel s = some r ∧
      r.trace = Event.putchar RSP_DATA_RECORD :: tr ∧ sent tr = [] ∧
      r.outcome = Outcome.returned rsp_type.WRITE_OK ∧ r.state.data_count = 0 ∧
      r.state.data_buffer = (decoded s).data_buffer := by
  have hcount := decoded_data_count s hdc hlen
  obtain ⟨⟨s2, tr⟩, hp⟩ := page_buffer_push_some P fuel (decoded s) (by omega) (by omega)
  have hp' := hp
  unfold page_buffer_push at hp'
  cases hl : page_buffer_push_loop P fuel 0 (decoded s) with
  | none => rw [hl] at hp'; exact Option.noConfusion hp'
  | some q =>
    obtain ⟨s3, tr3⟩ := q
    rw [hl] at hp'
    obtain ⟨c1, c2⟩ := page_buffer_push_loop_frame P fuel 0 (decoded s) _ hl
    have e := Option.some.inj hp'
    have e1 : s2 = { s3 with data_count := 0 } := (congrArg Prod.fst e).symm
    have e2 : tr = tr3 := (congrArg Prod.snd e).symm
    subst e1 e2
    have hpb : parse_buffer P fuel s =
        some ⟨{ ({ s3 with data_count := 0 } : State) with data_count := 0 },
          Event.putchar RSP_DATA_RECORD :: tr, Outcome.returned rsp_type.WRITE_OK⟩ := by
      rw [parse_buffer_eq P fuel s hlen hf]
      unfold dispatch
      rw [if_neg (not_not.mpr hcrc), if_pos htype, hp]
    exact ⟨_, tr, hpb, rfl, c2, rfl, rfl, c1⟩

/-- A record with a correct checksum and a byte count of at most 123,
decoded into an empty payload buffer, is accepted: `parse_buffer` returns
and the payload buffer holds what the decoding loop stored. -/
theorem parse_buffer_accepts (P fuel : Nat) (s : State) (hlen : rec_len s.buffer ≤ 123)
    (hf : rec_len s.buffer < fuel) (hcrc : rec_crc s.buffer = checksum s.buffer)
    (hdc : s.data_count = 0) :
    ¬ crc_halt (parse_buffer P fuel s) ∧
    ∃ r v, parse_buffer P fuel s = some r ∧ r.outcome = Outcome.returned v ∧
      r.state.data_buffer = (decoded s).data_buffer := by
  have hret : ∃ r v, parse_buffer P fuel s = some r ∧ r.outcome = Outcome.returned v ∧
      r.state.data_buffer = (decoded s).data_buffer := by
    by_cases h0 : rec_type s.buffer = 0
    · obtain ⟨r, tr, h1, _, _, h4, _, h6⟩ := parse_buffer_data_any P fuel s hlen hf h0 hcrc hdc
      exact ⟨r, _, h1, h4, h6⟩
    · rw [parse_buffer_eq P fuel s hlen hf]
      unfold dispatch
      rw [if_neg (not_not.mpr hcrc), if_neg h0]
      by_cases h1 : rec_type s.buffer = 1
      · rw [if_pos h1]; exact ⟨_, _, rfl, rfl, rfl⟩
      · rw [if_neg h1]; exact ⟨_, _, rfl, rfl, rfl⟩
  refine ⟨?_, hret⟩
  obtain ⟨r, v, h1, h2, _⟩ := hret
  rintro ⟨r2, e1, _, e3⟩
  rw [h1] at e1
  rw [← Option.some.inj e1, h2] at e3
  exact Outcome.noConfusion e3

/-- C13: for every record text that spells a byte count `n ≤ 58`, an
address, a record type, `n` payload bytes and their checksum, hex digits
in either case: when the record buffer holds the text after the start
marker and the payload buffer is empty, `parse_buffer` decodes the same
byte count, address bytes, record type and payload bytes, in order, into
`data_buffer`; the checksum it recomputes from the decoded fields equals
the checksum byte the text carries; and the record is accepted. -/
theorem round_trip (P fuel : Nat) (s : State) (r : RecordText) (hok : r.ok)
    (hb : holds s.buffer r.text) (hdc : s.data_count = 0) (hf : 58 < fuel) :
    rec_len s.buffer = r.data.length ∧ rec_addrH s.buffer = r.addrH ∧
    rec_addrL s.buffer = r.addrL ∧ rec_type s.buffer = r.kind ∧
    payload s.buffer r.data.length = r.data ∧
    rec_crc s.buffer = r.crc ∧ checksum s.buffer = r.crc ∧
    ¬ crc_halt (parse_buffer P fuel s) ∧
    ∃ res v, parse_buffer P fuel s = some res ∧ res.outcome = Outcome.returned v ∧
      ∀ j, j < r.data.length → res.state.data_buffer j = r.data.getD j 0 := by
  obtain ⟨f0, f1, f2, f3, f4, f5, f6⟩ := record_fields r hok s.buffer hb
  have hn : r.data.length ≤ 58 := hok.2.2.2.2
  have hlen : rec_len s.buffer ≤ 123 := by omega
  obtain ⟨a1, res, v, a2, a3, a4⟩ := parse_buffer_accepts P fuel s hlen (by omega)
    (by rw [f5, f6]) hdc
  refine ⟨f0, f1, f2, f3, f4, f5, f6, a1, res, v, a2, a3, ?_⟩
  intro j hj
  obtain ⟨d1, _, _⟩ := decode_store_get s.buffer (rec_len s.buffer) 0 s.data_buffer 0 (by omega)
  have hd := d1 j (by omega)
  simp only [Nat.zero_add] at hd
  have hpj : payload_byte s.buffer j = r.data.getD j 0 := by
    have := congrArg (fun l => l.getD j 0) f4
    simp only [payload] at this
    rw [← this, List.getD_eq_getElem _ _ (by simp [hj])]
    simp
  rw [a4]
  simp only [decoded, hdc]
  rw [hd, hpj]

/-- The text `0400000001020304f2`: accepted, payload 01 02 03 04. -/
theorem round_trip_witness :
    sample_text.ok ∧ holds (fresh (Mem.ofString ":0400000001020304f2")).buffer sample_text.text ∧
    (fresh (Mem.ofString ":0400000001020304f2")).data_count = 0 ∧ 58 < 200 ∧
    rec_len (fresh (Mem.ofString ":0400000001020304f2")).buffer = 4 ∧
    payload (fresh (Mem.ofString ":0400000001020304f2")).buffer 4 = [1, 2, 3, 4] ∧
    rec_crc (fresh (Mem.ofString ":0400000001020304f2")).buffer = 0xF2 ∧
    ¬ crc_halt (parse_buffer 128 200 (fresh (Mem.ofString ":0400000001020304f2"))) := by
  have hh : holds (fresh (Mem.ofString ":0400000001020304f2")).buffer sample_text.text := by
    intro i hi
    have hi' : i < 18 := hi
    interval_cases i <;> rfl
  obtain ⟨h1, _, _, _, h5, h6, _, h8, _⟩ :=
    round_trip 128 200 (fresh (Mem.ofString ":0400000001020304f2")) sample_text (by decide) hh
      rfl (by decide)
  exact ⟨by decide, hh, rfl, by decide, h1, h5, h6, h8⟩

/-! ## The line terminator (C11) -/

/-- Input without a line feed that does not end in the overflow report
is consumed; the call goes on with what follows, in the state reached. -/
theorem uart_poll_append (rest : List Nat) : ∀ (pre : List Nat) (s : State), 10 ∉ pre →
    (uart_poll s pre).overflowed = false →
    uart_poll s (pre ++ rest) = uart_poll (uart_poll s pre).state rest := by
  intro pre
  induction pre with
  | nil => intro s _ _; rfl
  | cons c cs ih =>
    intro s hnl hno
    have hc : c ≠ 10 := fun h => hnl (h ▸ List.mem_cons_self c cs)
    have hcs : 10 ∉ cs := fun h => hnl (List.mem_cons_of_mem c h)
    rw [List.cons_append]
    by_cases h58 : c = 58
    · have hstep : ∀ l, uart_poll s (c :: l) =
          uart_poll { s with buffer := s.buffer.store 0 c, head := 0 + 1 } l := by
        intro l
        rw [uart_poll, if_pos h58]
        simp only [RX_BUFFER_LEN]
        rw [if_neg (by decide)]
      rw [hstep cs] at hno
      rw [hstep (cs ++ rest), hstep cs]
      exact ih _ hcs hno
    · by_cases hf : c = 13 ∨ c = 0
      · have hstep : ∀ l, uart_poll s (c :: l) = uart_poll s l := by
          intro l
          rw [uart_poll, if_neg h58, if_pos hf]
        rw [hstep cs] at hno
        rw [hstep (cs ++ rest), hstep cs]
        exact ih s hcs hno
      · by_cases hfull : s.head = RX_BUFFER_LEN
        · rw [uart_poll, if_neg h58, if_neg hf, if_pos hfull] at hno
          exact Bool.noConfusion hno
        · have hstep : ∀ l, uart_poll s (c :: l) =
              uart_poll { s with buffer := s.buffer.store s.head c, head := s.head + 1 } l := by
            intro l
            rw [uart_poll, if_neg h58, if_neg hf, if_neg hfull]
            simp only [if_neg hc]
          rw [hstep cs] at hno
          rw [hstep (cs ++ rest), hstep cs]
          exact ih _ hcs hno

/-- A line from its start marker to its line feed: when the kept
characters, the marker and the line feed fit the buffer the call returns
with the line stored, line feed included; otherwise it ends in the
overflow report. -/
theorem uart_poll_line (s : State) (body rest : List Nat) (h58 : 58 ∉ body) (h10 : 10 ∉ body) :
    ((stored body).length + 2 ≤ RX_BUFFER_LEN →
      ∃ s1, uart_poll s (58 :: (body ++ (10 :: rest))) = Poll.returned s1 rest ∧
        s1.head = 0 ∧ s1.buffer 0 = 58 ∧
        (∀ j, j < (stored body).length → s1.buffer (1 + j) = (stored body).getD j 0) ∧
        s1.buffer (1 + (stored body).length) = 10 ∧
        s1.data_count = s.data_count ∧ s1.data_buffer = s.data_buffer ∧
        s1.page = s.page ∧ s1.page_offset = s.page_offset) ∧
    (RX_BUFFER_LEN < (stored body).length + 2 →
      (uart_poll s (58 :: (body ++ (10 :: rest)))).overflowed = true) := by
  constructor
  · intro hroom
    obtain ⟨s2, e1, e2, e3, e4⟩ := uart_poll_body (10 :: rest) body
      { s with buffer := s.buffer.store 0 58, head := 1 } h58 h10
      (by show 1 + (stored body).length ≤ RX_BUFFER_LEN; omega)
    have e2' : s2.head = 1 + (stored body).length := e2
    have e4' : s2.buffer 0 = 58 := by
      rw [e4 0 (by show 0 < 1; decide)]
      simp [Mem.store]
    have hfull : ¬ s2.head = RX_BUFFER_LEN := by omega
    have hres : uart_poll s (58 :: (body ++ (10 :: rest))) =
        Poll.returned { s2 with buffer := s2.buffer.store s2.head 10, head := 0 } rest := by
      rw [uart_poll_marker, e1, uart_poll, if_neg (by decide), if_neg (by decide), if_neg hfull]
      simp only [if_true]
    obtain ⟨f1, f2, f3, f4⟩ := uart_poll_frame (58 :: (body ++ (10 :: rest))) s
    rw [hres] at f1 f2 f3 f4
    refine ⟨_, hres, rfl, ?_, ?_, ?_, f3, f4, f1, f2⟩
    · show s2.buffer.store s2.head 10 0 = 58
      have : (0 : Nat) ≠ s2.head := by omega
      simp [Mem.store, this, e4']
    · intro j hj
      show s2.buffer.store s2.head 10 (1 + j) = (stored body).getD j 0
      have : 1 + j ≠ s2.head := by omega
      simp only [Mem.store, if_neg this]
      exact e3 j hj
    · show s2.buffer.store s2.head 10 (1 + (stored body).length) = 10
      simp [Mem.store, e2']
  · intro hlong
    rw [uart_poll_marker]
    by_cases hexact : 1 + (stored body).length = RX_BUFFER_LEN
    · obtain ⟨s2, e1, e2, _, _⟩ := uart_poll_body (10 :: rest) body
        { s with buffer := s.buffer.store 0 58, head := 1 } h58 h10
        (by show 1 + (stored body).length ≤ RX_BUFFER_LEN; omega)
      have e2' : s2.head = 1 + (stored body).length := e2
      rw [e1, uart_poll, if_neg (by decide), if_neg (by decide), if_pos (by omega)]
      rfl
    · exact uart_poll_overflow (10 :: rest) body _ h58 h10 (by show 1 ≤ RX_BUFFER_LEN; decide)
        (by show RX_BUFFER_LEN < 1 + (stored body).length; omega)

/-- C11, amended: when the line feed is received `uart_poll` stops
reading, but the line feed goes through the overflow check and is stored
in the record buffer like any other kept character. So a line whose kept
characters, start marker included, number at most `RX_BUFFER_LEN - 1` is
returned, with the line feed stored right after them, `head` rewound and
the rest of the input unread; and a line that has filled the buffer
exactly to its capacity, or beyond, ends in the overflow report. -/
theorem terminator_stored (s : State) (pre body rest : List Nat) (hpre : 10 ∉ pre)
    (hok : (uart_poll s pre).overflowed = false) (h58 : 58 ∉ body) (h10 : 10 ∉ body) :
    ((stored body).length + 1 ≤ RX_BUFFER_LEN - 1 →
      ∃ s1, uart_poll s (pre ++ (58 :: (body ++ (10 :: rest)))) = Poll.returned s1 rest ∧
        s1.buffer (1 + (stored body).length) = 10 ∧ s1.head = 0) ∧
    (RX_BUFFER_LEN ≤ (stored body).length + 1 →
      ∃ s1 r, uart_poll s (pre ++ (58 :: (body ++ (10 :: rest)))) = Poll.overflow s1 r ∧
        (uart_poll s (pre ++ (58 :: (body ++ (10 :: rest))))).trace =
          [Event.putchar RSP_BUFER_OVERFLOW]) := by
  rw [uart_poll_append _ pre s hpre hok]
  obtain ⟨l1, l2⟩ := uart_poll_line (uart_poll s pre).state body rest h58 h10
  constructor
  · intro hroom
    obtain ⟨s1, a1, a2, _, _, a5, _⟩ := l1 (by unfold RX_BUFFER_LEN at hroom ⊢; omega)
    exact ⟨s1, a1, a5, a2⟩
  · intro hlong
    obtain ⟨s1, r, h⟩ := overflowed_cases _ (l2 (by omega))
    exact ⟨s1, r, h, by rw [h]; rfl⟩

/-- The line `:ef` in a fresh session: the line feed is stored at
index 3. -/
theorem terminator_stored_witness :
    10 ∉ ([] : List Nat) ∧ (uart_poll (fresh (fun _ => 0)) []).overflowed = false ∧
    58 ∉ [101, 102] ∧ 10 ∉ [101, 102] ∧ (stored [101, 102]).length + 1 ≤ RX_BUFFER_LEN - 1 ∧
    ∃ s1, uart_poll (fresh (fun _ => 0)) ([] ++ (58 :: ([101, 102] ++ (10 :: [103])))) =
        Poll.returned s1 [103] ∧
      s1.buffer (1 + (stored [101, 102]).length) = 10 ∧ s1.head = 0 :=
  ⟨by decide, by decide, by decide, by decide, by decide,
    (terminator_stored (fresh (fun _ => 0)) [] [101, 102] [103] (by decide) (by decide)
      (by decide) (by decide)).1 (by decide)⟩

/-- C11 as stated fails: in a fresh session a start marker and 127
letters `A` fill the buffer exactly to its capacity of 128 characters,
and the line feed that follows ends the call in the overflow report, not
in a return; and after the line `:ef` the line feed is in the record
buffer, at index 3. -/
theorem terminator_overflows :
    (stored (List.replicate 127 65)).length + 1 = RX_BUFFER_LEN ∧
    (uart_poll (fresh (fun _ => 0)) (58 :: (List.replicate 127 65 ++ [10]))).overflowed = true ∧
    (uart_poll (fresh (fun _ => 0)) (58 :: (List.replicate 127 65 ++ [10]))).trace =
      [Event.putchar RSP_BUFER_OVERFLOW] ∧
    (uart_poll (fresh (fun _ => 0)) [58, 101, 102, 10]).overflowed = false ∧
    (uart_poll (fresh (fun _ => 0)) [58, 101, 102, 10]).state.buffer 3 = 10 :=
  ⟨by decide, by decide, by decide, by decide, by decide⟩

/-! ## The payload loop over the whole range of the byte count (C17) -/

/-- C17, at the failing input: in a fresh session the line `:7C000000`
is framed without overflow and gives the byte count 124; the payload loop
of `parse_buffer` then runs out of every amount of fuel, its 8-bit index
never reaching the bound 257, so `parse_buffer` never returns and the
session loop makes no further progress. -/
theorem payload_loop_never_ends :
    (uart_poll initial long_count_line).rest = some [] ∧
    rec_len (uart_poll initial long_count_line).state.buffer = 124 ∧
    (∀ fuel, parse_buffer_loop 124 fuel 9 124 (uart_poll initial long_count_line).state = none) ∧
    (∀ fuel, parse_buffer 128 fuel (uart_poll initial long_count_line).state = none) ∧
    (∀ fuel n, main_loop 128 fuel n initial long_count_line = none) := by
  have hrest : (uart_poll initial long_count_line).rest = some [] := by decide
  have hlen : rec_len (uart_poll initial long_count_line).state.buffer = 124 := by decide
  have hpb : ∀ fuel, parse_buffer 128 fuel (uart_poll initial long_count_line).state = none :=
    fun fuel => parse_buffer_diverges 128 fuel _ (by rw [hlen])
  refine ⟨hrest, hlen, ?_, hpb, ?_⟩
  · intro fuel
    exact parse_buffer_loop_diverges 124 (by decide) fuel 9 124 _ (by decide)
  · intro fuel n
    cases n with
    | zero => rfl
    | succ n =>
      rw [main_loop]
      cases h : uart_poll initial long_count_line with
      | returned s1 rest =>
        have hs : (uart_poll initial long_count_line).state = s1 := by rw [h]; rfl
        have := hpb fuel
        rw [hs] at this
        simp only [this]
      | overflow s1 rest => rw [h] at hrest; exact Option.noConfusion hrest
      | blocked s1 => rw [h] at hrest; exact Option.noConfusion hrest

/-! ## Odd byte counts (C14) -/

theorem decode_store_above (b : Mem) :
    ∀ n k db dc, dc + n < 256 → ∀ i, dc + n ≤ i → (decode_store b n k db dc).1 i = db i := by
  intro n
  induction n with
  | zero => intro k db dc _ i _; rfl
  | succ n ih =>
    intro k db dc h i hi
    have hm : (dc + 1) % 256 = dc + 1 := by omega
    simp only [decode_store, hm]
    rw [ih (k + 1) _ (dc + 1) (by omega) i (by omega)]
    have : i ≠ dc := by omega
    simp [Mem.store, this]

/-- After decoding a record of odd byte count `n` into an empty payload
buffer, the words `page_buffer_push` reads are the payload bytes followed
by the byte the payload buffer already held at index `n`, paired up. -/
theorem buffer_words_decoded_odd (s : State) (hdc : s.data_count = 0)
    (hlen : rec_len s.buffer ≤ 123) (hodd : rec_len s.buffer % 2 = 1) :
    buffer_words (decoded s).data_buffer 0 ((rec_len s.buffer + 1) / 2) =
      words (payload s.buffer (rec_len s.buffer) ++ [s.data_buffer (rec_len s.buffer)]) := by
  obtain ⟨h1, _, _⟩ := decode_store_get s.buffer (rec_len s.buffer) 0 s.data_buffer 0
    (by omega)
  have h2 := decode_store_above s.buffer (rec_len s.buffer) 0 s.data_buffer 0 (by omega)
    (rec_len s.buffer) (by omega)
  have hlist : payload s.buffer (rec_len s.buffer) ++ [s.data_buffer (rec_len s.buffer)] =
      (List.range (2 * ((rec_len s.buffer + 1) / 2))).map (decoded s).data_buffer := by
    have e : 2 * ((rec_len s.buffer + 1) / 2) = rec_len s.buffer + 1 := by omega
    rw [e, List.range_succ, List.map_append]
    congr 1
    · unfold payload
      apply List.map_congr_left
      intro j hj
      have := h1 j (List.mem_range.mp hj)
      simp only [Nat.zero_add] at this
      simp only [decoded, hdc, this]
    · simp only [List.map_cons, List.map_nil, decoded, hdc, h2]
  rw [hlist, words_map_range]
  unfold buffer_words
  apply List.map_congr_left
  intro j _
  simp only [Nat.zero_add]

theorem words_snoc_odd (l : List Nat) (x y : Nat) (n : Nat) (hl : l.length = 2 * n) :
    words (l ++ [x] ++ [y]) = words l ++ [x + 256 * y] := by
  rw [List.append_assoc, words_append n l _ hl]
  rfl

/-- C14, amended: a data record with a correct checksum and an odd byte
count `n` that fits the frame buffer, processed with `data_count = 0`
and an even cursor within the page (page size even, at most 254), is not
cut short: `(n + 1) / 2` words are staged, so the cursor, counted across
any commit, advances by `n + 1`; they are the first `n - 1` payload bytes
in order, paired up low byte first, followed by one more word whose low
byte is the last payload byte and whose high byte is the byte that
`data_buffer` held at index `n` before the record was decoded. -/
theorem odd_count_staged (P fuel : Nat) (s : State) (hP2 : P % 2 = 0) (hP0 : 0 < P)
    (hP : P ≤ 254) (hfit : 2 * rec_len s.buffer + 11 ≤ RX_BUFFER_LEN)
    (hf : rec_len s.buffer < fuel)
    (htype : rec_type s.buffer = 0) (hcrc : rec_crc s.buffer = checksum s.buffer)
    (hodd : rec_len s.buffer % 2 = 1) (hdc : s.data_count = 0)
    (he : s.page_offset % 2 = 0) (ho : s.page_offset ≤ P) :
    ∃ r, parse_buffer P fuel s = some r ∧
      r.outcome = Outcome.returned rsp_type.WRITE_OK ∧
      r.trace = Event.putchar RSP_DATA_RECORD ::
        (stage P s.page s.page_offset
          (words (payload s.buffer (rec_len s.buffer) ++ [s.data_buffer (rec_len s.buffer)]))).2 ∧
      (filled r.trace).map Prod.snd =
        words (payload s.buffer (rec_len s.buffer - 1)) ++
          [payload_byte s.buffer (rec_len s.buffer - 1) +
            256 * s.data_buffer (rec_len s.buffer)] ∧
      (filled r.trace).length = (rec_len s.buffer + 1) / 2 ∧
      ((r.state.page_offset : Int) - (s.page_offset : Int)) +
        (P : Int) * ((erased r.trace).length : Int) = (rec_len s.buffer : Int) + 1 := by
  have hlen : rec_len s.buffer ≤ 123 := by unfold RX_BUFFER_LEN at hfit; omega
  have hcount := decoded_data_count s hdc hlen
  have hw := buffer_words_decoded_odd s hdc hlen hodd
  have h3 : ((decoded s).data_count + 1) / 2 = (rec_len s.buffer + 1) / 2 := by rw [hcount]
  have hpb : parse_buffer P fuel s =
      some ⟨{ decoded s with
              data_count := 0,
              page := (stage P s.page s.page_offset
                (words (payload s.buffer (rec_len s.buffer) ++
                  [s.data_buffer (rec_len s.buffer)]))).1.1,
              page_offset := (stage P s.page s.page_offset
                (words (payload s.buffer (rec_len s.buffer) ++
                  [s.data_buffer (rec_len s.buffer)]))).1.2 },
            Event.putchar RSP_DATA_RECORD ::
              (stage P s.page s.page_offset
                (words (payload s.buffer (rec_len s.buffer) ++
                  [s.data_buffer (rec_len s.buffer)]))).2,
            Outcome.returned rsp_type.WRITE_OK⟩ := by
    rw [parse_buffer_eq P fuel s hlen hf]
    unfold dispatch
    rw [if_neg (not_not.mpr hcrc), if_pos htype,
      page_buffer_push_eq P hP2 hP0 hP (decoded s) fuel (by omega) (by omega) he ho, h3, hw]
    rfl
  obtain ⟨_, _, f3, _, f5, _⟩ := stage_facts P hP2 hP0
    (words (payload s.buffer (rec_len s.buffer) ++ [s.data_buffer (rec_len s.buffer)]))
    s.page s.page_offset he ho
  have hsplit : payload s.buffer (rec_len s.buffer) =
      payload s.buffer (rec_len s.buffer - 1) ++ [payload_byte s.buffer (rec_len s.buffer - 1)] := by
    have e : rec_len s.buffer = (rec_len s.buffer - 1) + 1 := by omega
    unfold payload
    conv_lhs => rw [e, List.range_succ, List.map_append]
    rfl
  have hwords : words (payload s.buffer (rec_len s.buffer) ++ [s.data_buffer (rec_len s.buffer)]) =
      words (payload s.buffer (rec_len s.buffer - 1)) ++
        [payload_byte s.buffer (rec_len s.buffer - 1) + 256 * s.data_buffer (rec_len s.buffer)] := by
    rw [hsplit]
    exact words_snoc_odd _ _ _ ((rec_len s.buffer - 1) / 2) (by rw [payload_length]; omega)
  have hwl : (words (payload s.buffer (rec_len s.buffer) ++
      [s.data_buffer (rec_len s.buffer)])).length = (rec_len s.buffer + 1) / 2 :=
    words_length _ _ (by simp only [List.length_append, payload_length, List.length_singleton]; omega)
  have hfl : ∀ tr : List Event, (filled tr).length = ((filled tr).map Prod.snd).length := by
    intro tr; rw [List.length_map]
  refine ⟨_, hpb, rfl, rfl, ?_, ?_, ?_⟩
  · simp only [filled]
    rw [f5, hwords]
  · rw [hfl]
    simp only [filled]
    rw [f5, hwl]
  · simp only [erased]
    rw [hwl] at f3
    have h4 : ((stage P s.page s.page_offset
        (words (payload s.buffer (rec_len s.buffer) ++
          [s.data_buffer (rec_len s.buffer)]))).1.2 : Int) +
        (P : Int) * ((erased (stage P s.page s.page_offset
          (words (payload s.buffer (rec_len s.buffer) ++
            [s.data_buffer (rec_len s.buffer)]))).2).length : Int) =
        (s.page_offset : Int) + 2 * (((rec_len s.buffer + 1) / 2 : Nat) : Int) := by
      exact_mod_cast f3
    have h5 : 2 * (((rec_len s.buffer + 1) / 2 : Nat) : Int) = (rec_len s.buffer : Int) + 1 := by
      omega
    linarith

/-- The record `:0300000011223397` in a fresh session, page size 128. -/
theorem odd_count_staged_witness :
    128 % 2 = 0 ∧ 0 < 128 ∧ 128 ≤ 254 ∧
    2 * rec_len odd_record.buffer + 11 ≤ RX_BUFFER_LEN ∧ rec_len odd_record.buffer < 200 ∧
    rec_type odd_record.buffer = 0 ∧ rec_crc odd_record.buffer = checksum odd_record.buffer ∧
    rec_len odd_record.buffer % 2 = 1 ∧ odd_record.data_count = 0 ∧
    odd_record.page_offset % 2 = 0 ∧ odd_record.page_offset ≤ 128 ∧
    ∃ r, parse_buffer 128 200 odd_record = some r ∧
      r.outcome = Outcome.returned rsp_type.WRITE_OK ∧
      (filled r.trace).map Prod.snd = [0x2211, 0x0033] ∧
      (filled r.trace).length = 2 := by
  obtain ⟨r, h, h2, _, h4, h5, _⟩ :=
    odd_count_staged 128 200 odd_record (by decide) (by decide) (by decide) (by decide)
      (by decide) (by decide) (by decide) (by decide) (by decide) (by decide) (by decide)
  refine ⟨by decide, by decide, by decide, by decide, by decide, by decide, by decide,
    by decide, by decide, by decide, by decide, r, h, h2, ?_, ?_⟩
  · rw [h4]; decide
  · rw [h5]; decide

/-- C14 as stated fails: the data record `:0300000011223397` has a
correct checksum and the odd byte count 3; in a fresh session
`parse_buffer` stages two words, 11 22 and 33 00, so the cursor advances
by 4 bytes, not 2, and the last payload byte 33 is staged. -/
theorem odd_count_not_truncated :
    rec_type odd_record.buffer = 0 ∧ rec_crc odd_record.buffer = checksum odd_record.buffer ∧
    rec_len odd_record.buffer = 3 ∧ payload odd_record.buffer 3 = [0x11, 0x22, 0x33] ∧
    (parse_buffer 128 200 odd_record).map (fun r => (r.trace, r.outcome, r.state.page_offset)) =
      some ([Event.putchar RSP_DATA_RECORD, Event.page_fill 0 0x2211, Event.page_fill 2 0x0033],
        Outcome.returned rsp_type.WRITE_OK, 4) :=
  ⟨by decide, by decide, by decide, by decide, by decide⟩

/-! ## Scenario A (C15) -/

/-- C15, amended: in a fresh session the characters
`:10000000AABBCCDDEEFF00112233445566770078` and a line feed are framed by
`uart_poll` and refused by `parse_buffer`, which sends `F` and halts with
nothing staged, because the 16 bytes after the header are all payload and
no checksum follows; with the checksum `A1` of these bytes appended, the
record yields the acknowledgment `.`, the result `WRITE_OK`, and exactly
16 bytes staged as 8 words at addresses 0 to 14, with `page_offset = 16`
and no commit. -/
theorem scenario_A_outcome :
    (uart_poll initial scenario_A).rest = some [] ∧
    (parse_buffer 128 200 (uart_poll initial scenario_A).state).map
        (fun r => (r.trace, r.outcome, r.state.page_offset)) =
      some ([Event.putchar RSP_CRC_ERROR], Outcome.reboot, 0) ∧
    (uart_poll initial scenario_A_checked).rest = some [] ∧
    (parse_buffer 128 200 (uart_poll initial scenario_A_checked).state).map
        (fun r => (r.trace, r.outcome, r.state.page_offset)) =
      some ([Event.putchar RSP_DATA_RECORD, Event.page_fill 0 0xBBAA, Event.page_fill 2 0xDDCC,
          Event.page_fill 4 0xFFEE, Event.page_fill 6 0x1100, Event.page_fill 8 0x3322,
          Event.page_fill 10 0x5544, Event.page_fill 12 0x7766, Event.page_fill 14 0x7800],
        Outcome.returned rsp_type.WRITE_OK, 16) :=
  ⟨by decide, by decide, by decide, by decide⟩

/-- C15 as stated fails: the input of Scenario A is framed, its byte
count is 16, and the pair read as its checksum is the line feed and the
zero byte that follow the text, which spell 70 while the checksum of the
record is A1; the outcome of `parse_buffer` is not the acknowledgment
`.` with `WRITE_OK` and `page_offset = 16`. -/
theorem scenario_A_refused :
    rec_len (uart_poll initial scenario_A).state.buffer = 16 ∧
    rec_crc (uart_poll initial scenario_A).state.buffer = 0x70 ∧
    checksum (uart_poll initial scenario_A).state.buffer = 0xA1 ∧
    (parse_buffer 128 200 (uart_poll initial scenario_A).state).map
        (fun r => (sent r.trace, r.outcome, r.state.page_offset)) ≠
      some ([RSP_DATA_RECORD], Outcome.returned rsp_type.WRITE_OK, 16) :=
  ⟨by decide, by decide, by decide, by decide⟩

/-! ## Record isolation (C18) -/

theorem page_buffer_push_body_congr (P i : Nat) (s : State) (b1 : Mem) :
    page_buffer_push_body P i { s with buffer := b1 } =
      ({ (page_buffer_push_body P i s).1 with buffer := b1 }, (page_buffer_push_body P i s).2) := by
  unfold page_buffer_push_body
  by_cases h : s.page_offset ≥ P
  · simp only [if_pos h]; rfl
  · simp only [if_neg h]

/-- The staging loop does not look at the record buffer. -/
theorem page_buffer_push_loop_congr (P : Nat) (b1 : Mem) : ∀ fuel i (s : State),
    page_buffer_push_loop P fuel i { s with buffer := b1 } =
      (page_buffer_push_loop P fuel i s).map (fun r => ({ r.1 with buffer := b1 }, r.2)) := by
  intro fuel
  induction fuel with
  | zero => intro i s; rfl
  | succ f ih =>
    intro i s
    rw [page_buffer_push_loop, page_buffer_push_loop]
    by_cases hi : i < s.data_count
    · have hi' : i < ({ s with buffer := b1 } : State).data_count := hi
      rw [if_pos hi, if_pos hi', page_buffer_push_body_congr]
      simp only []
      rw [ih]
      cases page_buffer_push_loop P f ((i + 2) % 256) (page_buffer_push_body P i s).1 with
      | none => rfl
      | some q => rfl
    · have hi' : ¬ i < ({ s with buffer := b1 } : State).data_count := hi
      rw [if_neg hi, if_neg hi']
      rfl

/-- The decoding loop reads the record buffer only up to index
`10 + 2 * len`; it leaves the loop at index `9 + 2 * len` and does not
change the buffer. -/
theorem parse_buffer_loop_congr (len : Nat) (b1 : Mem) : ∀ fuel i crc (s : State),
    i % 2 = 1 → i ≤ 2 * len + 9 → (∀ j, j ≤ 10 + 2 * len → s.buffer j = b1 j) →
    parse_buffer_loop len fuel i crc { s with buffer := b1 } =
      (parse_buffer_loop len fuel i crc s).map
        (fun r => (r.1, r.2.1, { r.2.2 with buffer := b1 })) ∧
    ∀ r, parse_buffer_loop len fuel i crc s = some r →
      r.1 = 2 * len + 9 ∧ r.2.2.buffer = s.buffer := by
  intro fuel
  induction fuel with
  | zero =>
    intro i crc s _ _ _
    exact ⟨rfl, fun r h => Option.noConfusion h⟩
  | succ f ih =>
    intro i crc s hodd hle hag
    rw [parse_buffer_loop, parse_buffer_loop]
    by_cases hi : i < len * 2 + 9
    · rw [if_pos hi, if_pos hi]
      have e0 : b1 i = s.buffer i := (hag i (by omega)).symm
      have e1 : b1 (i + 1) = s.buffer (i + 1) := (hag (i + 1) (by omega)).symm
      simp only [e0, e1]
      exact ih ((i + 2) % 256) _
        { s with data_buffer := s.data_buffer.store s.data_count
                   (hex2byte (s.buffer i) (s.buffer (i + 1))),
                 data_count := (s.data_count + 1) % 256 }
        (by omega) (by omega) hag
    · rw [if_neg hi, if_neg hi]
      refine ⟨rfl, ?_⟩
      intro r hr
      rw [← Option.some.inj hr]
      exact ⟨by show i = 2 * len + 9; omega, rfl⟩

theorem page_buffer_push_congr (P fuel : Nat) (s : State) (b1 : Mem) :
    page_buffer_push P fuel { s with buffer := b1 } =
      (page_buffer_push P fuel s).map (fun r => ({ r.1 with buffer := b1 }, r.2)) := by
  unfold page_buffer_push
  rw [page_buffer_push_loop_congr]
  cases page_buffer_push_loop P fuel 0 s with
  | none => rfl
  | some q => rfl

/-- What `parse_buffer` does depends on the record buffer only through
indices 1 to `10 + 2 * byte_count`. -/
theorem parse_buffer_congr (P fuel : Nat) (s : State) (b1 : Mem)
    (hag : ∀ j, j ≤ 10 + 2 * rec_len s.buffer → s.buffer j = b1 j) :
    parse_buffer P fuel { s with buffer := b1 } =
      (parse_buffer P fuel s).map (fun r => { r with state := { r.state with buffer := b1 } }) := by
  have g : ∀ j, j ≤ 8 → b1 j = s.buffer j := fun j hj => (hag j (by omega)).symm
  obtain ⟨c1, c2⟩ := parse_buffer_loop_congr (rec_len s.buffer) b1 fuel 9
    ((rec_len s.buffer + rec_addrH s.buffer + rec_addrL s.buffer + rec_type s.buffer) % 256) s
    (by decide) (by omega) hag
  unfold parse_buffer
  simp only [g 1 (by decide), g 2 (by decide), g 3 (by decide), g 4 (by decide), g 5 (by decide),
    g 6 (by decide), g 7 (by decide), g 8 (by decide)]
  simp only [rec_len, rec_addrH, rec_addrL, rec_type] at c1 c2 hag
  rw [c1]
  cases hl : parse_buffer_loop (hex2byte (s.buffer 1) (s.buffer 2)) fuel 9
      ((hex2byte (s.buffer 1) (s.buffer 2) + hex2byte (s.buffer 3) (s.buffer 4) +
        hex2byte (s.buffer 5) (s.buffer 6) + hex2byte (s.buffer 7) (s.buffer 8)) % 256) s with
  | none => rfl
  | some q =>
    obtain ⟨i, crc1, s1⟩ := q
    obtain ⟨d1, d2⟩ := c2 _ hl
    have d1' : i = 2 * hex2byte (s.buffer 1) (s.buffer 2) + 9 := d1
    have d2' : s1.buffer = s.buffer := d2
    have e0 : b1 i = s1.buffer i := by rw [d2']; exact (hag i (by omega)).symm
    have e1 : b1 (i + 1) = s1.buffer (i + 1) := by rw [d2']; exact (hag (i + 1) (by omega)).symm
    simp only [Option.map_some', e0, e1]
    by_cases h1 : hex2byte (s1.buffer i) (s1.buffer (i + 1)) ≠ (255 - crc1 + 1) % 256
    · rw [if_pos h1, if_pos h1]; rfl
    · rw [if_neg h1, if_neg h1]
      by_cases h2 : hex2byte (s.buffer 7) (s.buffer 8) = 0
      · rw [if_pos h2, if_pos h2, page_buffer_push_congr]
        cases page_buffer_push P fuel s1 with
        | none => rfl
        | some q2 => rfl
      · rw [if_neg h2, if_neg h2]
        by_cases h3 : hex2byte (s.buffer 7) (s.buffer 8) = 1
        · rw [if_pos h3, if_pos h3]; rfl
        · rw [if_neg h3, if_neg h3]; rfl

/-- C18, amended: for every framed record all of whose positions read by
`parse_buffer`, indices 1 to `10 + 2 * byte_count`, are among those
`uart_poll` wrote for it, indices 0 to `L` where the line feed sits at
`L`: two runs that start from the same page state and payload buffer and
whose record buffers agree on indices 0 to `L`, whatever they hold after
that, produce the same outcome: the same bytes sent, words staged and
pages committed, the same return value or halt, and the same state apart
from the record buffer itself. -/
theorem record_isolation (P fuel : Nat) (s : State) (b1 : Mem) (L : Nat)
    (hagree : ∀ j, j ≤ L → s.buffer j = b1 j) (hlen : 10 + 2 * rec_len s.buffer ≤ L) :
    parse_buffer P fuel { s with buffer := b1 } =
      (parse_buffer P fuel s).map (fun r => { r with state := { r.state with buffer := b1 } }) :=
  parse_buffer_congr P fuel s b1 (fun j hj => hagree j (by omega))

/-- The record `:00000001FF` and its line feed, once followed by zeros
and once by other characters. -/
theorem record_isolation_witness :
    (∀ j, j ≤ 11 → (fresh (Mem.ofString ":00000001FF\n")).buffer j =
      Mem.ofString ":00000001FF\nXYZ" j) ∧
    10 + 2 * rec_len (fresh (Mem.ofString ":00000001FF\n")).buffer ≤ 11 ∧
    parse_buffer 128 200
        { fresh (Mem.ofString ":00000001FF\n") with buffer := Mem.ofString ":00000001FF\nXYZ" } =
      (parse_buffer 128 200 (fresh (Mem.ofString ":00000001FF\n"))).map
        (fun r => { r with state := { r.state with buffer := Mem.ofString ":00000001FF\nXYZ" } }) :=
  ⟨by decide, by decide,
    record_isolation 128 200 (fresh (Mem.ofString ":00000001FF\n"))
      (Mem.ofString ":00000001FF\nXYZ") 11 (by decide) (by decide)⟩

/-- C18 as stated fails: the line `:01000001` is framed into indices 0
to 9 both in a zeroed record buffer and in one that still holds the
earlier record `:02000002105E8E`; the two buffers agree on indices 0 to
9 and the rest of the state is the same, yet `parse_buffer` halts with
`F` on the first and returns `WRITE_COMPLETE` with `O` on the second,
its payload and checksum being read from what the earlier record left at
indices 10 to 12. In whole sessions: the cut line alone ends in `F`, the
cut line after the earlier record completes the session. -/
theorem record_isolation_broken :
    (uart_poll initial cut_line).rest = some [] ∧
    (uart_poll (fresh (Mem.ofList earlier_line)) cut_line).rest = some [] ∧
    (List.range 10).map (uart_poll initial cut_line).state.buffer =
      (List.range 10).map (uart_poll (fresh (Mem.ofList earlier_line)) cut_line).state.buffer ∧
    (parse_buffer 128 200 (uart_poll initial cut_line).state).map
        (fun r => (r.trace, r.outcome)) =
      some ([Event.putchar RSP_CRC_ERROR], Outcome.reboot) ∧
    (parse_buffer 128 200 (uart_poll (fresh (Mem.ofList earlier_line)) cut_line).state).map
        (fun r => (r.trace, r.outcome)) =
      some ([Event.putchar RSP_EOF_REACHED], Outcome.returned rsp_type.WRITE_COMPLETE) ∧
    (main_loop 128 200 3 initial cut_line).map (fun x => (x.2.1, x.2.2)) =
      some ([Event.putchar XOFF, Event.putchar RSP_CRC_ERROR], Exit.reboot) ∧
    (main_loop 128 200 3 initial (earlier_line ++ cut_line)).map (fun x => (x.2.1, x.2.2)) =
      some ([Event.putchar XOFF, Event.putchar XON, Event.putchar XOFF,
        Event.putchar RSP_EOF_REACHED, Event.putchar XON], Exit.complete) :=
  ⟨by decide, by decide, by decide, by decide, by decide, by decide, by decide⟩

/-! ## Bounds of the frame reader (C19) -/

theorem uart_poll_stores_marker (s : State) (cs : List Nat) :
    uart_poll_stores s (58 :: cs) =
      0 :: uart_poll_stores { s with buffer := s.buffer.store 0 58, head := 1 } cs := by
  rw [uart_poll_stores, if_pos rfl]
  simp only [RX_BUFFER_LEN]
  rw [if_neg (by decide)]

theorem store_other (m : Mem) (i v j : Nat) (h : j ≠ i) : m.store i v j = m j := by
  unfold Mem.store
  rw [if_neg h]

/-- With `head` inside the buffer or just past its end, every store of
`uart_poll` is below `RX_BUFFER_LEN`, `head` ends inside the same range,
and the buffer changes only where a store was logged. -/
theorem uart_poll_bounds : ∀ (input : List Nat) (s : State), s.head ≤ RX_BUFFER_LEN →
    (∀ i ∈ uart_poll_stores s input, i < RX_BUFFER_LEN) ∧
    (uart_poll s input).state.head ≤ RX_BUFFER_LEN ∧
    (∀ j, j ∉ uart_poll_stores s input → (uart_poll s input).state.buffer j = s.buffer j) := by
  intro input
  induction input with
  | nil =>
    intro s hs
    refine ⟨?_, hs, fun j _ => rfl⟩
    intro i hi
    rw [uart_poll_stores] at hi
    exact absurd hi (List.not_mem_nil i)
  | cons c cs ih =>
    intro s hs
    by_cases h58 : c = 58
    · subst h58
      rw [uart_poll_stores_marker, uart_poll_marker]
      obtain ⟨a1, a2, a3⟩ := ih { s with buffer := s.buffer.store 0 58, head := 1 }
        (by show 1 ≤ RX_BUFFER_LEN; decide)
      refine ⟨?_, a2, ?_⟩
      · intro i hi
        rcases List.mem_cons.mp hi with h | h
        · rw [h]; decide
        · exact a1 i h
      · intro j hj
        have j0 : j ≠ 0 := fun e => hj (e ▸ List.mem_cons_self _ _)
        have jr := a3 j (fun e => hj (List.mem_cons_of_mem _ e))
        rw [jr]
        exact store_other s.buffer 0 58 j j0
    · rw [uart_poll_stores, uart_poll, if_neg h58, if_neg h58]
      by_cases hf : c = 13 ∨ c = 0
      · rw [if_pos hf, if_pos hf]; exact ih s hs
      · rw [if_neg hf, if_neg hf]
        by_cases hfull : s.head = RX_BUFFER_LEN
        · rw [if_pos hfull, if_pos hfull]
          exact ⟨fun i hi => absurd hi (List.not_mem_nil i), hs, fun j _ => rfl⟩
        · rw [if_neg hfull, if_neg hfull]
          have hlt : s.head < RX_BUFFER_LEN := lt_of_le_of_ne hs hfull
          by_cases hnl : c = 10
          · simp only [if_pos hnl]
            refine ⟨?_, Nat.zero_le _, ?_⟩
            · intro i hi
              rw [List.mem_singleton.mp hi]; exact hlt
            · intro j hj
              have jh : j ≠ s.head := fun e => hj (e ▸ List.mem_singleton_self _)
              exact store_other s.buffer s.head c j jh
          · simp only [if_neg hnl]
            obtain ⟨a1, a2, a3⟩ := ih
              { s with buffer := s.buffer.store s.head c, head := s.head + 1 } hlt
            refine ⟨?_, a2, ?_⟩
            · intro i hi
              rcases List.mem_cons.mp hi with h | h
              · rw [h]; exact hlt
              · exact a1 i h
            · intro j hj
              have jh : j ≠ s.head := fun e => hj (e ▸ List.mem_cons_self _ _)
              have jr := a3 j (fun e => hj (List.mem_cons_of_mem _ e))
              rw [jr]
              exact store_other s.buffer s.head c j jh

theorem uart_poll_returned_head : ∀ (input : List Nat) (s s1 : State) (rest : List Nat),
    uart_poll s input = Poll.returned s1 rest → s1.head = 0 := by
  intro input
  induction input with
  | nil =>
    intro s s1 rest h
    rw [uart_poll] at h
    exact Poll.noConfusion h
  | cons c cs ih =>
    intro s s1 rest h
    by_cases h58 : c = 58
    · subst h58
      rw [uart_poll_marker] at h
      exact ih _ s1 rest h
    · rw [uart_poll, if_neg h58] at h
      by_cases hf : c = 13 ∨ c = 0
      · rw [if_pos hf] at h; exact ih s s1 rest h
      · rw [if_neg hf] at h
        by_cases hfull : s.head = RX_BUFFER_LEN
        · rw [if_pos hfull] at h; exact Poll.noConfusion h
        · rw [if_neg hfull] at h
          by_cases hnl : c = 10
          · simp only [if_pos hnl] at h
            have e := Poll.returned.inj h
            rw [← e.1]
          · simp only [if_neg hnl] at h
            exact ih _ s1 rest h

theorem parse_buffer_loop_head (len : Nat) : ∀ fuel i crc (s : State) r,
    parse_buffer_loop len fuel i crc s = some r → r.2.2.head = s.head := by
  intro fuel
  induction fuel with
  | zero => intro i crc s r h; exact Option.noConfusion h
  | succ f ih =>
    intro i crc s r h
    rw [parse_buffer_loop] at h
    by_cases hi : i < len * 2 + 9
    · rw [if_pos hi] at h
      simp only [] at h
      have hrec := ih _ _ _ r h
      exact hrec
    · rw [if_neg hi] at h
      rw [← Option.some.inj h]

theorem page_buffer_push_body_head (P i : Nat) (s : State) :
    (page_buffer_push_body P i s).1.head = s.head := by
  unfold page_buffer_push_body
  by_cases h : s.page_offset ≥ P
  · simp only [if_pos h]
  · simp only [if_neg h]

theorem page_buffer_push_loop_head (P : Nat) : ∀ fuel i (s : State) r,
    page_buffer_push_loop P fuel i s = some r → r.1.head = s.head := by
  intro fuel
  induction fuel with
  | zero => intro i s r h; exact Option.noConfusion h
  | succ f ih =>
    intro i s r h
    rw [page_buffer_push_loop] at h
    by_cases hi : i < s.data_count
    · rw [if_pos hi] at h
      cases hl : page_buffer_push_loop P f ((i + 2) % 256) (page_buffer_push_body P i s).1 with
      | none => rw [hl] at h; exact Option.noConfusion h
      | some q =>
        obtain ⟨s2, tr⟩ := q
        rw [hl] at h
        have e := ih _ _ _ hl
        rw [← Option.some.inj h]
        show s2.head = s.head
        rw [← page_buffer_push_body_head P i s]
        exact e
    · rw [if_neg hi] at h
      rw [← Option.some.inj h]

/-- The write position of the frame reader is not touched by
`parse_buffer`. -/
theorem parse_buffer_head (P fuel : Nat) (s : State) (r : Result)
    (h : parse_buffer P fuel s = some r) : r.state.head = s.head := by
  unfold parse_buffer at h
  simp only [] at h
  cases hl : parse_buffer_loop (hex2byte (s.buffer 1) (s.buffer 2)) fuel 9
      ((hex2byte (s.buffer 1) (s.buffer 2) + hex2byte (s.buffer 3) (s.buffer 4) +
        hex2byte (s.buffer 5) (s.buffer 6) + hex2byte (s.buffer 7) (s.buffer 8)) % 256) s with
  | none =>
    rw [hl] at h
    exact Option.noConfusion h
  | some q =>
    obtain ⟨i, crc1, s1⟩ := q
    have f1 : s1.head = s.head := parse_buffer_loop_head _ _ _ _ _ _ hl
    rw [hl] at h
    simp only [] at h
    by_cases h1 : hex2byte (s1.buffer i) (s1.buffer (i + 1)) ≠ (255 - crc1 + 1) % 256
    · rw [if_pos h1] at h
      rw [← Option.some.inj h]; exact f1
    · rw [if_neg h1] at h
      by_cases h2 : hex2byte (s.buffer 7) (s.buffer 8) = 0
      · rw [if_pos h2] at h
        unfold page_buffer_push at h
        cases hp : page_buffer_push_loop P fuel 0 s1 with
        | none => rw [hp] at h; exact Option.noConfusion h
        | some q2 =>
          obtain ⟨s2, tr⟩ := q2
          rw [hp] at h
          have e := page_buffer_push_loop_head P fuel 0 s1 _ hp
          rw [← Option.some.inj h]
          show s2.head = s.head
          rw [← f1]; exact e
      · rw [if_neg h2] at h
        by_cases h3 : hex2byte (s.buffer 7) (s.buffer 8) = 1
        · rw [if_pos h3] at h
          rw [← Option.some.inj h]; exact f1
        · rw [if_neg h3] at h
          rw [← Option.some.inj h]; exact f1

/-- Every call of `uart_poll` the session loop makes after the first
starts with the write position at 0, so every store of the session is
below `RX_BUFFER_LEN`. -/
theorem main_loop_stores_bounds (P fuel : Nat) : ∀ (n : Nat) (s : State) (input : List Nat),
    s.head ≤ RX_BUFFER_LEN → ∀ i ∈ main_loop_stores P fuel n s input, i < RX_BUFFER_LEN := by
  intro n
  induction n with
  | zero =>
    intro s input _ i hi
    rw [main_loop_stores] at hi
    exact absurd hi (List.not_mem_nil i)
  | succ n ih =>
    intro s input hs i hi
    rw [main_loop_stores] at hi
    rcases List.mem_append.mp hi with h | h
    · exact (uart_poll_bounds input s hs).1 i h
    · cases hp : uart_poll s input with
      | blocked s1 => rw [hp] at h; exact absurd h (List.not_mem_nil i)
      | overflow s1 rest => rw [hp] at h; exact absurd h (List.not_mem_nil i)
      | returned s1 rest =>
        rw [hp] at h
        simp only [] at h
        have h0 : s1.head = 0 := uart_poll_returned_head input s s1 rest hp
        cases hq : parse_buffer P fuel s1 with
        | none => rw [hq] at h; exact absurd h (List.not_mem_nil i)
        | some r =>
          rw [hq] at h
          simp only [] at h
          have hr : r.state.head = 0 := by rw [parse_buffer_head P fuel s1 r hq, h0]
          cases ho : r.outcome with
          | reboot => rw [ho] at h; exact absurd h (List.not_mem_nil i)
          | returned ok =>
            rw [ho] at h
            simp only [] at h
            by_cases hc : ok = rsp_type.WRITE_COMPLETE
            · rw [if_pos hc] at h; exact absurd h (List.not_mem_nil i)
            · rw [if_neg hc] at h
              exact ih r.state rest (by rw [hr]; exact Nat.zero_le _) i h

/-- C19: for every input character stream, in a call of `uart_poll` that
starts with the write position inside `0..RX_BUFFER_LEN`, as it is in
the initial state: after every number `k` of characters consumed the
write position is within `0..RX_BUFFER_LEN`; every character stored into
the record buffer is stored at an index strictly below `RX_BUFFER_LEN` =
128, so no store is made at index `RX_BUFFER_LEN`; no location at or
past index `RX_BUFFER_LEN` is changed; and the same bound holds for the
stores of every later call of `uart_poll` in a session that starts
there, each of which finds the write position at 0. -/
theorem frame_buffer_bounds (s : State) (input : List Nat) (h : s.head ≤ RX_BUFFER_LEN) :
    (∀ k, (uart_poll s (input.take k)).state.head ≤ RX_BUFFER_LEN) ∧
    (∀ i ∈ uart_poll_stores s input, i < RX_BUFFER_LEN) ∧
    RX_BUFFER_LEN ∉ uart_poll_stores s input ∧
    RX_BUFFER_LEN = 128 ∧
    (∀ j, RX_BUFFER_LEN ≤ j → (uart_poll s input).state.buffer j = s.buffer j) ∧
    (∀ P fuel n, ∀ i ∈ main_loop_stores P fuel n s input, i < RX_BUFFER_LEN) := by
  obtain ⟨a1, _, a3⟩ := uart_poll_bounds input s h
  refine ⟨fun k => (uart_poll_bounds (input.take k) s h).2.1, a1, ?_, rfl, ?_,
    fun P fuel n => main_loop_stores_bounds P fuel n s input h⟩
  · intro hm
    exact absurd (a1 _ hm) (Nat.lt_irrefl _)
  · intro j hj
    exact a3 j (fun hm => absurd (a1 j hm) (Nat.not_lt.mpr hj))

/-- A start marker followed by 130 letters `A`: 128 stores, at indices 0
to 127, then the overflow report. -/
theorem frame_buffer_bounds_witness :
    initial.head ≤ RX_BUFFER_LEN ∧
    uart_poll_stores initial (58 :: List.replicate 130 65) = List.range 128 ∧
    (uart_poll initial (58 :: List.replicate 130 65)).overflowed = true ∧
    ((∀ k, (uart_poll initial ((58 :: List.replicate 130 65).take k)).state.head
        ≤ RX_BUFFER_LEN) ∧
      (∀ i ∈ uart_poll_stores initial (58 :: List.replicate 130 65), i < RX_BUFFER_LEN) ∧
      RX_BUFFER_LEN ∉ uart_poll_stores initial (58 :: List.replicate 130 65) ∧
      RX_BUFFER_LEN = 128 ∧
      (∀ j, RX_BUFFER_LEN ≤ j →
        (uart_poll initial (58 :: List.replicate 130 65)).state.buffer j = initial.buffer j) ∧
      (∀ P fuel n, ∀ i ∈ main_loop_stores P fuel n initial (58 :: List.replicate 130 65),
        i < RX_BUFFER_LEN)) :=
  ⟨by decide, by decide, by decide,
    frame_buffer_bounds initial (58 :: List.replicate 130 65) (by decide)⟩

/-! ## Bounds of the record decoder (C20) -/

/-- The logged loop computes what the decoding loop computes. -/
theorem parse_buffer_loop_log_fst (len : Nat) : ∀ fuel i crc (s : State),
    (parse_buffer_loop_log len fuel i crc s).map Prod.fst = parse_buffer_loop len fuel i crc s := by
  intro fuel
  induction fuel with
  | zero => intro i crc s; rfl
  | succ f ih =>
    intro i crc s
    rw [parse_buffer_loop_log, parse_buffer_loop]
    by_cases hi : i < len * 2 + 9
    · rw [if_pos hi, if_pos hi]
      simp only []
      rw [← ih]
      cases parse_buffer_loop_log len f ((i + 2) % 256)
          ((crc + hex2byte (s.buffer i) (s.buffer (i + 1))) % 256)
          { s with data_buffer := s.data_buffer.store s.data_count
                     (hex2byte (s.buffer i) (s.buffer (i + 1))),
                   data_count := (s.data_count + 1) % 256 } with
      | none => rfl
      | some q => rfl
    · rw [if_neg hi, if_neg hi]
      rfl

theorem range_two_succ (a n : Nat) :
    List.range' a (2 * (n + 1)) = a :: (a + 1) :: List.range' (a + 2) (2 * n) := by
  rw [show 2 * (n + 1) = 2 * n + 1 + 1 by omega, List.range'_succ, List.range'_succ]

/-- The accesses of the decoding loop from payload byte `k` on: the
record buffer is read at indices `9 + 2 * k` to `8 + 2 * len` and the
payload buffer written at indices `k` to `len - 1`. -/
theorem parse_buffer_loop_log_eq (len : Nat) (hlen : len ≤ 123) : ∀ n fuel k crc (s : State),
    k + n = len → n < fuel → s.data_count = k →
    ∃ r, parse_buffer_loop_log len fuel (9 + 2 * k) crc s =
        some (r, List.range' (9 + 2 * k) (2 * n), List.range' k n) ∧ r.1 = 9 + 2 * len := by
  intro n
  induction n with
  | zero =>
    intro fuel k crc s hk hf _
    obtain ⟨f, rfl⟩ : ∃ f, fuel = f + 1 := ⟨fuel - 1, by omega⟩
    rw [parse_buffer_loop_log, if_neg (by omega)]
    exact ⟨_, rfl, by show 9 + 2 * k = 9 + 2 * len; omega⟩
  | succ n ih =>
    intro fuel k crc s hk hf hdc
    obtain ⟨f, rfl⟩ : ∃ f, fuel = f + 1 := ⟨fuel - 1, by omega⟩
    have e1 : (9 + 2 * k + 2) % 256 = 9 + 2 * (k + 1) := by omega
    have e2 : (s.data_count + 1) % 256 = k + 1 := by omega
    obtain ⟨r, hr, hr1⟩ := ih f (k + 1)
      ((crc + hex2byte (s.buffer (9 + 2 * k)) (s.buffer (9 + 2 * k + 1))) % 256)
      { s with data_buffer := s.data_buffer.store s.data_count
                 (hex2byte (s.buffer (9 + 2 * k)) (s.buffer (9 + 2 * k + 1))),
               data_count := (s.data_count + 1) % 256 }
      (by omega) (by omega) e2
    rw [parse_buffer_loop_log, if_pos (by omega)]
    simp only []
    rw [e1, hr]
    refine ⟨r, ?_, hr1⟩
    rw [range_two_succ, show 9 + 2 * k + 2 = 9 + 2 * (k + 1) by omega, List.range'_succ, hdc]

/-- The accesses of `parse_buffer` on a record of at most 123 payload
bytes entered with `data_count = 0`. -/
theorem parse_buffer_accesses_eq (fuel : Nat) (s : State) (hlen : rec_len s.buffer ≤ 123)
    (hfuel : rec_len s.buffer < fuel) (hdc : s.data_count = 0) :
    parse_buffer_accesses fuel s =
      some ([1, 2, 3, 4, 5, 6, 7, 8] ++ List.range' 9 (2 * rec_len s.buffer) ++
          [9 + 2 * rec_len s.buffer, 9 + 2 * rec_len s.buffer + 1],
        List.range' 0 (rec_len s.buffer)) := by
  obtain ⟨r, hr, hr1⟩ := parse_buffer_loop_log_eq (rec_len s.buffer) hlen (rec_len s.buffer) fuel 0
    ((rec_len s.buffer + rec_addrH s.buffer + rec_addrL s.buffer + rec_type s.buffer) % 256) s
    (by omega) hfuel hdc
  obtain ⟨i, c, s1⟩ := r
  have hi : i = 9 + 2 * rec_len s.buffer := hr1
  unfold parse_buffer_accesses
  simp only [rec_len, rec_addrH, rec_addrL, rec_type] at hr hi ⊢
  simp only [Nat.mul_zero, Nat.add_zero] at hr
  rw [hr]
  simp only [hi]

/-- C20: for every record framed by `uart_poll` whose character count
before the line feed, start marker included, equals
`11 + 2 * byte_count`, entered with `data_count = 0`: `byte_count` is at
most 58; `parse_buffer` reads the record buffer at indices between 1 and
`10 + 2 * byte_count` only, all below `RX_BUFFER_LEN`; and it writes the
payload buffer at indices `0` to `byte_count - 1` only, all below the
page size when that is at least 64. -/
theorem decoder_bounds (P fuel : Nat) (s0 s : State) (body rest : List Nat)
    (h58 : 58 ∉ body) (h10 : 10 ∉ body)
    (hframe : uart_poll s0 (58 :: (body ++ (10 :: rest))) = Poll.returned s rest)
    (hcount : 1 + (stored body).length = 11 + 2 * rec_len s.buffer)
    (hdc : s.data_count = 0) (hP : 64 ≤ P) (hfuel : rec_len s.buffer < fuel) :
    rec_len s.buffer ≤ 58 ∧
    ∃ rd wr, parse_buffer_accesses fuel s = some (rd, wr) ∧
      (∀ i ∈ rd, 1 ≤ i ∧ i ≤ 10 + 2 * rec_len s.buffer ∧ i < RX_BUFFER_LEN) ∧
      (∀ j ∈ wr, j < rec_len s.buffer ∧ j < P) := by
  have hroom : (stored body).length + 2 ≤ RX_BUFFER_LEN := by
    by_contra hno
    have ho := (uart_poll_line s0 body rest h58 h10).2 (by omega)
    rw [hframe] at ho
    exact Bool.noConfusion ho
  have h128 : RX_BUFFER_LEN = 128 := rfl
  have hlen : rec_len s.buffer ≤ 58 := by omega
  refine ⟨hlen, _, _, parse_buffer_accesses_eq fuel s (by omega) hfuel hdc, ?_, ?_⟩
  · intro i hi
    rw [List.append_assoc] at hi
    rcases List.mem_append.mp hi with h | h
    · have h8 : 1 ≤ i ∧ i ≤ 8 := by
        simp only [List.mem_cons, List.mem_singleton, List.not_mem_nil, or_false] at h
        omega
      omega
    · rcases List.mem_append.mp h with h | h
      · have hr := List.mem_range'_1.mp h
        omega
      · simp only [List.mem_cons, List.mem_singleton, List.not_mem_nil, or_false] at h
        omega
  · intro j hj
    have hr := List.mem_range'_1.mp hj
    omega

/-- The line `:0400000001020304F2` framed in a fresh session. -/
theorem decoder_bounds_witness :
    58 ∉ text_codes "0400000001020304F2" ∧ 10 ∉ text_codes "0400000001020304F2" ∧
    uart_poll initial (58 :: (text_codes "0400000001020304F2" ++ (10 :: []))) =
      Poll.returned (uart_poll initial (58 :: (text_codes "0400000001020304F2" ++ (10 :: [])))).state
        [] ∧
    parse_buffer_accesses 200
        (uart_poll initial (58 :: (text_codes "0400000001020304F2" ++ (10 :: [])))).state =
      some (List.range' 1 18, [0, 1, 2, 3]) ∧
    (rec_len (uart_poll initial
        (58 :: (text_codes "0400000001020304F2" ++ (10 :: [])))).state.buffer ≤ 58 ∧
      ∃ rd wr, parse_buffer_accesses 200
          (uart_poll initial (58 :: (text_codes "0400000001020304F2" ++ (10 :: [])))).state =
          some (rd, wr) ∧
        (∀ i ∈ rd, 1 ≤ i ∧ i ≤ 10 + 2 * rec_len (uart_poll initial
            (58 :: (text_codes "0400000001020304F2" ++ (10 :: [])))).state.buffer ∧
          i < RX_BUFFER_LEN) ∧
        (∀ j ∈ wr, j < rec_len (uart_poll initial
            (58 :: (text_codes "0400000001020304F2" ++ (10 :: [])))).state.buffer ∧ j < 128)) :=
  ⟨by decide, by decide, by rfl, by decide,
    decoder_bounds 128 200 initial
      (uart_poll initial (58 :: (text_codes "0400000001020304F2" ++ (10 :: [])))).state
      (text_codes "0400000001020304F2") [] (by decide) (by decide) (by rfl) (by decide)
      (by decide) (by decide) (by decide)⟩

/-! ## The bytes a session sends (C12) -/

theorem stored_hex (t : List Nat) (h : ∀ ch ∈ t, is_hex_digit ch) :
    stored t = t ∧ 58 ∉ t ∧ 10 ∉ t := by
  refine ⟨?_, ?_, ?_⟩
  · unfold stored
    rw [List.filter_eq_self]
    intro c hc
    have hd := h c hc
    unfold is_hex_digit at hd
    have h1 : c ≠ 13 := by omega
    have h2 : c ≠ 0 := by omega
    simp [h1, h2]
  · intro hm
    have hd := h 58 hm
    unfold is_hex_digit at hd
    omega
  · intro hm
    have hd := h 10 hm
    unfold is_hex_digit at hd
    omega

theorem line_append (r : RecordText) (rest : List Nat) :
    r.line ++ rest = 58 :: (r.text ++ (10 :: rest)) := by
  simp [RecordText.line]

/-- The line of a record is framed whole, whatever the buffer held
before: the call returns with the text in the buffer and the rest of the
input unread. -/
theorem uart_poll_record (s : State) (r : RecordText) (hok : r.ok) (rest : List Nat) :
    ∃ s1, uart_poll s (r.line ++ rest) = Poll.returned s1 rest ∧ holds s1.buffer r.text ∧
      s1.data_count = s.data_count := by
  obtain ⟨h1, h2, _, _, h5⟩ := hok
  obtain ⟨e1, e2, e3⟩ := stored_hex r.text h1
  obtain ⟨s1, a1, _, _, a4, _, a6, _⟩ := (uart_poll_line s r.text rest e2 e3).1
    (by rw [e1, h2]; show 2 * (r.data.length + 5) + 2 ≤ 128; omega)
  rw [e1] at a4
  exact ⟨s1, by rw [line_append]; exact a1, a4, a6⟩

/-- One pass of the session loop over the line of a data record: `XOFF`,
the acknowledgment `.`, the page events of the record, `XON`, and the
loop goes on with the rest of the input. -/
theorem main_loop_data (P fuel n : Nat) (s : State) (r : RecordText) (rest : List Nat)
    (hok : r.ok) (hkind : r.kind = 0) (hdc : s.data_count = 0) (hf : 58 < fuel) :
    ∃ (res : Result) (tr0 : List Event),
      res.trace = Event.putchar RSP_DATA_RECORD :: tr0 ∧ sent tr0 = [] ∧
      res.state.data_count = 0 ∧
      main_loop P fuel (n + 1) s (r.line ++ rest) =
        match main_loop P fuel n res.state rest with
        | none => none
        | some (s2, tr, e) =>
          some (s2, Event.putchar XOFF :: res.trace ++ [Event.putchar XON] ++ tr, e) := by
  obtain ⟨s1, p1, p2, p3⟩ := uart_poll_record s r hok rest
  obtain ⟨f0, _, _, f3, _, f5, f6⟩ := record_fields r hok s1.buffer p2
  have hn : r.data.length ≤ 58 := hok.2.2.2.2
  obtain ⟨res, tr0, q1, q2, q3, q4, q5, _⟩ := parse_buffer_data_any P fuel s1 (by omega) (by omega)
    (by rw [f3, hkind]) (by rw [f5, f6]) (by rw [p3, hdc])
  refine ⟨res, tr0, q2, q3, q5, ?_⟩
  rw [main_loop]
  simp only [p1, q1, q4]
  rw [if_neg (by decide)]

/-- The pass of the session loop over the line of an end-of-file record:
`XOFF`, the acknowledgment `O`, the final commit if there is one, `XON`,
and the loop ends. -/
theorem main_loop_eof (P fuel n : Nat) (s : State) (r : RecordText) (rest : List Nat)
    (hok : r.ok) (hkind : r.kind = 1) (hf : 58 < fuel) :
    ∃ s2 tr, main_loop P fuel (n + 1) s (r.line ++ rest) = some (s2, tr, Exit.complete) ∧
      sent tr = [XOFF, RSP_EOF_REACHED, XON] := by
  obtain ⟨s1, p1, p2, _⟩ := uart_poll_record s r hok rest
  obtain ⟨f0, _, _, f3, _, f5, f6⟩ := record_fields r hok s1.buffer p2
  have hn : r.data.length ≤ 58 := hok.2.2.2.2
  have q := parse_buffer_eof P fuel s1 (by omega) (by omega) (by rw [f3, hkind]) (by rw [f5, f6])
  refine ⟨decoded s1, Event.putchar XOFF :: (Event.putchar RSP_EOF_REACHED ::
      (if s1.page_offset ≠ 0 then [Event.page_erase s1.page, Event.page_write s1.page]
        else [])) ++ [Event.putchar XON], ?_, ?_⟩
  · rw [main_loop]
    simp only [p1, q]
    rw [if_pos True.intro]
  · by_cases h0 : s1.page_offset ≠ 0
    · simp only [if_pos h0]; rfl
    · simp only [if_neg h0]; rfl

/-- The session loop over the lines of data records and of one
end-of-file record. -/
theorem main_loop_session (P fuel : Nat) (eof : RecordText) (rest : List Nat)
    (heof : eof.ok) (hkind : eof.kind = 1) (hf : 58 < fuel) :
    ∀ (recs : List RecordText) (n : Nat) (s : State),
    (∀ r ∈ recs, r.ok ∧ r.kind = 0) → s.data_count = 0 → recs.length < n →
    ∃ s2 tr, main_loop P fuel n s (lines recs ++ (eof.line ++ rest)) =
        some (s2, tr, Exit.complete) ∧
      sent tr = acks recs.length ++ [XOFF, RSP_EOF_REACHED, XON] := by
  intro recs
  induction recs with
  | nil =>
    intro n s _ _ hn
    obtain ⟨m, rfl⟩ : ∃ m, n = m + 1 := ⟨n - 1, by simp at hn; omega⟩
    exact main_loop_eof P fuel m s eof rest heof hkind hf
  | cons r rs ih =>
    intro n s hrs hdc hn
    obtain ⟨m, rfl⟩ : ∃ m, n = m + 1 := ⟨n - 1, by simp at hn; omega⟩
    obtain ⟨hr1, hr2⟩ := hrs r (List.mem_cons_self r rs)
    obtain ⟨res, tr0, a1, a2, a3, a4⟩ := main_loop_data P fuel m s r
      (lines rs ++ (eof.line ++ rest)) hr1 hr2 hdc hf
    obtain ⟨s2, tr, b1, b2⟩ := ih m res.state
      (fun x hx => hrs x (List.mem_cons_of_mem r hx)) a3
      (by simp only [List.length_cons] at hn; omega)
    rw [b1] at a4
    refine ⟨s2, Event.putchar XOFF :: res.trace ++ [Event.putchar XON] ++ tr, ?_, ?_⟩
    · show main_loop P fuel (m + 1) s (r.line ++ lines rs ++ (eof.line ++ rest)) = _
      rw [List.append_assoc]
      exact a4
    · rw [sent_append, sent_append, a1, b2]
      show XOFF :: RSP_DATA_RECORD :: sent tr0 ++ [XON] ++
        (acks rs.length ++ [XOFF, RSP_EOF_REACHED, XON]) = _
      rw [a2]
      rfl

theorem acks_free : ∀ n, RSP_WRITE_COMPLETE ∉ acks n := by
  intro n
  induction n with
  | zero => exact List.not_mem_nil _
  | succ n ih =>
    intro h
    rw [acks] at h
    simp only [List.mem_cons] at h
    rcases h with h | h | h | h
    · exact absurd h (by decide)
    · exact absurd h (by decide)
    · exact absurd h (by decide)
    · exact ih h

/-- C12: for every input stream made of the lines of `n ≥ 0` well-formed
data records with correct checksums, of even byte count or not, followed
by the line of one well-formed end-of-file record with a correct
checksum (and by anything after it), where a well-formed record is one
whose line fits the frame buffer, `main` ends with the image complete,
and the bytes it sends after the banner are exactly `XON`, then `XOFF`,
`.`, `XON` repeated `n` times, then `XOFF`, `O`, `XON`, `K`: the byte `K`
is the last event of the session, after every page event, and is sent
nowhere before. -/
theorem session_trace (P fuel n : Nat) (recs : List RecordText) (eof : RecordText)
    (rest : List Nat) (hrecs : ∀ r ∈ recs, r.ok ∧ r.kind = 0) (heof : eof.ok ∧ eof.kind = 1)
    (hf : 58 < fuel) (hn : recs.length < n) :
    ∃ s tr0, main P fuel n (lines recs ++ (eof.line ++ rest)) =
        some (s, print_version ++ (tr0 ++ [Event.putchar RSP_WRITE_COMPLETE]), Exit.complete) ∧
      sent tr0 = XON :: (acks recs.length ++ [XOFF, RSP_EOF_REACHED, XON]) ∧
      RSP_WRITE_COMPLETE ∉ sent tr0 ∧
      sent (print_version ++ (tr0 ++ [Event.putchar RSP_WRITE_COMPLETE])) =
        sent print_version ++
          (XON :: (acks recs.length ++ [XOFF, RSP_EOF_REACHED, XON, RSP_WRITE_COMPLETE])) := by
  obtain ⟨s2, tr, b1, b2⟩ := main_loop_session P fuel eof rest heof.1 heof.2 hf recs n
    { initial with head := 0 } hrecs rfl hn
  have hsent : sent (Event.putchar XON :: tr) =
      XON :: (acks recs.length ++ [XOFF, RSP_EOF_REACHED, XON]) := by
    show XON :: sent tr = _
    rw [b2]
  refine ⟨s2, Event.putchar XON :: tr, ?_, hsent, ?_, ?_⟩
  · unfold main
    rw [b1]
    simp only [if_pos, List.append_assoc, List.cons_append]
  · rw [hsent]
    intro h
    simp only [List.mem_cons, List.mem_append, List.mem_singleton, List.not_mem_nil,
      or_false] at h
    rcases h with h | h | h | h | h
    · exact absurd h (by decide)
    · exact acks_free _ h
    · exact absurd h (by decide)
    · exact absurd h (by decide)
    · exact absurd h (by decide)
  · rw [sent_append, sent_append, hsent]
    show _ = sent print_version ++ (XON :: (acks recs.length ++
      ([XOFF, RSP_EOF_REACHED, XON] ++ [RSP_WRITE_COMPLETE])))
    rw [← List.append_assoc (acks recs.length)]
    rfl

/-- The session `:0400000001020304f2`, `:00000001FF`: the banner, `XON`,
then `XOFF . XON` once, then `XOFF O XON K`, the final commit of page 0
coming between `O` and the last `XON`. -/
theorem session_trace_witness :
    (∀ r ∈ [sample_text], r.ok ∧ r.kind = 0) ∧ (eof_text.ok ∧ eof_text.kind = 1) ∧
    (main 128 200 5 (lines [sample_text] ++ (eof_text.line ++ []))).map (fun x => x.2.1) =
      some (print_version ++ [Event.putchar XON, Event.putchar XOFF, Event.putchar RSP_DATA_RECORD,
        Event.page_fill 0 0x0201, Event.page_fill 2 0x0403, Event.putchar XON,
        Event.putchar XOFF, Event.putchar RSP_EOF_REACHED, Event.page_erase 0,
        Event.page_write 0, Event.putchar XON, Event.putchar RSP_WRITE_COMPLETE]) ∧
    ∃ s tr0, main 128 200 5 (lines [sample_text] ++ (eof_text.line ++ [])) =
        some (s, print_version ++ (tr0 ++ [Event.putchar RSP_WRITE_COMPLETE]), Exit.complete) ∧
      sent tr0 = XON :: (acks [sample_text].length ++ [XOFF, RSP_EOF_REACHED, XON]) ∧
      RSP_WRITE_COMPLETE ∉ sent tr0 ∧
      sent (print_version ++ (tr0 ++ [Event.putchar RSP_WRITE_COMPLETE])) =
        sent print_version ++
          (XON :: (acks [sample_text].length ++
            [XOFF, RSP_EOF_REACHED, XON, RSP_WRITE_COMPLETE])) :=
  ⟨by decide, by decide, by decide,
    session_trace 128 200 5 [sample_text] eof_text [] (by decide) (by decide) (by decide)
      (by decide)⟩

end Bootloader
